import Mathlib

/-!
Verification of the static-filtering parser (`src/js/static-filtering-parser.js`).

The JavaScript parser stores slice descriptors flatly, three integers per
slice (class bits, origin, length), with all indices being multiples of 3.
The embedding below uses a `List Slice` of structured triplets instead and
rescales every index by 3: a JS slot `i` (a multiple of 3) corresponds to the
list index `i / 3`, a JS `i += 3` becomes `i + 1`, a JS read `slices[i]`,
`slices[i+1]`, `slices[i+2]` becomes `(sliceAt st i).bits` / `.origin` /
`.len`.  Byte lengths (second argument of `splitSlot`, origins, `maxTokenLength`)
stay unchanged.  JS reads of array cells beyond the written region that can
only occur out of the reachable range return `undefined`, whose bit tests are
all false; the embedding's `getD` default slice `⟨0, 0, 0⟩` has the same
observable behaviour on those tests.

Strings are embedded as `List Nat` of UTF-16 code units (`String.charCodeAt`);
`s2c` converts a Lean string literal for tokens and witnesses.

Host-environment functionality (the DOM-backed CSS-selector compiler invoked
through `compileSelector`, the `RegExp` engine behind `reIsLocalhostRedirect`,
and the `URL`-based punycoder) is modelled by an `Oracles` record of
deterministic function parameters, as the specification directs
("external collaborators").
-/

namespace UBP

/-! ### Character-class bits (source lines 1634-1672) -/

def BITSpace          : Nat := 1 <<< 0
def BITGlyph          : Nat := 1 <<< 1
def BITExclamation    : Nat := 1 <<< 2
def BITHash           : Nat := 1 <<< 3
def BITDollar         : Nat := 1 <<< 4
def BITPercent        : Nat := 1 <<< 5
def BITParen          : Nat := 1 <<< 6
def BITAsterisk       : Nat := 1 <<< 7
def BITPlus           : Nat := 1 <<< 8
def BITComma          : Nat := 1 <<< 9
def BITDash           : Nat := 1 <<< 10
def BITPeriod         : Nat := 1 <<< 11
def BITSlash          : Nat := 1 <<< 12
def BITNum            : Nat := 1 <<< 13
def BITEqual          : Nat := 1 <<< 14
def BITQuestion       : Nat := 1 <<< 15
def BITAt             : Nat := 1 <<< 16
def BITAlpha          : Nat := 1 <<< 17
def BITUppercase      : Nat := 1 <<< 18
def BITSquareBracket  : Nat := 1 <<< 19
def BITBackslash      : Nat := 1 <<< 20
def BITCaret          : Nat := 1 <<< 21
def BITUnderscore     : Nat := 1 <<< 22
def BITBrace          : Nat := 1 <<< 23
def BITPipe           : Nat := 1 <<< 24
def BITTilde          : Nat := 1 <<< 25
def BITOpening        : Nat := 1 <<< 27
def BITClosing        : Nat := 1 <<< 28
def BITUnicode        : Nat := 1 <<< 29
def BITIgnore         : Nat := 1 <<< 30
def BITError          : Nat := 1 <<< 31

def BITAll            : Nat := 0xFFFFFFFF
def BITAlphaNum       : Nat := BITNum ||| BITAlpha
def BITRegexWord      : Nat := BITAlphaNum ||| BITUnderscore
def BITHostname       : Nat :=
  BITNum ||| BITAlpha ||| BITUppercase ||| BITDash ||| BITPeriod |||
  BITUnderscore ||| BITUnicode
def BITPatternToken   : Nat := BITNum ||| BITAlpha ||| BITPercent
def BITLineComment    : Nat := BITExclamation ||| BITHash ||| BITSquareBracket

/-! ### Flavor bits (source lines 1784-1803) -/

def BITFlavorException         : Nat := 1 <<< 0
def BITFlavorNetRegex          : Nat := 1 <<< 1
def BITFlavorNetLeftURLAnchor  : Nat := 1 <<< 2
def BITFlavorNetRightURLAnchor : Nat := 1 <<< 3
def BITFlavorNetLeftHnAnchor   : Nat := 1 <<< 4
def BITFlavorNetRightHnAnchor  : Nat := 1 <<< 5
def BITFlavorNetSpaceInPattern : Nat := 1 <<< 6
def BITFlavorExtStyle          : Nat := 1 <<< 7
def BITFlavorExtStrong         : Nat := 1 <<< 8
def BITFlavorExtCosmetic       : Nat := 1 <<< 9
def BITFlavorExtScriptlet      : Nat := 1 <<< 10
def BITFlavorExtHTML           : Nat := 1 <<< 11
def BITFlavorIgnore            : Nat := 1 <<< 29
def BITFlavorUnsupported       : Nat := 1 <<< 30
def BITFlavorError             : Nat := 1 <<< 31

def BITFlavorNetLeftAnchor  : Nat := BITFlavorNetLeftURLAnchor ||| BITFlavorNetLeftHnAnchor
def BITFlavorNetRightAnchor : Nat := BITFlavorNetRightURLAnchor ||| BITFlavorNetRightHnAnchor
def BITFlavorNetHnAnchor    : Nat := BITFlavorNetLeftHnAnchor ||| BITFlavorNetRightHnAnchor
def BITFlavorNetAnchor      : Nat := BITFlavorNetLeftAnchor ||| BITFlavorNetRightAnchor

/-! ### Categories (source lines 1629-1632) -/

def CATNone : Nat := 0
def CATStaticExtFilter : Nat := 1
def CATStaticNetFilter : Nat := 2
def CATComment : Nat := 3

/-- Bitmask truthiness helpers (source lines 1622-1624). -/
def hasBitsB (v bits : Nat) : Bool := (v &&& bits) != 0

def hasNoBitsB (v bits : Nat) : Bool := (v &&& bits) == 0

def hasNotAllBitsB (v bits : Nat) : Bool := (v &&& bits) != bits

/-- The per-byte character-class table `charDescBits` (source lines 1678-1782),
    written as a function on the byte value; entries that the flat JS table
    leaves at `0` are the final catch-all. -/
def charDescBits (c : Nat) : Nat :=
  if c = 0x09 ∨ c = 0x0A ∨ c = 0x0D ∨ c = 0x20 then BITSpace
  else if c = 0x21 then BITExclamation
  else if c = 0x22 ∨ c = 0x26 ∨ c = 0x27 ∨ c = 0x3A ∨ c = 0x3B ∨ c = 0x3C ∨
          c = 0x3E ∨ c = 0x60 then BITGlyph
  else if c = 0x23 then BITHash
  else if c = 0x24 then BITDollar
  else if c = 0x25 then BITPercent
  else if c = 0x28 then BITParen ||| BITOpening
  else if c = 0x29 then BITParen ||| BITClosing
  else if c = 0x2A then BITAsterisk
  else if c = 0x2B then BITPlus
  else if c = 0x2C then BITComma
  else if c = 0x2D then BITDash
  else if c = 0x2E then BITPeriod
  else if c = 0x2F then BITSlash
  else if 0x30 ≤ c ∧ c ≤ 0x39 then BITNum
  else if c = 0x3D then BITEqual
  else if c = 0x3F then BITQuestion
  else if c = 0x40 then BITAt
  else if 0x41 ≤ c ∧ c ≤ 0x5A then BITAlpha ||| BITUppercase
  else if c = 0x5B then BITSquareBracket ||| BITOpening
  else if c = 0x5C then BITBackslash
  else if c = 0x5D then BITSquareBracket ||| BITClosing
  else if c = 0x5E then BITCaret
  else if c = 0x5F then BITUnderscore
  else if 0x61 ≤ c ∧ c ≤ 0x7A then BITAlpha
  else if c = 0x7B then BITBrace ||| BITOpening
  else if c = 0x7C then BITPipe
  else if c = 0x7D then BITBrace ||| BITClosing
  else if c = 0x7E then BITTilde
  else 0

/-- `BITUnicode | BITAlpha`, the class given to every code unit ≥ 0x80
    (source line 707). -/
def unicodeBits : Nat := BITUnicode ||| BITAlpha

/-- Class bits of one code unit: table lookup below 0x80, `unicodeBits`
    otherwise (source lines 712, 720). -/
def classBits (c : Nat) : Nat :=
  if c < 0x80 then charDescBits c else unicodeBits

/-- Convert a Lean string literal to the `List Nat` code-unit embedding. -/
def s2c (s : String) : List Nat := s.data.map Char.toNat

/-! ### Slices and spans -/

/-- One slice descriptor: a `(bits, origin, length)` triplet
    (three consecutive integer cells in the JS flat array). -/
structure Slice where
  bits : Nat
  origin : Nat
  len : Nat
deriving DecidableEq, Repr

/-- Default result of reading an unwritten slice slot (JS `undefined`:
    every bit test on it is false, every numeric comparison fails). -/
def dSlice : Slice := ⟨0, 0, 0⟩

/-- A span: `(i, l)` in slice-list units (source lines 1928-1935,
    JS stores multiples of 3). -/
structure Span where
  i : Nat := 0
  l : Nat := 0
deriving DecidableEq, Repr

/-- Parser state: the fields of the `Parser` class that the analysis
    stages read or write (source lines 74-127).  The `result` scratch
    object (write-only output of the DOM-backed selector compiler, not
    observable by any claim) is not carried. -/
structure PState where
  interactive : Bool := false
  raw : List Nat := []
  slices : List Slice := []
  sliceWritePtr : Nat := 0
  category : Nat := 0
  allBits : Nat := 0
  patternBits : Nat := 0
  optionsBits : Nat := 0
  flavorBits : Nat := 0
  leftSpaceSpan : Span := {}
  exceptionSpan : Span := {}
  patternLeftAnchorSpan : Span := {}
  patternSpan : Span := {}
  patternRightAnchorSpan : Span := {}
  optionsAnchorSpan : Span := {}
  optionsSpan : Span := {}
  commentSpan : Span := {}
  rightSpaceSpan : Span := {}
  eolSpan : Span := {}
  maxTokenLength : Nat := 9007199254740991
  pattern : List Nat := []
deriving DecidableEq, Repr

/-- Read one slice slot (JS `this.slices[i..i+2]`). -/
def sliceAt (st : PState) (i : Nat) : Slice := st.slices.getD i dSlice

/-- `Parser.reset` (source lines 118-127). -/
def reset (st : PState) : PState :=
  { st with
    sliceWritePtr := 0
    category := CATNone
    allBits := 0
    patternBits := 0
    optionsBits := 0
    flavorBits := 0
    leftSpaceSpan := {}
    exceptionSpan := {}
    patternLeftAnchorSpan := {}
    patternSpan := {}
    patternRightAnchorSpan := {}
    optionsAnchorSpan := {}
    optionsSpan := {}
    commentSpan := {}
    rightSpaceSpan := {}
    eolSpan := {}
    pattern := [] }

/-! ### The slicer (source lines 701-761)

`sliceScan b o l cs` is the scanning loop of `Parser.slice` in the middle of
the input: the current open slice has class `b`, starts at byte offset `o`
and holds `l` bytes so far; `cs` are the remaining bytes.  A byte whose class
differs from `b` closes the current slice and opens a new one. -/

def sliceScan (b o l : Nat) : List Nat → List Slice
  | [] => [⟨b, o, l⟩]
  | c :: cs =>
    let b2 := classBits c
    if b2 = b then sliceScan b o (l + 1) cs
    else ⟨b, o, l⟩ :: sliceScan b2 (o + l) 1 cs

/-- The list of slices written by `Parser.slice raw`, end-of-line sentinel
    included; empty input writes nothing (source line 705). -/
def sliceList (raw : List Nat) : List Slice :=
  match raw with
  | [] => []
  | c :: cs => sliceScan (classBits c) 0 1 cs ++ [⟨0, raw.length, 0⟩]

/-- Union of the class bits of all slices (the `allBits` accumulation of
    the scan loop; the sentinel contributes 0). -/
def bitsUnion (xs : List Slice) : Nat := xs.foldl (fun a s => a ||| s.bits) 0

/-- `Parser.slice` (source lines 701-761): reset, remember the raw line,
    overwrite the front of the reused slice buffer, set the
    left-space/right-space/eol spans and the write pointer. -/
def sliceFn (st0 : PState) (raw : List Nat) : PState :=
  let st := reset st0
  let st := { st with raw := raw }
  if raw.length = 0 then st
  else
    let xs := sliceList raw
    let slices := xs ++ st.slices.drop xs.length
    let wptr := xs.length
    let eolI := wptr - 1
    let leftL := if hasBitsB (xs.getD 0 dSlice).bits BITSpace then 1 else 0
    let lastSlice := eolI - 1
    let rs : Span :=
      if lastSlice > 0 ∧ hasBitsB (xs.getD lastSlice dSlice).bits BITSpace
      then ⟨lastSlice, 1⟩ else ⟨eolI, 0⟩
    { st with
      slices := slices
      sliceWritePtr := wptr
      eolSpan := ⟨eolI, 0⟩
      leftSpaceSpan := ⟨0, leftL⟩
      rightSpaceSpan := rs
      allBits := bitsUnion xs }

/-! ### splitSlot (source lines 763-777) -/

/-- The slice-buffer effect of `Parser.splitSlot`: grow capacity by one
    triple if needed, shift the window `[slot, wptr)` right by one
    (`copyWithin`), then overwrite `slot` and `slot+1` so the old slice
    `(b, o, L)` at `slot` becomes `(b, o, l)` followed by `(b, o+l, L-l)`. -/
def bufSplit (buf : List Slice) (wptr slot l : Nat) : List Slice :=
  let buf := if wptr + 1 > buf.length then buf ++ [dSlice] else buf
  let s := buf.getD slot dSlice
  buf.take slot ++
    [⟨s.bits, s.origin, l⟩, ⟨s.bits, s.origin + l, s.len - l⟩] ++
    ((buf.drop (slot + 1)).take (wptr - slot - 1)) ++
    buf.drop (wptr + 1)

/-- Shift a span's start right by one if it lies strictly after the split
    point (source lines 772-776). -/
def spanShift (sp : Span) (slot : Nat) : Span :=
  if sp.i > slot then { sp with i := sp.i + 1 } else sp

/-- `Parser.splitSlot slot l` (source lines 763-777). -/
def splitSlot (st : PState) (slot l : Nat) : PState :=
  { st with
    slices := bufSplit st.slices st.sliceWritePtr slot l
    sliceWritePtr := st.sliceWritePtr + 1
    leftSpaceSpan := spanShift st.leftSpaceSpan slot
    exceptionSpan := spanShift st.exceptionSpan slot
    patternLeftAnchorSpan := spanShift st.patternLeftAnchorSpan slot
    patternSpan := spanShift st.patternSpan slot
    patternRightAnchorSpan := spanShift st.patternRightAnchorSpan slot
    optionsAnchorSpan := spanShift st.optionsAnchorSpan slot
    optionsSpan := spanShift st.optionsSpan slot
    commentSpan := spanShift st.commentSpan slot
    rightSpaceSpan := spanShift st.rightSpaceSpan slot
    eolSpan := spanShift st.eolSpan slot }

/-! ### Buffer helpers (source lines 779-845) -/

/-- `Parser.markSlices beg end bits`: OR overlay bits onto each slice in
    `[beg, end)` (source lines 779-784). -/
def markSlicesBits (buf : List Slice) (beg endI bits : Nat) : List Slice :=
  (List.range' beg (endI - beg)).foldl
    (fun b j =>
      let s := b.getD j dSlice
      b.set j { s with bits := s.bits ||| bits })
    buf

def markSlices (st : PState) (beg endI bits : Nat) : PState :=
  { st with slices := markSlicesBits st.slices beg endI bits }

/-- `Parser.markSpan` (source lines 786-789). -/
def markSpan (st : PState) (sp : Span) (bits : Nat) : PState :=
  markSlices st sp.i (sp.i + sp.l) bits

/-- `Parser.unmarkSlices` (source lines 791-796). -/
def unmarkSlices (st : PState) (beg endI bits : Nat) : PState :=
  let buf :=
    (List.range' beg (endI - beg)).foldl
      (fun b j =>
        let s := b.getD j dSlice
        b.set j { s with bits := s.bits &&& (BITAll ^^^ bits) })
      st.slices
  { st with slices := buf }

/-- `Parser.findFirstMatch from bits` (source lines 798-805): first slot in
    `[from, wptr)` whose bits intersect `bits`, `none` for JS `-1`. -/
def findFirstMatchAux (st : PState) (bits : Nat) : Nat → Nat → Option Nat
  | 0, _ => none
  | fuel + 1, j =>
    if j < st.sliceWritePtr then
      if hasBitsB (sliceAt st j).bits bits then some j
      else findFirstMatchAux st bits fuel (j + 1)
    else none

def findFirstMatch (st : PState) (frm bits : Nat) : Option Nat :=
  findFirstMatchAux st bits (st.sliceWritePtr + 1) frm

/-- `Parser.findFirstOdd from bits` (source lines 807-814): first slot in
    `[from, wptr)` whose bits do NOT intersect `bits`. -/
def findFirstOddAux (st : PState) (bits : Nat) : Nat → Nat → Option Nat
  | 0, _ => none
  | fuel + 1, j =>
    if j < st.sliceWritePtr then
      if hasNoBitsB (sliceAt st j).bits bits then some j
      else findFirstOddAux st bits fuel (j + 1)
    else none

def findFirstOdd (st : PState) (frm bits : Nat) : Option Nat :=
  findFirstOddAux st bits (st.sliceWritePtr + 1) frm

/-- `Parser.skipUntil from to bits` (source lines 816-823): starts at
    `from+1`, stops at `to` or at the first slot whose bits intersect
    `bits`.  The fuel is always at least `wptr + 2`, enough for the loop to
    reach `to` or run off the written region (where the `dSlice` default
    stops `skipUntilNot`). -/
def skipUntilAux (st : PState) (tgt bits : Nat) : Nat → Nat → Nat
  | 0, i => i
  | fuel + 1, i =>
    if i = tgt then i
    else if hasBitsB (sliceAt st i).bits bits then i
    else skipUntilAux st tgt bits fuel (i + 1)

def skipUntil (st : PState) (frm tgt bits : Nat) : Nat :=
  skipUntilAux st tgt bits (st.sliceWritePtr + 2) (frm + 1)

/-- `Parser.skipUntilNot from to bits` (source lines 825-832). -/
def skipUntilNotAux (st : PState) (tgt bits : Nat) : Nat → Nat → Nat
  | 0, i => i
  | fuel + 1, i =>
    if i = tgt then i
    else if hasNoBitsB (sliceAt st i).bits bits then i
    else skipUntilNotAux st tgt bits fuel (i + 1)

def skipUntilNot (st : PState) (frm tgt bits : Nat) : Nat :=
  skipUntilNotAux st tgt bits (st.sliceWritePtr + 2) (frm + 1)

/-- JS `raw.slice(beg, end)` on the code-unit list. -/
def rawSlice (raw : List Nat) (beg endI : Nat) : List Nat :=
  (raw.drop beg).take (endI - beg)

/-- `Parser.strFromSlices from to` (source lines 834-839). -/
def strFromSlices (st : PState) (frm tgt : Nat) : List Nat :=
  rawSlice st.raw (sliceAt st frm).origin
    ((sliceAt st tgt).origin + (sliceAt st tgt).len)

/-- `Parser.strFromSpan` (source lines 841-845). -/
def strFromSpan (st : PState) (sp : Span) : List Nat :=
  if sp.l = 0 then [] else strFromSlices st sp.i (sp.i + sp.l - 1)

/-! ### Simple state queries (source lines 847-1056) -/

/-- `Parser.isBlank` (source lines 847-849). -/
def isBlank (st : PState) : Bool := st.allBits == BITSpace

/-- `Parser.hasOptions` (source lines 851-853). -/
def hasOptions (st : PState) : Bool := st.optionsSpan.l != 0

/-- `Parser.getNetPattern` (source lines 865-876), returning the updated
    state (the method caches into `this.pattern`) and the string. -/
def getNetPattern (st : PState) : PState × List Nat :=
  if st.pattern ≠ [] then (st, st.pattern)
  else if st.patternSpan.l = 0 then (st, [])
  else
    let i := st.patternSpan.i
    let l := st.patternSpan.l
    let beg := (sliceAt st i).origin
    let endI := (sliceAt st (i + l)).origin
    let p :=
      if hasBitsB st.flavorBits BITFlavorNetRegex
      then rawSlice st.raw (beg + 1) (endI - 1)
      else rawSlice st.raw beg endI
    ({ st with pattern := p }, p)

/-- `Parser.patternIsRegex` (source lines 924-926). -/
def patternIsRegex (st : PState) : Bool :=
  hasBitsB st.flavorBits BITFlavorNetRegex

/-- `Parser.patternHasUnicode` (source lines 936-938). -/
def patternHasUnicode (st : PState) : Bool :=
  hasBitsB st.patternBits BITUnicode

/-- `Parser.isException` (source lines 1039-1041). -/
def isException (st : PState) : Bool :=
  hasBitsB st.flavorBits BITFlavorException

/-- `Parser.shouldIgnore` (source lines 1043-1045). -/
def shouldIgnore (st : PState) : Bool :=
  hasBitsB st.flavorBits BITFlavorIgnore

/-- `Parser.hasError` (source lines 1047-1049). -/
def hasError (st : PState) : Bool :=
  hasBitsB st.flavorBits BITFlavorError

/-- `Parser.shouldDiscard` (source lines 1051-1056). -/
def shouldDiscard (st : PState) : Bool :=
  hasBitsB st.flavorBits (BITFlavorError ||| BITFlavorUnsupported ||| BITFlavorIgnore)

/-! ### Host-environment oracles

The DOM-backed selector compiler (`Parser.prototype.compileSelector`,
source lines 1074-1618; it calls `document.createElement`,
`Element.matches`, `document.createExpression`), the `RegExp` engine
behind `reIsLocalhostRedirect` (source line 105) and the `URL`-based
punycoder (source line 107) are host-environment collaborators; they are
modelled as deterministic function parameters. -/

structure Oracles where
  /-- `compileSelector(selector, out) → bool`; it reads `this.flavorBits`
      (the `BITFlavorExtStyle` test at source line 1566), hence the extra
      argument. -/
  compileSelector : Nat → List Nat → Bool
  /-- `reIsLocalhostRedirect.test(s)` (source lines 105, 516). -/
  isLocalhostRedirect : List Nat → Bool
  /-- `this.punycoder.hostname = s` followed by reading it back
      (source lines 1026-1030); `none` models the `catch` branch. -/
  punyToAscii : List Nat → Option (List Nat)

/-! ### Extended-filter analysis (source lines 182-316) -/

/-- `s.startsWith(pre)` on code-unit lists. -/
def listStartsWith : List Nat → List Nat → Bool
  | [], _ => true
  | _ :: _, [] => false
  | p :: ps, c :: cs => p == c && listStartsWith ps cs

/-- OR a flavor bit into the state. -/
def addFlavor (st : PState) (bits : Nat) : PState :=
  { st with flavorBits := st.flavorBits ||| bits }

/-- `Parser.analyzeExtPattern` (source lines 270-305).  The mutations of the
    `result` scratch object are not modelled; `compileSelector` is the
    oracle. -/
def analyzeExtPattern (o : Oracles) (st : PState) : PState :=
  let selector := strFromSpan st st.patternSpan
  if selector = [] then addFlavor st BITFlavorUnsupported
  else
    let i := st.patternSpan.i
    if hasBitsB (sliceAt st i).bits BITPlus ∧
       listStartsWith (s2c "+js(") selector ∧ selector.getLast? = some 41 then
      addFlavor st BITFlavorExtScriptlet
    else
      let stSel :=
        if hasBitsB (sliceAt st i).bits BITCaret then
          (addFlavor st BITFlavorExtHTML, selector.drop 1)
        else (addFlavor st BITFlavorExtCosmetic, selector)
      if o.compileSelector stSel.1.flavorBits stSel.2 = false then
        addFlavor stSel.1 BITFlavorUnsupported
      else stSel.1

/-- Common epilogue of `analyzeExt` for the 2-or-3-`#` case
    (source lines 209-217): options strictly before `from`, a one-slice
    anchor, pattern from `from+1`. -/
def analyzeExtFinish (o : Oracles) (st : PState) (frm anchorLen flavor : Nat)
    (setFlavor : Bool) : PState :=
  let oI := st.leftSpaceSpan.i + st.leftSpaceSpan.l
  let st :=
    { st with
      optionsSpan := ⟨oI, frm - oI⟩
      optionsAnchorSpan := ⟨frm, anchorLen⟩
      patternSpan := ⟨frm + anchorLen, st.rightSpaceSpan.i - (frm + anchorLen)⟩
      flavorBits := if setFlavor then flavor else st.flavorBits
      category := CATStaticExtFilter }
  analyzeExtPattern o st

/-- `Parser.analyzeExt from` (source lines 193-268). -/
def analyzeExt (o : Oracles) (st : PState) (frm : Nat) : PState :=
  let endI := st.rightSpaceSpan.i
  let l := (sliceAt st frm).len
  if l > 3 then st
  else if l ≠ 1 then
    -- two or three consecutive `#`s
    if l = 2 ∧ (frm + 1 = endI ∨ hasBitsB (sliceAt st (frm + 1)).bits BITSpace)
    then st
    else
      let st := if l = 2 then st else splitSlot st frm 2
      analyzeExtFinish o st frm 1 0 false
  else
    -- single `#`: optional @, then ($ (?)? | % | ?), then a terminal #
    let t := frm + 1
    if t = endI then st
    else
      let atStep : Option (Nat × Nat) :=
        if hasBitsB (sliceAt st t).bits BITAt then
          if (sliceAt st t).len ≠ 1 then none
          else if t + 1 = endI then none
          else some (t + 1, BITFlavorException)
        else some (t, 0)
      match atStep with
      | none => st
      | some (t, flavor) =>
        let midStep : Option (Nat × Nat) :=
          if hasBitsB (sliceAt st t).bits BITDollar then
            if (sliceAt st t).len ≠ 1 then none
            else if t + 1 = endI then none
            else
              let flavor := flavor ||| BITFlavorExtStyle
              let t := t + 1
              if hasBitsB (sliceAt st t).bits BITQuestion then
                if (sliceAt st t).len ≠ 1 then none
                else if t + 1 = endI then none
                else some (t + 1, flavor ||| BITFlavorExtStrong)
              else some (t, flavor)
          else if hasBitsB (sliceAt st t).bits (BITPercent ||| BITQuestion) then
            if (sliceAt st t).len ≠ 1 then none
            else if t + 1 = endI then none
            else
              let fb := if hasBitsB (sliceAt st t).bits BITQuestion
                        then BITFlavorExtStrong else BITFlavorUnsupported
              some (t + 1, flavor ||| fb)
          else some (t, flavor)
        match midStep with
        | none => st
        | some (t, flavor) =>
          if hasNoBitsB (sliceAt st t).bits BITHash then st
          else
            let st := if (sliceAt st t).len > 1 then splitSlot st t 1 else st
            analyzeExtFinish o st frm (t + 1 - frm) flavor true

/-! ### Network-filter analysis (source lines 339-605) -/

/-- OR bits into the slice at `idx` (JS `this.slices[idx] |= bits`). -/
def orBitsAt (st : PState) (idx bits : Nat) : PState :=
  let s := st.slices.getD idx dSlice
  { st with slices := st.slices.set idx { s with bits := s.bits ||| bits } }

/-- Clear flavor bits (JS `this.flavorBits &= ~mask`, 32-bit). -/
def clearFlavor (st : PState) (mask : Nat) : PState :=
  { st with flavorBits := st.flavorBits &&& (BITAll ^^^ mask) }

/-- Exception prefix stage (source lines 340-359): consume `@@`, splitting a
    longer run; returns the state and the first slot of the pattern. -/
def netExceptionStage (st : PState) : PState × Nat :=
  let islice := st.leftSpaceSpan.i
  let st := { st with exceptionSpan := { st.exceptionSpan with i := st.leftSpaceSpan.l } }
  if islice < st.commentSpan.i ∧ hasBitsB (sliceAt st islice).bits BITAt then
    let l := (sliceAt st islice).len
    if l ≥ 2 then
      let st := if l > 2 then splitSlot st islice 2 else st
      let st := { st with exceptionSpan := { st.exceptionSpan with l := 1 } }
      let st := addFlavor st BITFlavorException
      (st, islice + 1)
    else (st, islice)
  else (st, islice)

/-- The regex shape test on the current pattern span (source lines 373-377
    and 414-418): a single slice longer than 2 bytes, or more than one slice
    with the last one carrying `SLASH`. -/
def regexCheck (st : PState) : Bool :=
  let i := st.patternSpan.i
  let l := st.patternSpan.l
  (l == 1 && (sliceAt st i).len > 2) ||
  (decide (l > 1) && hasBitsB (sliceAt st (i + l - 1)).bits BITSlash)

/-- The backward scan for the options anchor `$` (source lines 382-390):
    from `optionsAnchorSpan.i` down to `islice`, accumulating the class bits
    of the slices walked over; stops at the first (i.e. rightmost-first
    found) slice carrying `DOLLAR`.  The argument is the slot one past the
    current candidate, so plain structural recursion applies. -/
def optScanLoop (st : PState) (islice : Nat) (acc : Nat) : Nat → Nat × Option Nat
  | 0 => (acc, none)
  | i + 1 =>
    if i < islice then (acc, none)
    else
      let bits := (sliceAt st i).bits
      if hasBitsB bits BITDollar then (acc, some i)
      else optScanLoop st islice (acc ||| bits) i

/-- Options split stage (source lines 381-421, minus the regex recompute):
    locate the `$` anchor, handle the AdGuard `$$` idiom, split a longer
    `$`-run, and set the pattern/options-anchor/options spans. -/
def netOptionsStage (st : PState) (islice : Nat) : PState :=
  let scan := optScanLoop st islice 0 st.optionsAnchorSpan.i
  match scan.2 with
  | none => st
  | some i =>
    let l := (sliceAt st i).len
    let sti :=
      if l > 1 then
        if findFirstOdd st 0 (BITHostname ||| BITComma ||| BITAsterisk) = some i then
          let st := addFlavor st BITFlavorError
          let st := if st.interactive then markSlices st i (i + 1) BITError else st
          (st, i)
        else (splitSlot st i (l - 1), i + 1)
      else (st, i)
    let st := sti.1
    let i := sti.2
    let st := { st with patternSpan := { st.patternSpan with l := i - st.patternSpan.i } }
    let st := { st with optionsAnchorSpan := ⟨i, 1⟩ }
    let st := { st with optionsSpan := ⟨i + 1, st.commentSpan.i - (i + 1)⟩ }
    { st with optionsBits := scan.1 }

/-- Left-anchor stage (source lines 435-454). -/
def netLeftAnchorStage (st : PState) : PState :=
  if st.patternSpan.l ≠ 0 ∧ hasBitsB (sliceAt st st.patternSpan.i).bits BITPipe then
    let st := { st with patternLeftAnchorSpan := { st.patternLeftAnchorSpan with l := 1 } }
    let l := (sliceAt st st.patternSpan.i).len
    let st :=
      if l > 2 then splitSlot st st.patternSpan.i 2
      else { st with patternSpan := { st.patternSpan with l := st.patternSpan.l - 1 } }
    let st := { st with patternSpan := { st.patternSpan with i := st.patternSpan.i + 1 } }
    addFlavor st (if l = 1 then BITFlavorNetLeftURLAnchor else BITFlavorNetLeftHnAnchor)
  else st

/-- Right-anchor stage (source lines 455-493). -/
def netRightAnchorStage (st : PState) : PState :=
  if st.patternSpan.l ≠ 0 then
    let lastPatternSlice :=
      if st.patternSpan.l > 1 then st.patternRightAnchorSpan.i - 1 else st.patternSpan.i
    let bits := (sliceAt st lastPatternSlice).bits
    if hasBitsB bits BITPipe then
      let st := { st with patternRightAnchorSpan := ⟨lastPatternSlice, 1⟩ }
      let l := (sliceAt st st.patternRightAnchorSpan.i).len
      let st :=
        if l > 1 then
          let st := splitSlot st st.patternRightAnchorSpan.i (l - 1)
          { st with patternRightAnchorSpan :=
              { st.patternRightAnchorSpan with i := st.patternRightAnchorSpan.i + 1 } }
        else { st with patternSpan := { st.patternSpan with l := st.patternSpan.l - 1 } }
      addFlavor st BITFlavorNetRightURLAnchor
    else if hasBitsB bits BITCaret ∧ (sliceAt st lastPatternSlice).len = 1 ∧
            hasBitsB st.flavorBits BITFlavorNetLeftHnAnchor ∧
            skipUntilNot st st.patternSpan.i lastPatternSlice BITHostname = lastPatternSlice
    then
      let st := { st with patternRightAnchorSpan := ⟨lastPatternSlice, 1⟩ }
      let st := { st with patternSpan := { st.patternSpan with l := st.patternSpan.l - 1 } }
      addFlavor st BITFlavorNetRightHnAnchor
    else st
  else st

/-- The backward space scan over the pattern (source lines 503-512):
    starting from relative slot `l` going down, accumulate pattern bits
    until a `SPACE` slice is hit; returns the relative slot of that space
    (0 when none is found before the start) and the accumulated bits. -/
def spaceScan (st : PState) (i : Nat) (acc : Nat) : Nat → Nat × Nat
  | 0 => (0, acc)
  | j + 1 =>
    let bits := (sliceAt st (i + j)).bits
    if hasBitsB bits BITSpace then (j, acc)
    else spaceScan st i (acc ||| bits) j

/-- Hosts-file residue stage (source lines 496-524): when the pattern
    contains a space, keep only the part after the last space; test the
    remains against the localhost-redirect regex; in interactive mode mark
    the dropped slices. -/
def netSpaceStage (o : Oracles) (st : PState) : PState :=
  let scan := spaceScan st st.patternSpan.i st.patternBits st.patternSpan.l
  let j := scan.1
  let st := { st with patternBits := scan.2 }
  if j ≠ 0 then
    let st := { st with patternSpan :=
      ⟨st.patternSpan.i + j + 1, st.patternSpan.l - (j + 1)⟩ }
    let stp := getNetPattern st
    let st := stp.1
    let st := if o.isLocalhostRedirect stp.2 then addFlavor st BITFlavorIgnore else st
    if st.interactive then markSlices st 0 st.patternSpan.i BITIgnore else st
  else st

/-- Pointless-wildcard/anchor elimination stage (source lines 526-602). -/
def netWildcardStage (st : PState) : PState :=
  -- pointless leading wildcard
  let st :=
    if st.patternSpan.l > 1 ∧
       hasBitsB (sliceAt st st.patternSpan.i).bits BITAsterisk ∧
       hasNoBitsB (sliceAt st (st.patternSpan.i + 1)).bits BITPatternToken then
      let st := orBitsAt st st.patternSpan.i BITIgnore
      let st := { st with patternSpan :=
        ⟨st.patternSpan.i + 1, st.patternSpan.l - 1⟩ }
      if st.patternLeftAnchorSpan.l ≠ 0 then
        let st := orBitsAt st st.patternLeftAnchorSpan.i BITIgnore
        clearFlavor st BITFlavorNetLeftAnchor
      else st
    else st
  -- pointless trailing wildcard
  let st :=
    if st.patternSpan.l > 1 ∧
       hasBitsB (sliceAt st (st.patternSpan.i + st.patternSpan.l - 1)).bits BITAsterisk ∧
       hasNoBitsB (sliceAt st (st.patternSpan.i + st.patternSpan.l - 2)).bits BITPatternToken
    then
      let st :=
        if hasNoBitsB (sliceAt st st.patternSpan.i).bits BITSlash ∨
           hasNoBitsB (sliceAt st (st.patternSpan.i + st.patternSpan.l - 2)).bits BITSlash
        then orBitsAt st (st.patternSpan.i + st.patternSpan.l - 1) BITIgnore
        else st
      let st := { st with patternSpan :=
        { st.patternSpan with l := st.patternSpan.l - 1 } }
      if st.patternRightAnchorSpan.l ≠ 0 then
        let st := orBitsAt st st.patternRightAnchorSpan.i BITIgnore
        clearFlavor st BITFlavorNetRightAnchor
      else st
    else st
  -- pointless left-hand anchoring
  let st :=
    if (st.patternSpan.l = 0 ∨ hasBitsB (sliceAt st st.patternSpan.i).bits BITAsterisk) ∧
       hasBitsB st.flavorBits BITFlavorNetLeftAnchor then
      let st := orBitsAt st st.patternLeftAnchorSpan.i BITIgnore
      clearFlavor st BITFlavorNetLeftAnchor
    else st
  -- pointless right-hand anchoring
  if (st.patternSpan.l = 0 ∨
      hasBitsB (sliceAt st (st.patternSpan.i + st.patternSpan.l - 1)).bits BITAsterisk) ∧
     hasBitsB st.flavorBits BITFlavorNetRightAnchor then
    let st := orBitsAt st st.patternRightAnchorSpan.i BITIgnore
    clearFlavor st BITFlavorNetRightAnchor
  else st

/-- `Parser.analyzeNet` (source lines 339-605). -/
def analyzeNet (o : Oracles) (st : PState) : PState :=
  let sti := netExceptionStage st
  let st := sti.1
  let islice := sti.2
  -- assume no options; assume all is part of pattern (source lines 361-366)
  let st := { st with
    optionsAnchorSpan := { st.optionsAnchorSpan with i := st.commentSpan.i }
    optionsSpan := { st.optionsSpan with i := st.commentSpan.i } }
  let st := { st with patternSpan := ⟨islice, st.optionsAnchorSpan.i - islice⟩ }
  let patternStartIsRegex :=
    decide (islice < st.optionsAnchorSpan.i) && hasBitsB (sliceAt st islice).bits BITSlash
  let pir0 := patternStartIsRegex && regexCheck st
  let st := if pir0 then st else netOptionsStage st islice
  let patternIsRegex := patternStartIsRegex && regexCheck st
  let st := if patternIsRegex then addFlavor st BITFlavorNetRegex else st
  -- assume no anchors (source lines 431-432)
  let st := { st with
    patternLeftAnchorSpan := { st.patternLeftAnchorSpan with i := st.patternSpan.i }
    patternRightAnchorSpan := { st.patternRightAnchorSpan with i := st.optionsAnchorSpan.i } }
  let st := if patternIsRegex then st else netRightAnchorStage (netLeftAnchorStage st)
  let st := netSpaceStage o st
  let st := netWildcardStage st
  { st with category := CATStaticNetFilter }

/-! ### Top-level analysis (source lines 129-171) -/

/-- The inline-comment search (source lines 156-166): find a `#` slice
    immediately preceded by a space slice, retrying from two slots past the
    previous candidate. -/
def inlineCommentLoop (st : PState) : Nat → Nat → PState
  | 0, _ => st
  | fuel + 1, hashSlot =>
    if hasBitsB (sliceAt st (hashSlot - 1)).bits BITSpace then
      { st with commentSpan := ⟨hashSlot - 1, st.rightSpaceSpan.i - hashSlot⟩ }
    else
      match findFirstMatch st (hashSlot + 2) BITHash with
      | none => st
      | some h => inlineCommentLoop st fuel h

/-- The provisional comment-span placement before network analysis
    (source line 155): the comment is presumed to start at the right
    space span. -/
def commentAssume (st : PState) : PState :=
  { st with commentSpan := { st.commentSpan with i := st.rightSpaceSpan.i } }

/-- `Parser.analyze raw` (source lines 129-171). -/
def analyze (o : Oracles) (st0 : PState) (raw : List Nat) : PState :=
  let st := sliceFn st0 raw
  let slot := st.leftSpaceSpan.l
  if slot = st.rightSpaceSpan.i then st
  else if hasBitsB (sliceAt st slot).bits BITLineComment then
    if hasBitsB (sliceAt st slot).bits BITHash then
      let st := analyzeExt o st slot
      if st.category = CATStaticExtFilter then st
      else { st with category := CATComment }
    else { st with category := CATComment }
  else
    let st := commentAssume st
    let hashRes :=
      if hasBitsB st.allBits BITHash then findFirstMatch st slot BITHash else none
    match hashRes with
    | none => analyzeNet o st
    | some hashSlot =>
      let st := analyzeExt o st hashSlot
      if st.category = CATStaticExtFilter then st
      else
        let st :=
          if hasBitsB st.allBits BITSpace then
            inlineCommentLoop st (st.sliceWritePtr + 1) hashSlot
          else st
        analyzeNet o st

/-! ### Domain-list validation (source lines 622-699) -/

/-- `Parser.analyzeDomain from to optionBits` (source lines 642-699). -/
def analyzeDomain (st : PState) (frm tgt optionBits : Nat) : Bool :=
  let len := tgt - frm
  if len = 0 then false
  else
    let neg := hasBitsB (sliceAt st frm).bits BITTilde
    let step :=
      if neg then
        if (optionBits &&& 0b01) = 0 ∨ (sliceAt st frm).len > 1 then none
        else some (frm + 1, len - 1)
      else some (frm, len)
    match step with
    | none => false
    | some (frm, len) =>
      if len = 0 then false
      else if len = 1 ∧ neg = false ∧ (optionBits &&& 0b10) ≠ 0 ∧
              hasBitsB (sliceAt st frm).bits BITAsterisk then
        (sliceAt st frm).len == 1
      else if hasNoBitsB (sliceAt st frm).bits (BITRegexWord ||| BITUnicode) then false
      else
        let lastOk :=
          if len > 1 then
            let last := tgt - 1
            if hasBitsB (sliceAt st last).bits BITAsterisk then
              ¬((optionBits &&& 0b01) = 0 ∨ len < 3 ∨ (sliceAt st last).len > 1 ∨
                hasNoBitsB (sliceAt st (last - 1)).bits BITPeriod)
            else ¬(hasNoBitsB (sliceAt st (tgt - 1)).bits (BITAlphaNum ||| BITUnicode) = true)
          else True
        if ¬ lastOk then false
        else if len > 2 then
          (List.range' (frm + 1) (tgt - 1 - (frm + 1))).all fun i =>
            let bits := (sliceAt st i).bits
            if hasNoBitsB bits BITHostname then false
            else if hasBitsB bits BITPeriod ∧ (sliceAt st i).len > 1 then false
            else if hasBitsB bits BITDash ∧
                    (hasNoBitsB (sliceAt st (i - 1)).bits (BITRegexWord ||| BITUnicode) ∨
                     hasNoBitsB (sliceAt st (i + 1)).bits (BITRegexWord ||| BITUnicode))
                 then false
            else true
        else true

/-- The entry loop of `Parser.analyzeDomainList` (source lines 625-632). -/
def analyzeDomainListLoop (tgt bitSeparator optionBits : Nat) :
    Nat → PState → Nat → PState
  | 0, st, _ => st
  | fuel + 1, st, beg =>
    if beg < tgt then
      let endI := skipUntil st beg tgt bitSeparator
      let st :=
        if analyzeDomain st beg endI optionBits = false
        then markSlices st beg endI BITError else st
      analyzeDomainListLoop tgt bitSeparator optionBits fuel st (endI + 1)
    else st

/-- `Parser.analyzeDomainList from to bitSeparator optionBits`
    (source lines 622-637). -/
def analyzeDomainList (st : PState) (frm tgt bitSeparator optionBits : Nat) : PState :=
  if frm ≥ tgt then st
  else
    let st := analyzeDomainListLoop tgt bitSeparator optionBits (tgt + 1) st frm
    if hasBitsB (sliceAt st (tgt - 1)).bits bitSeparator
    then markSlices st (tgt - 1) tgt BITError
    else st

/-! ### Network-filter option tokens (source lines 1805-1850, 2142-2188) -/

def OPTTokenInvalid      : Nat :=  0
def OPTToken1p           : Nat :=  1
def OPTToken3p           : Nat :=  2
def OPTTokenAll          : Nat :=  3
def OPTTokenBadfilter    : Nat :=  4
def OPTTokenCname        : Nat :=  5
def OPTTokenCsp          : Nat :=  6
def OPTTokenCss          : Nat :=  7
def OPTTokenDenyAllow    : Nat :=  8
def OPTTokenDoc          : Nat :=  9
def OPTTokenDomain       : Nat := 10
def OPTTokenEhide        : Nat := 11
def OPTTokenEmpty        : Nat := 12
def OPTTokenFont         : Nat := 13
def OPTTokenFrame        : Nat := 14
def OPTTokenGenericblock : Nat := 15
def OPTTokenGhide        : Nat := 16
def OPTTokenImage        : Nat := 17
def OPTTokenImportant    : Nat := 18
def OPTTokenInlineFont   : Nat := 19
def OPTTokenInlineScript : Nat := 20
def OPTTokenMedia        : Nat := 21
def OPTTokenMp4          : Nat := 22
def OPTTokenObject       : Nat := 23
def OPTTokenOther        : Nat := 24
def OPTTokenPing         : Nat := 25
def OPTTokenPopunder     : Nat := 26
def OPTTokenPopup        : Nat := 27
def OPTTokenRedirect     : Nat := 28
def OPTTokenRedirectRule : Nat := 29
def OPTTokenScript       : Nat := 30
def OPTTokenShide        : Nat := 31
def OPTTokenXhr          : Nat := 32
def OPTTokenWebrtc       : Nat := 33
def OPTTokenWebsocket    : Nat := 34

def OPTCanNegate     : Nat := 1 <<< 8
def OPTBlockOnly     : Nat := 1 <<< 9
def OPTAllowOnly     : Nat := 1 <<< 10
def OPTMustAssign    : Nat := 1 <<< 11
def OPTAllowMayAssign : Nat := 1 <<< 12
def OPTDomainList    : Nat := 1 <<< 13
def OPTType          : Nat := 1 <<< 14
def OPTNetworkType   : Nat := 1 <<< 15
def OPTRedirectType  : Nat := 1 <<< 16
def OPTNotSupported  : Nat := 1 <<< 17

/-- The `netOptionTokens` map (source lines 2142-2188). -/
def netOptionTokens : List (List Nat × Nat) :=
  [ (s2c "1p", OPTToken1p ||| OPTCanNegate),
    (s2c "first-party", OPTToken1p ||| OPTCanNegate),
    (s2c "3p", OPTToken3p ||| OPTCanNegate),
    (s2c "third-party", OPTToken3p ||| OPTCanNegate),
    (s2c "all", OPTTokenAll ||| OPTType ||| OPTNetworkType),
    (s2c "badfilter", OPTTokenBadfilter),
    (s2c "cname", OPTTokenCname ||| OPTAllowOnly ||| OPTType),
    (s2c "csp", OPTTokenCsp ||| OPTMustAssign ||| OPTAllowMayAssign),
    (s2c "css", OPTTokenCss ||| OPTCanNegate ||| OPTType ||| OPTNetworkType),
    (s2c "stylesheet", OPTTokenCss ||| OPTCanNegate ||| OPTType ||| OPTNetworkType),
    (s2c "denyallow", OPTTokenDenyAllow ||| OPTMustAssign ||| OPTDomainList),
    (s2c "doc", OPTTokenDoc ||| OPTType ||| OPTNetworkType),
    (s2c "document", OPTTokenDoc ||| OPTType ||| OPTNetworkType),
    (s2c "domain", OPTTokenDomain ||| OPTMustAssign ||| OPTDomainList),
    (s2c "ehide", OPTTokenEhide ||| OPTType),
    (s2c "elemhide", OPTTokenEhide ||| OPTType),
    (s2c "empty", OPTTokenEmpty ||| OPTBlockOnly ||| OPTType ||| OPTNetworkType |||
                  OPTBlockOnly ||| OPTRedirectType),
    (s2c "frame", OPTTokenFrame ||| OPTCanNegate ||| OPTType ||| OPTNetworkType),
    (s2c "subdocument", OPTTokenFrame ||| OPTCanNegate ||| OPTType ||| OPTNetworkType),
    (s2c "font", OPTTokenFont ||| OPTCanNegate ||| OPTType ||| OPTNetworkType),
    (s2c "genericblock", OPTTokenGenericblock ||| OPTNotSupported),
    (s2c "ghide", OPTTokenGhide ||| OPTType),
    (s2c "generichide", OPTTokenGhide ||| OPTType),
    (s2c "image", OPTTokenImage ||| OPTCanNegate ||| OPTType ||| OPTNetworkType),
    (s2c "important", OPTTokenImportant ||| OPTBlockOnly),
    (s2c "inline-font", OPTTokenInlineFont ||| OPTType),
    (s2c "inline-script", OPTTokenInlineScript ||| OPTType),
    (s2c "media", OPTTokenMedia ||| OPTCanNegate ||| OPTType ||| OPTNetworkType),
    (s2c "mp4", OPTTokenMp4 ||| OPTType ||| OPTNetworkType ||| OPTBlockOnly ||| OPTRedirectType),
    (s2c "object", OPTTokenObject ||| OPTCanNegate ||| OPTType ||| OPTNetworkType),
    (s2c "object-subrequest", OPTTokenObject ||| OPTCanNegate ||| OPTType ||| OPTNetworkType),
    (s2c "other", OPTTokenOther ||| OPTCanNegate ||| OPTType ||| OPTNetworkType),
    (s2c "ping", OPTTokenPing ||| OPTCanNegate ||| OPTType ||| OPTNetworkType),
    (s2c "beacon", OPTTokenPing ||| OPTCanNegate ||| OPTType ||| OPTNetworkType),
    (s2c "popunder", OPTTokenPopunder ||| OPTType),
    (s2c "popup", OPTTokenPopup ||| OPTType),
    (s2c "redirect", OPTTokenRedirect ||| OPTMustAssign ||| OPTBlockOnly ||| OPTRedirectType),
    (s2c "redirect-rule",
      OPTTokenRedirectRule ||| OPTMustAssign ||| OPTBlockOnly ||| OPTRedirectType),
    (s2c "script", OPTTokenScript ||| OPTCanNegate ||| OPTType ||| OPTNetworkType),
    (s2c "shide", OPTTokenShide ||| OPTType),
    (s2c "specifichide", OPTTokenShide ||| OPTType),
    (s2c "xhr", OPTTokenXhr ||| OPTCanNegate ||| OPTType ||| OPTNetworkType),
    (s2c "xmlhttprequest", OPTTokenXhr ||| OPTCanNegate ||| OPTType ||| OPTNetworkType),
    (s2c "webrtc", OPTTokenWebrtc ||| OPTNotSupported),
    (s2c "websocket", OPTTokenWebsocket ||| OPTCanNegate ||| OPTType ||| OPTNetworkType) ]

/-! ### NetOptionsIterator (source lines 1939-2140) -/

/-- One stored option record: the six integers written per option into
    `optSlices` (source lines 1969-1982, 2066-2082). -/
structure OptRecord where
  desc : Nat
  lopt : Nat
  ltok : Nat
  lval3 : Nat
  lval4 : Nat
  ropt : Nat
deriving DecidableEq, Repr

/-- The per-option end/assignment scan (source lines 1996-2008): from
    `ltok` to the next comma (or `ropts`), remembering the first `EQUAL`
    slot; marks bad commas in interactive mode. -/
def optEndScan (lopt ropts : Nat) : Nat → PState → Nat → Nat → PState × Nat × Nat
  | 0, st, i, lval => (st, i, lval)
  | fuel + 1, st, i, lval =>
    if i < ropts then
      let bits := (sliceAt st i).bits
      if hasBitsB bits BITComma then
        let st :=
          if st.interactive ∧ (i = lopt ∨ (sliceAt st i).len > 1)
          then orBitsAt st i BITError else st
        (st, i, lval)
      else
        let lval := if lval = 0 ∧ hasBitsB bits BITEqual then i else lval
        optEndScan lopt ropts fuel st (i + 1) lval
    else (st, i, lval)

/-- Mutable accumulator of the `init` scan. -/
structure OptScanState where
  st : PState
  recs : List OptRecord
  typeCount : Nat
  networkTypeCount : Nat
  redirectIndex : Option Nat
  cspIndex : Option Nat
deriving Repr

/-- The results of parsing a single option before the dedup/store phase:
    the (possibly comma-marked) state, token start, option end, equal-sign
    slot, and the validated descriptor (source lines 1988-2033). -/
structure ParsedOpt where
  st : PState
  ltok : Nat
  i : Nat
  lval : Nat
  desc : Nat
deriving Repr

/-- The per-option validation (source lines 2020-2033): an unknown token,
    a malformed negation/assignment, or a context violation yields
    `OPTTokenInvalid`. -/
def optValidate (exception : Bool) (lopt ltok : Nat) (assigned : Bool)
    (dOpt : Option Nat) : Nat :=
  match dOpt with
  | none => OPTTokenInvalid
  | some d =>
    if (ltok ≠ lopt ∧ hasNoBitsB d OPTCanNegate) ∨
       (exception = true ∧ hasBitsB d OPTBlockOnly) ∨
       (exception = false ∧ hasBitsB d OPTAllowOnly) ∨
       (assigned = true ∧ hasNoBitsB d OPTMustAssign) ∨
       (assigned = false ∧ hasBitsB d OPTMustAssign ∧
         (exception = false ∨ hasNoBitsB d OPTAllowMayAssign))
    then OPTTokenInvalid else d

/-- Parse and validate one option (source lines 1988-2033): negation,
    end-of-option scan, assignment shape, token lookup, per-option
    validation. -/
def optParse (exception : Bool) (ropts : Nat) (st : PState) (lopt : Nat) :
    ParsedOpt :=
  let good0 := true
  let gl :=
    if hasBitsB (sliceAt st lopt).bits BITTilde then
      ((decide ((sliceAt st lopt).len ≤ 1) && good0 : Bool), lopt + 1)
    else (good0, lopt)
  let good := gl.1
  let ltok := gl.2
  let scan := optEndScan lopt ropts (ropts + 1) st ltok 0
  let st := scan.1
  let i := scan.2.1
  let lval := scan.2.2
  let ga : Bool × Bool :=
    if good ∧ lval ≠ 0 then
      let ok := decide ((sliceAt st lval).len = 1) && decide (lval + 1 ≠ i)
      (ok, ok)
    else (good, false)
  let good := ga.1
  let assigned := ga.2
  let descriptor : Option Nat :=
    if good then
      let rtok := if lval = 0 then i else lval
      let token := rawSlice st.raw (sliceAt st ltok).origin (sliceAt st rtok).origin
      netOptionTokens.lookup token
    else none
  ⟨st, ltok, i, lval, optValidate exception lopt ltok assigned descriptor⟩

/-- The redirect/csp dedup decision (source lines 2042-2054): the kept
    descriptor and the updated redirect/csp indices. -/
def driOf (acc : OptScanState) (p : ParsedOpt) : Nat × Option Nat × Option Nat :=
  if hasBitsB p.desc OPTRedirectType then
    match acc.redirectIndex with
    | none => (p.desc, some acc.recs.length, acc.cspIndex)
    | some r => (OPTTokenInvalid, some r, acc.cspIndex)
  else if (p.desc &&& 0xFF) = OPTTokenCsp then
    match acc.cspIndex with
    | none => (p.desc, acc.redirectIndex, some acc.recs.length)
    | some c => (OPTTokenInvalid, acc.redirectIndex, some c)
  else (p.desc, acc.redirectIndex, acc.cspIndex)

/-- Count the type kinds, dedup redirect/csp, mark invalid options in
    interactive mode, store the six-integer record (source lines
    2035-2086). -/
def optDedupStore (acc : OptScanState) (lopt : Nat) (p : ParsedOpt) :
    OptScanState × Nat :=
  let st := p.st
  let i := p.i
  let lval := p.lval
  let typeCount :=
    if hasBitsB p.desc OPTType then acc.typeCount + 1 else acc.typeCount
  let networkTypeCount :=
    if hasBitsB p.desc OPTType ∧ hasBitsB p.desc OPTNetworkType
    then acc.networkTypeCount + 1 else acc.networkTypeCount
  let dri := driOf acc p
  let descriptor := dri.1
  let st :=
    if st.interactive ∧
       (descriptor = OPTTokenInvalid ∨ hasBitsB descriptor OPTNotSupported)
    then markSlices st lopt i BITError else st
  let rec0 : OptRecord :=
    if lval ≠ 0 then ⟨descriptor, lopt, p.ltok, lval, lval + 1, i⟩
    else ⟨descriptor, lopt, p.ltok, i, i, i⟩
  let st :=
    if lval ≠ 0 ∧ st.interactive ∧ hasBitsB descriptor OPTDomainList then
      analyzeDomainList st (lval + 1) i BITPipe
        (if (descriptor &&& 0xFF) = OPTTokenDomain then 0b01 else 0b00)
    else st
  ( { st := st
      recs := acc.recs ++ [rec0]
      typeCount := typeCount
      networkTypeCount := networkTypeCount
      redirectIndex := dri.2.1
      cspIndex := dri.2.2 },
    i + 1 )

/-- One iteration of the `init` scan (the body of the `while` loop,
    source lines 1987-2086). -/
def optInitStep (exception : Bool) (ropts : Nat)
    (acc : OptScanState) (lopt : Nat) : OptScanState × Nat :=
  optDedupStore acc lopt (optParse exception ropts acc.st lopt)

/-- The main option scan of `NetOptionsIterator.init`
    (source lines 1986-2086). -/
def optInitLoop (exception : Bool) (ropts : Nat) :
    Nat → OptScanState → Nat → OptScanState
  | 0, acc, _ => acc
  | fuel + 1, acc, lopt =>
    if lopt < ropts then
      let s := optInitStep exception ropts acc lopt
      optInitLoop exception ropts fuel s.1 s.2
    else acc

/-- Invalidate the record at `idx` (the post-scan censoring writes
    `OPTTokenInvalid` into `optSlices[idx]`). -/
def censorRecord (recs : List OptRecord) (idx : Nat) : List OptRecord :=
  match recs.get? idx with
  | none => recs
  | some r => recs.set idx { r with desc := OPTTokenInvalid }

/-- The completed option scan of `init` on a given parser state. -/
def optScanOf (st : PState) : OptScanState :=
  optInitLoop (isException st) (st.optionsSpan.i + st.optionsSpan.l)
    (st.optionsSpan.i + st.optionsSpan.l + 1) ⟨st, [], 0, 0, none, none⟩
    st.optionsSpan.i

/-- `NetOptionsIterator.init` (source lines 1958-2117): returns the updated
    parser state and the stored option records. -/
def netOptionsInit (st : PState) : PState × List OptRecord :=
  if st.optionsSpan.l = 0 then (st, [])
  else
    let ropts := st.optionsSpan.i + st.optionsSpan.l
    let acc := optScanOf st
    let st := acc.st
    -- dangling comma (source lines 2088-2091)
    let st :=
      if st.interactive ∧ hasBitsB (sliceAt st (ropts - 1)).bits BITComma
      then orBitsAt st (ropts - 1) BITError else st
    -- `csp` can't be used with any other types (source lines 2095-2104)
    let ra : List OptRecord × PState :=
      match acc.cspIndex with
      | some c =>
        if acc.typeCount ≠ 0 then
          let st :=
            if st.interactive then
              match acc.recs.get? c with
              | some r => markSlices st r.lopt r.ropt BITError
              | none => st
            else st
          (censorRecord acc.recs c, st)
        else (acc.recs, st)
      | none => (acc.recs, st)
    let recs := ra.1
    let st := ra.2
    -- `redirect` requires one single network type (source lines 2106-2115)
    let rb : List OptRecord × PState :=
      match acc.redirectIndex with
      | some r =>
        if acc.typeCount ≠ 1 ∧ acc.networkTypeCount ≠ 1 then
          let st :=
            if st.interactive then
              match recs.get? r with
              | some q => markSlices st q.lopt q.ropt BITError
              | none => st
            else st
          (censorRecord recs r, st)
        else (recs, st)
      | none => (recs, st)
    (rb.2, rb.1)

/-- One yielded item of the iterator: `(id, negated, value)`
    (`NetOptionsIterator.next`, source lines 2118-2139). -/
def optYield (st : PState) (r : OptRecord) : Nat × Bool × Option (List Nat) :=
  ( r.desc &&& 0xFF,
    r.ltok ≠ r.lopt,
    if r.lval4 ≠ r.ropt then
      some (rawSlice st.raw (sliceAt st r.lval4).origin (sliceAt st r.ropt).origin)
    else none )

/-- All items yielded by iterating `netOptions()` after `init`. -/
def netOptionsList (st : PState) : List (Nat × Bool × Option (List Nat)) :=
  let pr := netOptionsInit st
  pr.2.map (optYield pr.1)

/-! ### PatternTokenIterator (source lines 2195-2254) -/

/-- Extend a run of `PATTERN_TOKEN` slices (source lines 2229-2232). -/
def extendRun (st : PState) (r : Nat) : Nat → Nat → Nat
  | 0, sr => sr
  | fuel + 1, sr =>
    if sr < r ∧ hasBitsB (sliceAt st sr).bits BITPatternToken
    then extendRun st r fuel (sr + 1) else sr

/-- The token-producing loop: each emitted element corresponds to one
    successful `next()` (source lines 2219-2253); a rejected run makes the
    scan resume past it without emitting. -/
def tokensAux (st : PState) (l r : Nat) : Nat → Nat → List (List Nat × Nat)
  | 0, _ => []
  | fuel + 1, sl =>
    if sl ≥ r then []
    else if ¬ hasBitsB (sliceAt st sl).bits BITPatternToken then
      tokensAux st l r fuel (sl + 1)
    else
      let sr := extendRun st r (r + 1) (sl + 1)
      if (sl = 0 ∨ hasNoBitsB (sliceAt st (sl - 1)).bits BITAsterisk) ∧
         (sr = r ∨ hasNoBitsB (sliceAt st sr).bits BITAsterisk ∨
          (sliceAt st sr).origin - (sliceAt st sl).origin ≥ st.maxTokenLength)
      then
        let beg := (sliceAt st sl).origin
        (rawSlice st.raw beg (sliceAt st sr).origin, beg - (sliceAt st l).origin)
          :: tokensAux st l r fuel (sr + 1)
      else tokensAux st l r fuel (sr + 1)

/-- All `(token, pos)` pairs yielded by `patternTokens()`
    (source lines 996-1001, 2202-2213). -/
def patternTokens (st : PState) : List (List Nat × Nat) :=
  if st.category = CATStaticNetFilter then
    if st.patternSpan.l = 0 then []
    else tokensAux st st.patternSpan.i (st.patternSpan.i + st.patternSpan.l)
      (st.patternSpan.i + st.patternSpan.l + 1) st.patternSpan.i
  else []

/-! ### toPunycode (source lines 1018-1037) -/

/-- Membership in the character class of `reHostname`
    (source line 106): the complement of
    `[\x00-\x24\x26-\x29\x2B\x2C\x2F\x3A-\x5E\x60\x7B-\x7F]`. -/
def allowedHostChar (c : Nat) : Bool :=
  !(c ≤ 0x24 ∨ (0x26 ≤ c ∧ c ≤ 0x29) ∨ c = 0x2B ∨ c = 0x2C ∨ c = 0x2F ∨
    (0x3A ≤ c ∧ c ≤ 0x5E) ∨ c = 0x60 ∨ (0x7B ≤ c ∧ c ≤ 0x7F))

/-- `match[0].replace(/\*/g, '__asterisk__')` (source line 1026). -/
def replaceStar (s : List Nat) : List Nat :=
  (s.map fun c => if c = 42 then s2c "__asterisk__" else [c]).flatten

/-- `hostname.replace(/__asterisk__/g, '*')` (source line 1030). -/
def replaceBackStar : Nat → List Nat → List Nat
  | 0, s => s
  | _ + 1, [] => []
  | fuel + 1, c :: cs =>
    if listStartsWith (s2c "__asterisk__") (c :: cs)
    then 42 :: replaceBackStar fuel ((c :: cs).drop 12)
    else c :: replaceBackStar fuel cs

/-- `Parser.toPunycode` (source lines 1018-1037).  The second component is
    the returned value: `none` models the bare `return;` (JS `undefined`),
    `some b` a boolean return. -/
def toPunycode (o : Oracles) (st : PState) : PState × Option Bool :=
  if patternHasUnicode st = false then (st, some true)
  else
    let i := st.patternSpan.i
    let l := st.patternSpan.l
    if l = 0 then (st, some true)
    else
      let stp := getNetPattern st
      let st := stp.1
      let m := st.pattern.takeWhile allowedHostChar
      if m = [] then (st, none)
      else
        match o.punyToAscii (replaceStar m) with
        | none => (st, some false)
        | some hn =>
          let punycoded := replaceBackStar (hn.length + 1) hn
          let pattern := punycoded ++ st.pattern.drop m.length
          let beg := (sliceAt st i).origin
          let endI := (sliceAt st (i + l)).origin
          let raw := rawSlice st.raw 0 beg ++ pattern ++ st.raw.drop endI
          (analyze o st raw, some true)

/-! ## Claim-side predicates and supporting lemmas -/

/-- Contiguity of a slice list: each slice ends where the next begins. -/
def contB : List Slice → Bool
  | [] => true
  | [_] => true
  | a :: b :: rest => (a.origin + a.len == b.origin) && contB (b :: rest)

/-- Total byte length described by a slice list. -/
def lenSum (xs : List Slice) : Nat := (xs.map Slice.len).sum

theorem contB_cons_cons (a b : Slice) (rest : List Slice) :
    contB (a :: b :: rest) = ((a.origin + a.len == b.origin) && contB (b :: rest)) := rfl

theorem sliceScan_ne_nil (cs : List Nat) : ∀ b o l, sliceScan b o l cs ≠ [] := by
  induction cs with
  | nil => intro b o l; simp [sliceScan]
  | cons c cs ih =>
    intro b o l
    simp only [sliceScan]
    split
    · exact ih b o (l + 1)
    · simp

theorem sliceScan_headD (cs : List Nat) :
    ∀ b o l, ((sliceScan b o l cs).headD dSlice).origin = o := by
  induction cs with
  | nil => intro b o l; simp [sliceScan]
  | cons c cs ih =>
    intro b o l
    simp only [sliceScan]
    split
    · exact ih b o (l + 1)
    · simp

theorem headD_append_left (xs ys : List Slice) (d : Slice) (h : xs ≠ []) :
    (xs ++ ys).headD d = xs.headD d := by
  cases xs <;> simp_all

theorem contB_headD_cons (a : Slice) (ys : List Slice) (hne : ys ≠ [])
    (h1 : a.origin + a.len = (ys.headD dSlice).origin) (h2 : contB ys = true) :
    contB (a :: ys) = true := by
  cases ys with
  | nil => exact absurd rfl hne
  | cons y ys =>
    simp only [List.headD_cons] at h1
    simp [contB_cons_cons, h1, h2]

theorem sliceScan_contB_append (cs : List Nat) :
    ∀ b o l (s : Slice), s.origin = o + l + cs.length →
      contB (sliceScan b o l cs ++ [s]) = true := by
  induction cs with
  | nil =>
    intro b o l s hs
    simp only [List.length_nil, Nat.add_zero] at hs
    simp [sliceScan, contB_cons_cons, contB, hs]
  | cons c cs ih =>
    intro b o l s hs
    simp only [sliceScan]
    split
    · exact ih b o (l + 1) s (by simpa [Nat.add_assoc, Nat.add_comm 1 cs.length] using hs)
    · rw [List.cons_append]
      refine contB_headD_cons _ _ ?_ ?_ ?_
      · simp
      · rw [headD_append_left _ _ _ (sliceScan_ne_nil cs _ _ _)]
        exact (sliceScan_headD cs _ (o + l) 1).symm
      · exact ih _ (o + l) 1 s (by simp at hs ⊢; omega)

theorem sliceScan_lenSum (cs : List Nat) :
    ∀ b o l, lenSum (sliceScan b o l cs) = l + cs.length := by
  induction cs with
  | nil => intro b o l; simp [sliceScan, lenSum]
  | cons c cs ih =>
    intro b o l
    simp only [sliceScan]
    split
    · rw [ih]; simp only [List.length_cons]; omega
    · simp only [lenSum, List.map_cons, List.sum_cons]
      have := ih (classBits c) (o + l) 1
      simp only [lenSum] at this
      rw [this]; simp only [List.length_cons]; omega

/-- Contiguity and exhaustiveness of the slicer output. -/
theorem sliceList_contB (raw : List Nat) : contB (sliceList raw) = true := by
  cases raw with
  | nil => rfl
  | cons c cs =>
    simp only [sliceList]
    exact sliceScan_contB_append cs (classBits c) 0 1 _ (by simp; omega)

theorem sliceList_lenSum (raw : List Nat) : lenSum (sliceList raw) = raw.length := by
  cases raw with
  | nil => rfl
  | cons c cs =>
    simp only [sliceList, lenSum, List.map_append, List.sum_append]
    have := sliceScan_lenSum cs (classBits c) 0 1
    simp only [lenSum] at this
    simp only [this, List.map_cons, List.map_nil, List.sum_cons, List.sum_nil,
      List.length_cons]
    omega

theorem contB_cons_iff (a : Slice) (L : List Slice) (h : L ≠ []) :
    contB (a :: L) =
      ((a.origin + a.len == (L.headD dSlice).origin) && contB L) := by
  cases L with
  | nil => exact absurd rfl h
  | cons b L => rfl

theorem headD_split_mid (A W : List Slice) (x s1 s2 : Slice)
    (e1 : s1.origin = x.origin) :
    ((A ++ s1 :: s2 :: W).headD dSlice).origin =
      ((A ++ x :: W).headD dSlice).origin := by
  cases A <;> simp [e1]

/-- Replacing one slice by two contiguous halves keeps the list contiguous. -/
theorem contB_split_mid (A : List Slice) (W : List Slice) (x s1 s2 : Slice)
    (h : contB (A ++ x :: W) = true)
    (e1 : s1.origin = x.origin) (e2 : s1.origin + s1.len = s2.origin)
    (e3 : s2.origin + s2.len = x.origin + x.len) :
    contB (A ++ s1 :: s2 :: W) = true := by
  induction A with
  | nil =>
    simp only [List.nil_append] at h ⊢
    have hW : contB (s2 :: W) = true := by
      cases W with
      | nil => rfl
      | cons w W =>
        rw [contB_cons_iff _ _ (by simp)] at h ⊢
        simp only [List.headD_cons, Bool.and_eq_true, beq_iff_eq] at h ⊢
        exact ⟨by rw [e3]; exact h.1, h.2⟩
    rw [contB_cons_iff _ _ (by simp)]
    simp [e2, hW]
  | cons a A ih =>
    rw [List.cons_append] at h ⊢
    rw [contB_cons_iff _ _ (by simp)] at h
    rw [contB_cons_iff _ _ (by simp)]
    simp only [Bool.and_eq_true, beq_iff_eq] at h ⊢
    exact ⟨by rw [headD_split_mid _ _ _ _ _ e1]; exact h.1, ih h.2⟩

theorem take_decomp (buf : List Slice) (wptr slot : Nat)
    (h1 : slot < wptr) (h2 : wptr ≤ buf.length) :
    buf.take wptr =
      buf.take slot ++ buf.getD slot dSlice ::
        (buf.drop (slot + 1)).take (wptr - slot - 1) := by
  have hw : wptr = slot + ((wptr - slot - 1) + 1) := by omega
  conv_lhs => rw [hw, List.take_add]
  congr 1
  have hlt : slot < buf.length := by omega
  rw [List.drop_eq_getElem_cons hlt, List.take_succ_cons]
  congr 1
  exact (List.getD_eq_getElem buf dSlice hlt).symm

theorem take_append_len (A B : List Slice) (n k : Nat) (h : A.length = n) :
    (A ++ B).take (n + k) = A ++ B.take k := by
  subst h; exact List.take_append k

theorem take_append_self (W T : List Slice) (k : Nat) (h : W.length = k) :
    (W ++ T).take k = W := by
  subst h; exact List.take_left W T

theorem split_take_core (q T : List Slice) (wptr slot : Nat) (s1 s2 : Slice)
    (h1 : slot < wptr) (hq : wptr ≤ q.length) :
    (q.take slot ++ [s1, s2] ++
      (q.drop (slot + 1)).take (wptr - slot - 1) ++ T).take (wptr + 1)
    = q.take slot ++ s1 :: s2 :: (q.drop (slot + 1)).take (wptr - slot - 1) := by
  have hA : (q.take slot).length = slot := List.length_take_of_le (by omega)
  have hW : ((q.drop (slot + 1)).take (wptr - slot - 1)).length = wptr - slot - 1 :=
    List.length_take_of_le (by simp [List.length_drop]; omega)
  have hsplit : wptr + 1 = slot + ((wptr - slot - 1) + 1 + 1) := by omega
  rw [List.append_assoc, List.append_assoc]
  simp only [List.cons_append, List.nil_append]
  rw [hsplit, take_append_len _ _ _ _ hA, List.take_succ_cons, List.take_succ_cons,
      take_append_self _ _ _ hW]

theorem bufSplit_take (buf : List Slice) (wptr slot l : Nat)
    (h1 : slot < wptr) (h2 : wptr ≤ buf.length) :
    (bufSplit buf wptr slot l).take (wptr + 1) =
      buf.take slot ++
        Slice.mk (buf.getD slot dSlice).bits (buf.getD slot dSlice).origin l ::
        Slice.mk (buf.getD slot dSlice).bits ((buf.getD slot dSlice).origin + l)
          ((buf.getD slot dSlice).len - l) ::
        (buf.drop (slot + 1)).take (wptr - slot - 1) := by
  unfold bufSplit
  by_cases hp : wptr + 1 > buf.length
  case pos =>
    have hlen : buf.length = wptr := by omega
    simp only [hp, if_true]
    have hg : (buf ++ [dSlice]).getD slot dSlice = buf.getD slot dSlice :=
      List.getD_append _ _ _ _ (by omega)
    have ht : (buf ++ [dSlice]).take slot = buf.take slot :=
      List.take_append_of_le_length (by omega)
    have hwin : ((buf ++ [dSlice]).drop (slot + 1)).take (wptr - slot - 1) =
        (buf.drop (slot + 1)).take (wptr - slot - 1) := by
      rw [List.drop_append_of_le_length (by omega)]
      exact List.take_append_of_le_length (by simp [List.length_drop]; omega)
    rw [hg, ht, hwin]
    exact split_take_core buf _ wptr slot _ _ h1 h2
  case neg =>
    simp only [hp, if_false]
    exact split_take_core buf _ wptr slot _ _ h1 h2

theorem bufSplit_contB (buf : List Slice) (wptr slot l : Nat)
    (h1 : slot < wptr) (h2 : wptr ≤ buf.length)
    (hc : contB (buf.take wptr) = true) (hl : l ≤ (buf.getD slot dSlice).len) :
    contB ((bufSplit buf wptr slot l).take (wptr + 1)) = true := by
  rw [bufSplit_take buf wptr slot l h1 h2]
  refine contB_split_mid _ _ (buf.getD slot dSlice) _ _ ?_ rfl rfl ?_
  · rw [← take_decomp buf wptr slot h1 h2]; exact hc
  · show (buf.getD slot dSlice).origin + l + ((buf.getD slot dSlice).len - l) =
      (buf.getD slot dSlice).origin + (buf.getD slot dSlice).len
    omega

theorem bufSplit_lenSum (buf : List Slice) (wptr slot l : Nat)
    (h1 : slot < wptr) (h2 : wptr ≤ buf.length)
    (hl : l ≤ (buf.getD slot dSlice).len) :
    lenSum ((bufSplit buf wptr slot l).take (wptr + 1)) =
      lenSum (buf.take wptr) := by
  rw [bufSplit_take buf wptr slot l h1 h2, take_decomp buf wptr slot h1 h2]
  simp only [lenSum, List.map_append, List.sum_append, List.map_cons, List.sum_cons]
  omega

/-- C1.  For every input line, the slice region written by `slice(raw)`
    (sentinel included) is contiguous — `origin(i) + length(i) = origin(i+1)`
    for adjacent slices — and exhaustive — the slice lengths sum to the
    length of the raw line; and both properties are preserved by any
    `splitSlot slot l` performed during analysis (every call site has
    `slot` inside the written region and `0 < l < length(slot)`). -/
theorem slice_contiguous_exhaustive_splitSlot_preserves
    (st0 st : PState) (raw : List Nat) (slot l : Nat)
    (h1 : slot < st.sliceWritePtr) (h2 : st.sliceWritePtr ≤ st.slices.length)
    (h3 : l ≤ (sliceAt st slot).len)
    (hc : contB (st.slices.take st.sliceWritePtr) = true) :
    (contB ((sliceFn st0 raw).slices.take (sliceFn st0 raw).sliceWritePtr) = true ∧
     lenSum ((sliceFn st0 raw).slices.take (sliceFn st0 raw).sliceWritePtr) =
       raw.length) ∧
    (contB ((splitSlot st slot l).slices.take (splitSlot st slot l).sliceWritePtr) = true ∧
     lenSum ((splitSlot st slot l).slices.take (splitSlot st slot l).sliceWritePtr) =
       lenSum (st.slices.take st.sliceWritePtr)) := by
  constructor
  · by_cases h : raw.length = 0
    · have : raw = [] := List.length_eq_zero.mp h
      subst this
      refine ⟨rfl, rfl⟩
    · have hfn : (sliceFn st0 raw).slices.take (sliceFn st0 raw).sliceWritePtr
          = sliceList raw := by
        simp only [sliceFn, h, if_false]
        exact List.take_append_of_le_length (by omega) |>.trans (List.take_length _)
      rw [hfn]
      exact ⟨sliceList_contB raw, sliceList_lenSum raw⟩
  · constructor
    · exact bufSplit_contB st.slices st.sliceWritePtr slot l h1 h2 hc h3
    · exact bufSplit_lenSum st.slices st.sliceWritePtr slot l h1 h2 h3

/-- Witness state for the `splitSlot` half of C1: the sliced line `ab.`. -/
def c1State : PState :=
  { slices := sliceList (s2c "ab."), sliceWritePtr := 3 }

theorem slice_contiguous_exhaustive_splitSlot_preserves_witness :
    ((0 : Nat) < c1State.sliceWritePtr ∧ c1State.sliceWritePtr ≤ c1State.slices.length ∧
      1 ≤ (sliceAt c1State 0).len ∧ contB (c1State.slices.take c1State.sliceWritePtr) = true) ∧
    ((contB ((sliceFn {} (s2c "ab.")).slices.take (sliceFn {} (s2c "ab.")).sliceWritePtr) = true ∧
      lenSum ((sliceFn {} (s2c "ab.")).slices.take (sliceFn {} (s2c "ab.")).sliceWritePtr) =
        (s2c "ab.").length) ∧
     (contB ((splitSlot c1State 0 1).slices.take (splitSlot c1State 0 1).sliceWritePtr) = true ∧
      lenSum ((splitSlot c1State 0 1).slices.take (splitSlot c1State 0 1).sliceWritePtr) =
        lenSum (c1State.slices.take c1State.sliceWritePtr))) :=
  ⟨⟨by decide, by decide, by decide, by decide⟩,
    slice_contiguous_exhaustive_splitSlot_preserves {} c1State (s2c "ab.") 0 1
      (by decide) (by decide) (by decide) (by decide)⟩

/-- C4 counterexample: on the empty line, `slice` writes nothing at all —
    no slice is appended, in particular no end-of-line sentinel. -/
theorem slice_empty_line_writes_no_sentinel :
    (sliceFn {} []).sliceWritePtr = 0 ∧ (sliceFn {} []).slices = [] :=
  ⟨rfl, rfl⟩

/-- Projections of `sliceFn` on a nonempty line. -/
theorem sliceFn_wptr (st0 : PState) (raw : List Nat) (h : raw.length ≠ 0) :
    (sliceFn st0 raw).sliceWritePtr = (sliceList raw).length := by
  simp [sliceFn, h]

theorem sliceFn_eolI (st0 : PState) (raw : List Nat) (h : raw.length ≠ 0) :
    (sliceFn st0 raw).eolSpan.i = (sliceList raw).length - 1 := by
  simp [sliceFn, h]

theorem sliceFn_slices (st0 : PState) (raw : List Nat) (h : raw.length ≠ 0) :
    (sliceFn st0 raw).slices = sliceList raw ++ st0.slices.drop (sliceList raw).length := by
  simp [sliceFn, reset, h]

theorem sliceList_length_pos (raw : List Nat) (h : raw ≠ []) :
    1 ≤ (sliceList raw).length := by
  cases raw with
  | nil => exact absurd rfl h
  | cons c cs => simp [sliceList]

theorem sliceList_getLast (raw : List Nat) (h : raw ≠ []) :
    (sliceList raw).getD ((sliceList raw).length - 1) dSlice = ⟨0, raw.length, 0⟩ := by
  cases raw with
  | nil => exact absurd rfl h
  | cons c cs =>
    simp only [sliceList]
    have hl : (sliceScan (classBits c) 0 1 cs ++
        [(⟨0, (c :: cs).length, 0⟩ : Slice)]).length
        = (sliceScan (classBits c) 0 1 cs).length + 1 := by simp
    rw [hl, Nat.add_sub_cancel,
        List.getD_append_right _ _ _ _ (le_refl _), Nat.sub_self]
    rfl

/-- C4 (amended).  For every NONEMPTY input line, `slice(raw)` appends a
    terminating end-of-line sentinel slice with length 0 and origin equal to
    the raw line's length, as the last written slice (pointed to by the eol
    span); the empty line writes nothing (see
    `slice_empty_line_writes_no_sentinel`). -/
theorem slice_appends_eol_sentinel (st0 : PState) (raw : List Nat) (h : raw ≠ []) :
    (sliceFn st0 raw).sliceWritePtr = (sliceFn st0 raw).eolSpan.i + 1 ∧
    sliceAt (sliceFn st0 raw) (sliceFn st0 raw).eolSpan.i
      = ⟨0, raw.length, 0⟩ := by
  have hlen : raw.length ≠ 0 := by
    cases raw with
    | nil => exact absurd rfl h
    | cons c cs => simp
  have hpos := sliceList_length_pos raw h
  constructor
  · rw [sliceFn_wptr st0 raw hlen, sliceFn_eolI st0 raw hlen]
    omega
  · rw [sliceAt, sliceFn_slices st0 raw hlen, sliceFn_eolI st0 raw hlen,
        List.getD_append _ _ _ _ (by omega)]
    exact sliceList_getLast raw h

theorem slice_appends_eol_sentinel_witness :
    (s2c "a" ≠ []) ∧
    ((sliceFn {} (s2c "a")).sliceWritePtr = (sliceFn {} (s2c "a")).eolSpan.i + 1 ∧
     sliceAt (sliceFn {} (s2c "a")) (sliceFn {} (s2c "a")).eolSpan.i
       = ⟨0, (s2c "a").length, 0⟩) :=
  ⟨by decide, slice_appends_eol_sentinel {} (s2c "a") (by decide)⟩

/-- A concrete oracle assignment used for closed counterexamples: the
    selector compiler accepts everything, the localhost-redirect regex
    matches nothing, the punycoder always throws. -/
def oracleUnit : Oracles := ⟨fun _ _ => true, fun _ => false, fun _ => none⟩

theorem getNetPattern_pattern (st : PState) :
    (getNetPattern st).1.pattern = (getNetPattern st).2 := by
  unfold getNetPattern
  split
  · rfl
  · split
    · next h _ =>
      simp only [ne_eq, Decidable.not_not] at h
      simp [h]
    · rfl

/-- C9 counterexample: on the network filter `:é` (unicode pattern whose
    first byte is outside the `reHostname` class) `toPunycode()` returns
    `undefined`, not a boolean. -/
theorem toPunycode_returns_undefined :
    (toPunycode oracleUnit (analyze oracleUnit {} (s2c ":é"))).2 = none := by
  decide

/-- C9 (amended).  `toPunycode()` returns `true` when the pattern has no
    unicode, or is empty, or re-analysis with the punycoded hostname
    prefix succeeded; `false` when the punycode conversion throws; but it
    returns `undefined` (no boolean) exactly when the pattern has unicode,
    is nonempty, and the `reHostname` prefix match fails. -/
theorem toPunycode_undefined_iff (o : Oracles) (st : PState) :
    (toPunycode o st).2 = none ↔
      (patternHasUnicode st = true ∧ st.patternSpan.l ≠ 0 ∧
       (getNetPattern st).2.takeWhile allowedHostChar = []) := by
  unfold toPunycode
  by_cases hu : patternHasUnicode st = false
  · simp [hu]
  · rw [Bool.not_eq_false] at hu
    simp only [hu, Bool.true_eq_false, if_false]
    by_cases hl : st.patternSpan.l = 0
    · simp [hl]
    · simp only [hl, if_false]
      rw [getNetPattern_pattern st] at *
      by_cases hm : (getNetPattern st).2.takeWhile allowedHostChar = []
      · simp only [getNetPattern_pattern, hm, if_true]
        simp [hu, hl]
      · simp only [getNetPattern_pattern, hm, if_false]
        cases o.punyToAscii (replaceStar ((getNetPattern st).2.takeWhile allowedHostChar)) with
        | none => simp [hm]
        | some hn => simp [hm]

/-! ### allBits preservation and the blank-line characterisation (C10) -/

theorem le_or_left (a b : Nat) : a ≤ a ||| b := by
  apply Nat.le_of_testBit
  intro i h
  simp [Nat.testBit_or, h]

theorem or_le_one_iff (a b : Nat) : a ||| b ≤ 1 ↔ a ≤ 1 ∧ b ≤ 1 := by
  constructor
  · intro h
    exact ⟨le_trans (le_or_left a b) h,
           le_trans (by rw [Nat.or_comm]; exact le_or_left b a) h⟩
  · rintro ⟨ha, hb⟩
    interval_cases a <;> interval_cases b <;> decide

theorem or_eq_one_iff (a b : Nat) (ha : a ≤ 1) (hb : b ≤ 1) :
    (a ||| b = 1 ↔ (a = 1 ∨ b = 1)) := by
  interval_cases a <;> interval_cases b <;> decide

/-- The `allBits` accumulation over the characters of the line. -/
def charFold (init : Nat) (raw : List Nat) : Nat :=
  raw.foldl (fun a c => a ||| classBits c) init

theorem sliceScan_foldl_bits (cs : List Nat) :
    ∀ b o l init,
      (sliceScan b o l cs).foldl (fun a s => a ||| s.bits) init
        = charFold (init ||| b) cs := by
  induction cs with
  | nil => intro b o l init; simp [sliceScan, charFold]
  | cons c cs ih =>
    intro b o l init
    simp only [sliceScan]
    split
    · next h =>
      rw [ih]
      simp only [charFold, List.foldl_cons, h]
      rw [Nat.or_assoc, Nat.or_self]
    · simp only [List.foldl_cons, charFold, List.foldl_cons]
      rw [ih]
      rfl

theorem bitsUnion_sliceList (raw : List Nat) :
    bitsUnion (sliceList raw) = charFold 0 raw := by
  cases raw with
  | nil => rfl
  | cons c cs =>
    simp only [sliceList, bitsUnion, List.foldl_append, List.foldl_cons, List.foldl_nil]
    rw [sliceScan_foldl_bits]
    simp [charFold, Nat.or_zero, Nat.zero_or]

theorem le_charFold (cs : List Nat) : ∀ init, init ≤ charFold init cs := by
  induction cs with
  | nil => intro init; simp [charFold]
  | cons d ds ih =>
    intro init
    simp only [charFold, List.foldl_cons]
    exact le_trans (le_or_left _ _) (ih _)

theorem charFold_eq_one_iff (raw : List Nat) :
    ∀ init, init ≤ 1 →
      (charFold init raw = 1 ↔
        ((∀ c ∈ raw, classBits c ≤ 1) ∧
         (init = 1 ∨ ∃ c ∈ raw, classBits c = 1))) := by
  induction raw with
  | nil => intro init h; simp [charFold]
  | cons c cs ih =>
    intro init h
    have hstep : charFold init (c :: cs) = charFold (init ||| classBits c) cs := rfl
    by_cases hc : classBits c ≤ 1
    · have hor : init ||| classBits c ≤ 1 := (or_le_one_iff _ _).mpr ⟨h, hc⟩
      rw [hstep, ih (init ||| classBits c) hor, or_eq_one_iff init (classBits c) h hc]
      constructor
      · rintro ⟨hall, hex⟩
        refine ⟨?_, ?_⟩
        · intro x hx
          rcases List.mem_cons.mp hx with rfl | hx
          · exact hc
          · exact hall x hx
        · rcases hex with (h1 | h1) | ⟨x, hx, h1⟩
          · exact Or.inl h1
          · exact Or.inr ⟨c, List.mem_cons_self c cs, h1⟩
          · exact Or.inr ⟨x, List.mem_cons_of_mem c hx, h1⟩
      · rintro ⟨hall, hex⟩
        refine ⟨?_, ?_⟩
        · intro x hx
          exact hall x (List.mem_cons_of_mem c hx)
        · rcases hex with h1 | ⟨x, hx, h1⟩
          · exact Or.inl (Or.inl h1)
          · rcases List.mem_cons.mp hx with rfl | hx
            · exact Or.inl (Or.inr h1)
            · exact Or.inr ⟨x, hx, h1⟩
    · rw [hstep]
      constructor
      · intro hfold
        exfalso
        have hle : init ||| classBits c ≤ charFold (init ||| classBits c) cs :=
          le_charFold cs _
        rw [hfold] at hle
        exact hc (le_trans (by rw [Nat.or_comm]; exact le_or_left _ _) hle)
      · rintro ⟨hall, _⟩
        exact absurd (hall c (List.mem_cons_self c cs)) hc

@[simp] theorem splitSlot_allBits (st : PState) (slot l : Nat) :
    (splitSlot st slot l).allBits = st.allBits := rfl

@[simp] theorem addFlavor_allBits (st : PState) (b : Nat) :
    (addFlavor st b).allBits = st.allBits := rfl

@[simp] theorem markSlices_allBits (st : PState) (a b c : Nat) :
    (markSlices st a b c).allBits = st.allBits := rfl

@[simp] theorem orBitsAt_allBits (st : PState) (a b : Nat) :
    (orBitsAt st a b).allBits = st.allBits := rfl

@[simp] theorem clearFlavor_allBits (st : PState) (m : Nat) :
    (clearFlavor st m).allBits = st.allBits := rfl

@[simp] theorem getNetPattern_allBits (st : PState) :
    (getNetPattern st).1.allBits = st.allBits := by
  unfold getNetPattern
  split
  · rfl
  · split <;> rfl

@[simp] theorem analyzeExtPattern_allBits (o : Oracles) (st : PState) :
    (analyzeExtPattern o st).allBits = st.allBits := by
  unfold analyzeExtPattern
  repeat' (first | intro _ | split |
    simp [apply_ite (fun st : PState => st.allBits),
      apply_ite (fun p : PState × Nat => p.1.allBits),
      apply_ite (fun p : PState × List Nat => p.1.allBits),
      apply_ite (fun p : PState × Nat => p.2)])

@[simp] theorem analyzeExtFinish_allBits (o : Oracles) (st : PState)
    (frm al fl : Nat) (sf : Bool) :
    (analyzeExtFinish o st frm al fl sf).allBits = st.allBits := by
  unfold analyzeExtFinish
  simp

@[simp] theorem analyzeExt_allBits (o : Oracles) (st : PState) (frm : Nat) :
    (analyzeExt o st frm).allBits = st.allBits := by
  unfold analyzeExt
  repeat' (first | intro _ | split |
    simp [apply_ite (fun st : PState => st.allBits),
      apply_ite (fun p : PState × Nat => p.1.allBits),
      apply_ite (fun p : PState × List Nat => p.1.allBits),
      apply_ite (fun p : PState × Nat => p.2)])

@[simp] theorem netExceptionStage_allBits (st : PState) :
    (netExceptionStage st).1.allBits = st.allBits := by
  unfold netExceptionStage
  repeat' (first | intro _ | split |
    simp [apply_ite (fun st : PState => st.allBits),
      apply_ite (fun p : PState × Nat => p.1.allBits),
      apply_ite (fun p : PState × List Nat => p.1.allBits),
      apply_ite (fun p : PState × Nat => p.2)])

@[simp] theorem netOptionsStage_allBits (st : PState) (islice : Nat) :
    (netOptionsStage st islice).allBits = st.allBits := by
  unfold netOptionsStage
  repeat' (first | intro _ | split |
    simp [apply_ite (fun st : PState => st.allBits),
      apply_ite (fun p : PState × Nat => p.1.allBits),
      apply_ite (fun p : PState × List Nat => p.1.allBits),
      apply_ite (fun p : PState × Nat => p.2)])

@[simp] theorem netLeftAnchorStage_allBits (st : PState) :
    (netLeftAnchorStage st).allBits = st.allBits := by
  unfold netLeftAnchorStage
  repeat' (first | intro _ | split |
    simp [apply_ite (fun st : PState => st.allBits),
      apply_ite (fun p : PState × Nat => p.1.allBits),
      apply_ite (fun p : PState × List Nat => p.1.allBits),
      apply_ite (fun p : PState × Nat => p.2)])

@[simp] theorem netRightAnchorStage_allBits (st : PState) :
    (netRightAnchorStage st).allBits = st.allBits := by
  unfold netRightAnchorStage
  repeat' (first | intro _ | split |
    simp [apply_ite (fun st : PState => st.allBits),
      apply_ite (fun p : PState × Nat => p.1.allBits),
      apply_ite (fun p : PState × List Nat => p.1.allBits),
      apply_ite (fun p : PState × Nat => p.2)])

@[simp] theorem netSpaceStage_allBits (o : Oracles) (st : PState) :
    (netSpaceStage o st).allBits = st.allBits := by
  unfold netSpaceStage
  repeat' (first | intro _ | split |
    simp [apply_ite (fun st : PState => st.allBits),
      apply_ite (fun p : PState × Nat => p.1.allBits),
      apply_ite (fun p : PState × List Nat => p.1.allBits),
      apply_ite (fun p : PState × Nat => p.2)])

@[simp] theorem netWildcardStage_allBits (st : PState) :
    (netWildcardStage st).allBits = st.allBits := by
  unfold netWildcardStage
  repeat' (first | intro _ | split |
    simp [apply_ite (fun st : PState => st.allBits),
      apply_ite (fun p : PState × Nat => p.1.allBits),
      apply_ite (fun p : PState × List Nat => p.1.allBits),
      apply_ite (fun p : PState × Nat => p.2)])

@[simp] theorem analyzeNet_allBits (o : Oracles) (st : PState) :
    (analyzeNet o st).allBits = st.allBits := by
  unfold analyzeNet
  repeat' (first | intro _ | split |
    simp [apply_ite (fun st : PState => st.allBits),
      apply_ite (fun p : PState × Nat => p.1.allBits),
      apply_ite (fun p : PState × List Nat => p.1.allBits),
      apply_ite (fun p : PState × Nat => p.2)])

@[simp] theorem inlineCommentLoop_allBits (st : PState) :
    ∀ fuel hashSlot, (inlineCommentLoop st fuel hashSlot).allBits = st.allBits := by
  intro fuel
  induction fuel with
  | zero => intro hashSlot; rfl
  | succ fuel ih =>
    intro hashSlot
    unfold inlineCommentLoop
    repeat' split
    all_goals simp [ih]

@[simp] theorem commentAssume_allBits (st : PState) :
    (commentAssume st).allBits = st.allBits := rfl

theorem analyze_allBits (o : Oracles) (st : PState) (raw : List Nat) :
    (analyze o st raw).allBits = (sliceFn st raw).allBits := by
  unfold analyze
  repeat' (first | intro _ | split |
    simp [apply_ite (fun st : PState => st.allBits),
      apply_ite (fun p : PState × Nat => p.1.allBits),
      apply_ite (fun p : PState × List Nat => p.1.allBits),
      apply_ite (fun p : PState × Nat => p.2)])

theorem sliceFn_allBits (st : PState) (raw : List Nat) :
    (sliceFn st raw).allBits =
      if raw.length = 0 then 0 else bitsUnion (sliceList raw) := by
  unfold sliceFn
  split
  · simp [reset]
  · simp

/-- A whitespace byte: one of TAB, LF, CR, SPACE (the bytes whose class
    is `BITSpace` in the table). -/
def whitespaceByte (c : Nat) : Bool := c == 9 || c == 10 || c == 13 || c == 32

theorem whitespaceByte_iff_classBits (c : Nat) :
    whitespaceByte c = true ↔ classBits c = BITSpace := by
  by_cases h : c < 128
  · revert h
    have : ∀ c' < 128, (whitespaceByte c' = true ↔ classBits c' = BITSpace) := by decide
    exact this c
  · have hc : classBits c = unicodeBits := by
      unfold classBits
      rw [if_neg (by omega)]
    constructor
    · intro hw
      exfalso
      simp only [whitespaceByte, Bool.or_eq_true, beq_iff_eq] at hw
      omega
    · intro hb
      rw [hc] at hb
      exact absurd hb (by decide)

theorem classBits_le_one_iff (c : Nat) :
    classBits c ≤ 1 ↔ (whitespaceByte c = true ∨ classBits c = 0) := by
  rw [whitespaceByte_iff_classBits]
  have : BITSpace = 1 := rfl
  omega

/-- C10 counterexample for the blank-line characterisation: the line
    `" \x00"` (a space followed by a NUL byte) is reported blank although it
    does not consist entirely of whitespace bytes. -/
theorem isBlank_true_on_space_nul_line :
    isBlank (analyze oracleUnit {} [32, 0]) = true ∧
    (0 : Nat) ∈ [32, 0] ∧ whitespaceByte 0 = false := by
  refine ⟨by decide, by decide, by decide⟩

/-- C10 (amended).  `analyze('')` terminates with category None, writes no
    slices (in particular no EOL sentinel), and `isBlank()` then returns
    false; in general `isBlank()` returns true iff the line contains at
    least one whitespace byte and every byte is either a whitespace byte or
    a zero-class control byte (bytes 0x00-0x08, 0x0B, 0x0C, 0x0E-0x1F, 0x7F
    also satisfy the test, which is what corrects the original claim). -/
theorem analyze_empty_and_isBlank_characterisation
    (o : Oracles) (st : PState) (raw : List Nat) :
    ((analyze o st []).category = CATNone ∧
     (analyze o st []).sliceWritePtr = 0 ∧
     isBlank (analyze o st []) = false) ∧
    (isBlank (analyze o st raw) = true ↔
      ((∀ c ∈ raw, whitespaceByte c = true ∨ classBits c = 0) ∧
       ∃ c ∈ raw, whitespaceByte c = true)) := by
  constructor
  · exact ⟨rfl, rfl, rfl⟩
  · have hbits : (analyze o st raw).allBits =
        if raw.length = 0 then 0 else bitsUnion (sliceList raw) := by
      rw [analyze_allBits, sliceFn_allBits]
    unfold isBlank
    rw [hbits]
    cases raw with
    | nil => simp [BITSpace]
    | cons c cs =>
      rw [if_neg (by simp), bitsUnion_sliceList]
      have hch := charFold_eq_one_iff (c :: cs) 0 (by omega)
      have hsp : BITSpace = 1 := rfl
      constructor
      · intro h
        have h1 : charFold 0 (c :: cs) = 1 := by
          have := beq_iff_eq.mp h
          omega
        rcases (hch.mp h1) with ⟨hall, hex⟩
        refine ⟨?_, ?_⟩
        · intro x hx
          exact (classBits_le_one_iff x).mp (hall x hx)
        · rcases hex with h0 | ⟨x, hx, hx1⟩
          · omega
          · exact ⟨x, hx, (whitespaceByte_iff_classBits x).mpr (by omega)⟩
      · rintro ⟨hall, x, hx, hxw⟩
        have h1 : charFold 0 (c :: cs) = 1 := by
          apply hch.mpr
          refine ⟨?_, Or.inr ⟨x, hx, ?_⟩⟩
          · intro y hy
            exact (classBits_le_one_iff y).mpr (hall y hy)
          · have := (whitespaceByte_iff_classBits x).mp hxw
            omega
        rw [h1]
        decide

/-! ### C2/C3: option-scan invariants -/

def dRec : OptRecord := ⟨0, 0, 0, 0, 0, 0⟩

theorem lookup_mem {l : List (List Nat × Nat)} {k : List Nat} {v : Nat}
    (h : l.lookup k = some v) : (k, v) ∈ l := by
  induction l with
  | nil => simp [List.lookup] at h
  | cons a l ih =>
    rw [List.lookup] at h
    split at h
    · next heq =>
      have hk : k = a.1 := beq_iff_eq.mp heq
      have hv : v = a.2 := by injection h; omega
      subst hk; subst hv
      exact List.mem_cons_self _ _
    · exact List.mem_cons_of_mem _ (ih h)

theorem netOptionTokens_redirect_fact : ∀ p ∈ netOptionTokens,
    hasBitsB p.2 OPTRedirectType = true →
      (p.2 &&& 0xFF ≠ OPTTokenCsp ∧ p.2 &&& 0xFF ≠ 0) := by decide

/-- Any descriptor produced by `optParse` is either `OPTTokenInvalid` or a
    value of the `netOptionTokens` table. -/
theorem optValidate_mem (e : Bool) (lopt ltok : Nat) (a : Bool)
    (dOpt : Option Nat)
    (hmem : ∀ d, dOpt = some d → ∃ k, (k, d) ∈ netOptionTokens) :
    optValidate e lopt ltok a dOpt = OPTTokenInvalid ∨
    ∃ k, (k, optValidate e lopt ltok a dOpt) ∈ netOptionTokens := by
  unfold optValidate
  split
  · exact Or.inl rfl
  · next d =>
    split
    · exact Or.inl rfl
    · exact Or.inr (hmem d rfl)

theorem optParse_desc_mem (e : Bool) (ro : Nat) (st : PState) (lopt : Nat) :
    (optParse e ro st lopt).desc = OPTTokenInvalid ∨
    ∃ k, (k, (optParse e ro st lopt).desc) ∈ netOptionTokens := by
  unfold optParse
  dsimp only
  apply optValidate_mem
  intro d hd
  repeat' split at hd
  all_goals first
    | exact ⟨_, lookup_mem hd⟩
    | exact absurd hd (by simp)

/-- A descriptor produced by `optParse` that carries the REDIRECT flag has
    a low byte that is neither 0 nor the `csp` id. -/
theorem optParse_desc_redirect (e : Bool) (ro : Nat) (st : PState) (lopt : Nat)
    (h : hasBitsB (optParse e ro st lopt).desc OPTRedirectType = true) :
    (optParse e ro st lopt).desc &&& 0xFF ≠ OPTTokenCsp ∧
    (optParse e ro st lopt).desc &&& 0xFF ≠ 0 := by
  rcases optParse_desc_mem e ro st lopt with h0 | ⟨k, hk⟩
  · rw [h0] at h
    exact absurd h (by decide)
  · exact netOptionTokens_redirect_fact _ hk h

/-- The invariant maintained by the option scan: the redirect index points
    at the unique record carrying the REDIRECT flag (with a non-`csp`,
    nonzero low byte), the csp index at the unique record whose low byte
    is the `csp` id. -/
structure ScanInv (acc : OptScanState) : Prop where
  redirSome : ∀ r, acc.redirectIndex = some r →
    r < acc.recs.length ∧
    hasBitsB (acc.recs.getD r dRec).desc OPTRedirectType = true ∧
    (acc.recs.getD r dRec).desc &&& 0xFF ≠ OPTTokenCsp ∧
    (acc.recs.getD r dRec).desc &&& 0xFF ≠ 0
  redirUnique : ∀ k, k < acc.recs.length → acc.redirectIndex ≠ some k →
    hasBitsB (acc.recs.getD k dRec).desc OPTRedirectType = false
  cspSome : ∀ c, acc.cspIndex = some c →
    c < acc.recs.length ∧
    (acc.recs.getD c dRec).desc &&& 0xFF = OPTTokenCsp
  cspUnique : ∀ k, k < acc.recs.length → acc.cspIndex ≠ some k →
    (acc.recs.getD k dRec).desc &&& 0xFF ≠ OPTTokenCsp

/-- The store phase appends exactly one record, whose descriptor is the
    dedup decision, and installs the dedup indices and type counts. -/
theorem optDedupStore_fields (acc : OptScanState) (lopt : Nat) (p : ParsedOpt) :
    ∃ rec0 : OptRecord,
      rec0.desc = (driOf acc p).1 ∧
      (optDedupStore acc lopt p).1.recs = acc.recs ++ [rec0] ∧
      (optDedupStore acc lopt p).1.redirectIndex = (driOf acc p).2.1 ∧
      (optDedupStore acc lopt p).1.cspIndex = (driOf acc p).2.2 ∧
      (optDedupStore acc lopt p).1.typeCount =
        (if hasBitsB p.desc OPTType then acc.typeCount + 1 else acc.typeCount) ∧
      (optDedupStore acc lopt p).1.networkTypeCount =
        (if hasBitsB p.desc OPTType ∧ hasBitsB p.desc OPTNetworkType
         then acc.networkTypeCount + 1 else acc.networkTypeCount) := by
  unfold optDedupStore
  dsimp only
  refine ⟨_, ?_, rfl, rfl, rfl, rfl, rfl⟩
  split <;> rfl

theorem getD_append_lt (l : List OptRecord) (x d : OptRecord) (k : Nat)
    (h : k < l.length) : (l ++ [x]).getD k d = l.getD k d :=
  List.getD_append _ _ _ _ h

theorem getD_append_len (l : List OptRecord) (x d : OptRecord) :
    (l ++ [x]).getD l.length d = x := by
  rw [List.getD_append_right _ _ _ _ (le_refl _)]
  simp

theorem ScanInv_store (acc : OptScanState) (lopt : Nat) (p : ParsedOpt)
    (h : ScanInv acc)
    (hp : hasBitsB p.desc OPTRedirectType = true →
      p.desc &&& 0xFF ≠ OPTTokenCsp ∧ p.desc &&& 0xFF ≠ 0) :
    ScanInv (optDedupStore acc lopt p).1 := by
  obtain ⟨rec0, hdesc, hrecs, hri, hci, -, -⟩ := optDedupStore_fields acc lopt p
  have hlen : (acc.recs ++ [rec0]).length = acc.recs.length + 1 := by simp
  by_cases hRT : hasBitsB p.desc OPTRedirectType = true
  · rcases hir : acc.redirectIndex with _ | r
    · -- first redirect-flagged option
      have hdri : driOf acc p = (p.desc, some acc.recs.length, acc.cspIndex) := by
        simp [driOf, hRT, hir]
      rw [hdri] at hdesc hri hci
      try dsimp only at hdesc hri hci
      refine ⟨?_, ?_, ?_, ?_⟩
      · intro r' hr'
        rw [hri] at hr'
        obtain rfl : acc.recs.length = r' := Option.some.inj hr'
        rw [hrecs, hlen, getD_append_len, hdesc]
        exact ⟨by omega, hRT, (hp hRT).1, (hp hRT).2⟩
      · intro k hk hne
        rw [hri] at hne
        rw [hrecs, hlen] at hk
        have hklt : k < acc.recs.length := by
          rcases Nat.lt_succ_iff_lt_or_eq.mp hk with h1 | h1
          · exact h1
          · exact absurd (by rw [h1]) hne
        rw [hrecs, getD_append_lt _ _ _ _ hklt]
        exact h.redirUnique k hklt (by rw [hir]; simp)
      · intro c hc
        rw [hci] at hc
        obtain ⟨h1, h2⟩ := h.cspSome c hc
        rw [hrecs, hlen, getD_append_lt _ _ _ _ h1]
        exact ⟨by omega, h2⟩
      · intro k hk hne
        rw [hci] at hne
        rw [hrecs, hlen] at hk
        rcases Nat.lt_succ_iff_lt_or_eq.mp hk with h1 | h1
        · rw [hrecs, getD_append_lt _ _ _ _ h1]
          exact h.cspUnique k h1 hne
        · subst h1
          rw [hrecs, getD_append_len, hdesc]
          exact (hp hRT).1
    · -- a redirect-flagged option when one was already recorded
      have hdri : driOf acc p = (OPTTokenInvalid, some r, acc.cspIndex) := by
        simp [driOf, hRT, hir]
      rw [hdri] at hdesc hri hci
      try dsimp only at hdesc hri hci
      refine ⟨?_, ?_, ?_, ?_⟩
      · intro r' hr'
        rw [hri] at hr'
        obtain rfl : r = r' := Option.some.inj hr'
        obtain ⟨h1, h2, h3, h4⟩ := h.redirSome r hir
        rw [hrecs, hlen, getD_append_lt _ _ _ _ h1]
        exact ⟨by omega, h2, h3, h4⟩
      · intro k hk hne
        rw [hri] at hne
        rw [hrecs, hlen] at hk
        rcases Nat.lt_succ_iff_lt_or_eq.mp hk with h1 | h1
        · rw [hrecs, getD_append_lt _ _ _ _ h1]
          exact h.redirUnique k h1 (by rw [hir]; exact hne)
        · subst h1
          rw [hrecs, getD_append_len, hdesc]
          decide
      · intro c hc
        rw [hci] at hc
        obtain ⟨h1, h2⟩ := h.cspSome c hc
        rw [hrecs, hlen, getD_append_lt _ _ _ _ h1]
        exact ⟨by omega, h2⟩
      · intro k hk hne
        rw [hci] at hne
        rw [hrecs, hlen] at hk
        rcases Nat.lt_succ_iff_lt_or_eq.mp hk with h1 | h1
        · rw [hrecs, getD_append_lt _ _ _ _ h1]
          exact h.cspUnique k h1 hne
        · subst h1
          rw [hrecs, getD_append_len, hdesc]
          decide
  · have hRT' : hasBitsB p.desc OPTRedirectType = false := by
      exact Bool.not_eq_true _ ▸ (by simpa using hRT)
    by_cases hCs : (p.desc &&& 0xFF) = OPTTokenCsp
    · rcases hic : acc.cspIndex with _ | c
      · -- first csp option
        have hdri : driOf acc p = (p.desc, acc.redirectIndex, some acc.recs.length) := by
          simp [driOf, hRT', hCs, hic]
        rw [hdri] at hdesc hri hci
        try dsimp only at hdesc hri hci
        refine ⟨?_, ?_, ?_, ?_⟩
        · intro r' hr'
          rw [hri] at hr'
          obtain ⟨h1, h2, h3, h4⟩ := h.redirSome r' hr'
          rw [hrecs, hlen, getD_append_lt _ _ _ _ h1]
          exact ⟨by omega, h2, h3, h4⟩
        · intro k hk hne
          rw [hri] at hne
          rw [hrecs, hlen] at hk
          rcases Nat.lt_succ_iff_lt_or_eq.mp hk with h1 | h1
          · rw [hrecs, getD_append_lt _ _ _ _ h1]
            exact h.redirUnique k h1 hne
          · subst h1
            rw [hrecs, getD_append_len, hdesc]
            exact hRT'
        · intro c' hc'
          rw [hci] at hc'
          obtain rfl : acc.recs.length = c' := Option.some.inj hc'
          rw [hrecs, hlen, getD_append_len, hdesc]
          exact ⟨by omega, hCs⟩
        · intro k hk hne
          rw [hci] at hne
          rw [hrecs, hlen] at hk
          have hklt : k < acc.recs.length := by
            rcases Nat.lt_succ_iff_lt_or_eq.mp hk with h1 | h1
            · exact h1
            · exact absurd (by rw [h1]) hne
          rw [hrecs, getD_append_lt _ _ _ _ hklt]
          exact h.cspUnique k hklt (by rw [hic]; simp)
      · -- a csp option when one was already recorded
        have hdri : driOf acc p = (OPTTokenInvalid, acc.redirectIndex, some c) := by
          simp [driOf, hRT', hCs, hic]
        rw [hdri] at hdesc hri hci
        try dsimp only at hdesc hri hci
        refine ⟨?_, ?_, ?_, ?_⟩
        · intro r' hr'
          rw [hri] at hr'
          obtain ⟨h1, h2, h3, h4⟩ := h.redirSome r' hr'
          rw [hrecs, hlen, getD_append_lt _ _ _ _ h1]
          exact ⟨by omega, h2, h3, h4⟩
        · intro k hk hne
          rw [hri] at hne
          rw [hrecs, hlen] at hk
          rcases Nat.lt_succ_iff_lt_or_eq.mp hk with h1 | h1
          · rw [hrecs, getD_append_lt _ _ _ _ h1]
            exact h.redirUnique k h1 hne
          · subst h1
            rw [hrecs, getD_append_len, hdesc]
            decide
        · intro c' hc'
          rw [hci] at hc'
          obtain rfl : c = c' := Option.some.inj hc'
          obtain ⟨h1, h2⟩ := h.cspSome c hic
          rw [hrecs, hlen, getD_append_lt _ _ _ _ h1]
          exact ⟨by omega, h2⟩
        · intro k hk hne
          rw [hci] at hne
          rw [hrecs, hlen] at hk
          rcases Nat.lt_succ_iff_lt_or_eq.mp hk with h1 | h1
          · rw [hrecs, getD_append_lt _ _ _ _ h1]
            exact h.cspUnique k h1 (by rw [hic]; exact hne)
          · subst h1
            rw [hrecs, getD_append_len, hdesc]
            decide
    · -- neither redirect-flagged nor csp
      have hdri : driOf acc p = (p.desc, acc.redirectIndex, acc.cspIndex) := by
        simp [driOf, hRT', hCs]
      rw [hdri] at hdesc hri hci
      try dsimp only at hdesc hri hci
      refine ⟨?_, ?_, ?_, ?_⟩
      · intro r' hr'
        rw [hri] at hr'
        obtain ⟨h1, h2, h3, h4⟩ := h.redirSome r' hr'
        rw [hrecs, hlen, getD_append_lt _ _ _ _ h1]
        exact ⟨by omega, h2, h3, h4⟩
      · intro k hk hne
        rw [hri] at hne
        rw [hrecs, hlen] at hk
        rcases Nat.lt_succ_iff_lt_or_eq.mp hk with h1 | h1
        · rw [hrecs, getD_append_lt _ _ _ _ h1]
          exact h.redirUnique k h1 hne
        · subst h1
          rw [hrecs, getD_append_len, hdesc]
          exact hRT'
      · intro c' hc'
        rw [hci] at hc'
        obtain ⟨h1, h2⟩ := h.cspSome c' hc'
        rw [hrecs, hlen, getD_append_lt _ _ _ _ h1]
        exact ⟨by omega, h2⟩
      · intro k hk hne
        rw [hci] at hne
        rw [hrecs, hlen] at hk
        rcases Nat.lt_succ_iff_lt_or_eq.mp hk with h1 | h1
        · rw [hrecs, getD_append_lt _ _ _ _ h1]
          exact h.cspUnique k h1 hne
        · subst h1
          rw [hrecs, getD_append_len, hdesc]
          exact hCs

theorem ScanInv_step (e : Bool) (ro : Nat) (acc : OptScanState) (lopt : Nat)
    (h : ScanInv acc) : ScanInv (optInitStep e ro acc lopt).1 := by
  unfold optInitStep
  exact ScanInv_store acc lopt _ h (optParse_desc_redirect e ro acc.st lopt)

theorem ScanInv_loop (e : Bool) (ro : Nat) :
    ∀ fuel acc lopt, ScanInv acc → ScanInv (optInitLoop e ro fuel acc lopt) := by
  intro fuel
  induction fuel with
  | zero => intro acc lopt h; exact h
  | succ fuel ih =>
    intro acc lopt h
    unfold optInitLoop
    split
    · exact ih _ _ (ScanInv_step e ro acc lopt h)
    · exact h

theorem ScanInv_init : ScanInv ⟨st0, [], 0, 0, none, none⟩ := by
  refine ⟨?_, ?_, ?_, ?_⟩ <;> intro k hk <;> simp at hk

theorem ScanInv_optScanOf (st : PState) : ScanInv (optScanOf st) :=
  ScanInv_loop _ _ _ _ _ ScanInv_init

/-! ### Flavor preservation through `NetOptionsIterator.init` -/

@[simp] theorem markSlices_flavorBits (st : PState) (a b c : Nat) :
    (markSlices st a b c).flavorBits = st.flavorBits := rfl

@[simp] theorem orBitsAt_flavorBits (st : PState) (a b : Nat) :
    (orBitsAt st a b).flavorBits = st.flavorBits := rfl

@[simp] theorem optEndScan_flavorBits (lopt ropts : Nat) :
    ∀ fuel st i lval,
      (optEndScan lopt ropts fuel st i lval).1.flavorBits = st.flavorBits := by
  intro fuel
  induction fuel with
  | zero => intro st i lval; rfl
  | succ fuel ih =>
    intro st i lval
    unfold optEndScan
    repeat' split
    all_goals simp [ih, apply_ite (fun p : PState × Nat × Nat => p.1.flavorBits),
      apply_ite (fun st : PState => st.flavorBits)]

@[simp] theorem analyzeDomainListLoop_flavorBits (tgt sep ob : Nat) :
    ∀ fuel st beg,
      (analyzeDomainListLoop tgt sep ob fuel st beg).flavorBits = st.flavorBits := by
  intro fuel
  induction fuel with
  | zero => intro st beg; rfl
  | succ fuel ih =>
    intro st beg
    unfold analyzeDomainListLoop
    repeat' split
    all_goals simp [ih, apply_ite (fun st : PState => st.flavorBits)]

@[simp] theorem analyzeDomainList_flavorBits (st : PState) (a b c d : Nat) :
    (analyzeDomainList st a b c d).flavorBits = st.flavorBits := by
  unfold analyzeDomainList
  repeat' split
  all_goals simp [apply_ite (fun st : PState => st.flavorBits)]

@[simp] theorem optParse_flavorBits (e : Bool) (ro : Nat) (st : PState) (lopt : Nat) :
    (optParse e ro st lopt).st.flavorBits = st.flavorBits := by
  unfold optParse
  dsimp only
  simp

@[simp] theorem optDedupStore_flavorBits (acc : OptScanState) (lopt : Nat) (p : ParsedOpt) :
    (optDedupStore acc lopt p).1.st.flavorBits = p.st.flavorBits := by
  unfold optDedupStore
  repeat' split
  all_goals simp [apply_ite (fun st : PState => st.flavorBits)]

@[simp] theorem optInitStep_flavorBits (e : Bool) (ro : Nat)
    (acc : OptScanState) (lopt : Nat) :
    (optInitStep e ro acc lopt).1.st.flavorBits = acc.st.flavorBits := by
  unfold optInitStep
  simp

theorem optInitLoop_flavorBits (e : Bool) (ro : Nat) :
    ∀ fuel acc lopt,
      (optInitLoop e ro fuel acc lopt).st.flavorBits = acc.st.flavorBits := by
  intro fuel
  induction fuel with
  | zero => intro acc lopt; rfl
  | succ fuel ih =>
    intro acc lopt
    unfold optInitLoop
    split
    · rw [ih]; simp
    · rfl

theorem optScanOf_flavorBits (st : PState) :
    (optScanOf st).st.flavorBits = st.flavorBits := by
  unfold optScanOf
  rw [optInitLoop_flavorBits]

/-- `NetOptionsIterator.init` never touches the flavor bits: in particular
    it never sets the Error flavor. -/
theorem netOptionsInit_flavorBits (st : PState) :
    (netOptionsInit st).1.flavorBits = st.flavorBits := by
  unfold netOptionsInit
  split
  · rfl
  · dsimp only
    repeat' split
    all_goals simp [optScanOf_flavorBits]

/-! ### Censoring lemmas -/

theorem censorRecord_getD_ne (recs : List OptRecord) (idx k : Nat) (d : OptRecord)
    (h : idx ≠ k) : (censorRecord recs idx).getD k d = recs.getD k d := by
  unfold censorRecord
  split
  · rfl
  · rw [List.getD_eq_getElem?_getD, List.getElem?_set_ne h,
        ← List.getD_eq_getElem?_getD]

theorem censorRecord_getD_desc (recs : List OptRecord) (idx k : Nat) (d : OptRecord) :
    ((censorRecord recs idx).getD k d).desc = (recs.getD k d).desc ∨
    ((censorRecord recs idx).getD k d).desc = OPTTokenInvalid := by
  by_cases h : idx = k
  · subst h
    unfold censorRecord
    split
    · exact Or.inl rfl
    · next r hr =>
      by_cases hlt : idx < recs.length
      · rw [List.getD_eq_getElem?_getD, List.getElem?_set_self hlt]
        exact Or.inr rfl
      · rw [List.getD_eq_getElem?_getD, List.set_eq_of_length_le (by omega)]
        rw [← List.getD_eq_getElem?_getD]
        exact Or.inl rfl
  · rw [censorRecord_getD_ne recs idx k d h]
    exact Or.inl rfl

theorem censorRecord_getD_eq_desc (recs : List OptRecord) (idx : Nat) (d : OptRecord)
    (h : idx < recs.length) :
    ((censorRecord recs idx).getD idx d).desc = OPTTokenInvalid := by
  unfold censorRecord
  split
  · next hr =>
    rw [List.get?_eq_getElem?, List.getElem?_eq_none_iff] at hr
    exact absurd h (by omega)
  · rw [List.getD_eq_getElem?_getD, List.getElem?_set_self h]
    rfl

/-- The record list returned by `init`: the scan's records with the csp
    record censored when any type option is present, and the redirect
    record censored unless exactly one type or one network type was
    counted. -/
def initRecsOf (st : PState) : List OptRecord :=
  let acc := optScanOf st
  let recs1 :=
    match acc.cspIndex with
    | some c => if acc.typeCount ≠ 0 then censorRecord acc.recs c else acc.recs
    | none => acc.recs
  match acc.redirectIndex with
  | some r =>
    if acc.typeCount ≠ 1 ∧ acc.networkTypeCount ≠ 1
    then censorRecord recs1 r else recs1
  | none => recs1

theorem netOptionsInit_recs (st : PState) (hl : st.optionsSpan.l ≠ 0) :
    (netOptionsInit st).2 = initRecsOf st := by
  unfold netOptionsInit initRecsOf
  rw [if_neg hl]
  dsimp only
  rcases (optScanOf st).cspIndex with _ | c <;>
    rcases (optScanOf st).redirectIndex with _ | r <;>
    dsimp only <;>
    repeat' split
  all_goals rfl

theorem optScanOf_trivial (st : PState) (hl : st.optionsSpan.l = 0) :
    optScanOf st = ⟨st, [], 0, 0, none, none⟩ := by
  unfold optScanOf
  rw [hl]
  unfold optInitLoop
  simp

theorem censorRecord_length (recs : List OptRecord) (idx : Nat) :
    (censorRecord recs idx).length = recs.length := by
  unfold censorRecord
  split
  · rfl
  · simp

/-- C2 (amended).  For a network filter whose option scan recorded a
    `redirect`/`redirect-rule` (or other redirect-flagged) option at record
    index `r`, that option is reported with its valid (nonzero) id iff the
    scan counted exactly one type option OR exactly one network-type
    option; otherwise the stored descriptor is censored to
    `OPTTokenInvalid`. -/
theorem redirect_option_valid_iff_one_type_or_network_type
    (st : PState) (r : Nat)
    (hr : (optScanOf st).redirectIndex = some r) :
    (((netOptionsInit st).2.getD r dRec).desc &&& 0xFF ≠ OPTTokenInvalid ↔
      ((optScanOf st).typeCount = 1 ∨ (optScanOf st).networkTypeCount = 1)) := by
  have hinv := ScanInv_optScanOf st
  obtain ⟨hrlt, hrRT, hrCs, hrNz⟩ := hinv.redirSome r hr
  by_cases hl : st.optionsSpan.l = 0
  · rw [optScanOf_trivial st hl] at hr
    exact absurd hr (by simp)
  · rw [netOptionsInit_recs st hl]
    unfold initRecsOf
    dsimp only
    rw [hr]
    have hrecs1 :
        ∀ recs1 : List OptRecord,
          recs1.length = (optScanOf st).recs.length →
          recs1.getD r dRec = (optScanOf st).recs.getD r dRec →
          (((if (optScanOf st).typeCount ≠ 1 ∧ (optScanOf st).networkTypeCount ≠ 1
             then censorRecord recs1 r else recs1).getD r dRec).desc &&& 0xFF ≠
              OPTTokenInvalid ↔
            ((optScanOf st).typeCount = 1 ∨ (optScanOf st).networkTypeCount = 1)) := by
      intro recs1 hlen1 hdesc1
      split
      · next hcond =>
        rw [censorRecord_getD_eq_desc recs1 r dRec (by omega)]
        constructor
        · intro hx; exact absurd (by decide) hx
        · intro hx; exact absurd hx (by omega)
      · next hcond =>
        rw [hdesc1]
        constructor
        · intro _; omega
        · intro _; exact hrNz
    rcases hci : (optScanOf st).cspIndex with _ | c
    · dsimp only
      exact hrecs1 (optScanOf st).recs rfl rfl
    · obtain ⟨hclt, hcCs⟩ := hinv.cspSome c hci
      have hcr : c ≠ r := by
        intro he; subst he; exact hrCs hcCs
      dsimp only
      by_cases ht : (optScanOf st).typeCount ≠ 0
      · rw [if_pos ht]
        exact hrecs1 (censorRecord (optScanOf st).recs c)
          (censorRecord_length _ _)
          (censorRecord_getD_ne _ _ _ _ hcr)
      · rw [if_neg ht]
        exact hrecs1 (optScanOf st).recs rfl rfl

theorem redirect_option_valid_iff_one_type_or_network_type_witness :
    ((optScanOf (analyze oracleUnit {} (s2c "a$redirect=foo,image"))).redirectIndex
      = some 0) ∧
    ((((netOptionsInit (analyze oracleUnit {} (s2c "a$redirect=foo,image"))).2.getD 0
        dRec).desc &&& 0xFF ≠ OPTTokenInvalid) ↔
      ((optScanOf (analyze oracleUnit {} (s2c "a$redirect=foo,image"))).typeCount = 1 ∨
       (optScanOf (analyze oracleUnit {} (s2c "a$redirect=foo,image"))).networkTypeCount
         = 1)) :=
  ⟨by decide,
   redirect_option_valid_iff_one_type_or_network_type
     (analyze oracleUnit {} (s2c "a$redirect=foo,image")) 0 (by decide)⟩

/-- C2 counterexample: in `a$redirect=foo,ghide` the option list contains
    ZERO network-type options (`ghide` is a non-network type option), yet
    the redirect option is reported with its valid id 28
    (`OPTTokenRedirect`) because the code only invalidates when BOTH the
    type count and the network-type count differ from 1. -/
theorem redirect_valid_with_zero_network_types :
    ((netOptionsList (analyze oracleUnit {} (s2c "a$redirect=foo,ghide"))).getD 0
      (0, false, none)).1 = OPTTokenRedirect ∧
    OPTTokenRedirect ≠ OPTTokenInvalid ∧
    (optScanOf (analyze oracleUnit {} (s2c "a$redirect=foo,ghide"))).networkTypeCount
      = 0 := by
  refine ⟨by decide, by decide, by decide⟩

theorem desc_cases_trans {a b c : Nat} (h1 : a = b ∨ a = OPTTokenInvalid)
    (h2 : b = c ∨ b = OPTTokenInvalid) : a = c ∨ a = OPTTokenInvalid := by
  rcases h1 with h1 | h1
  · rcases h2 with h2 | h2
    · exact Or.inl (h1.trans h2)
    · exact Or.inr (h1.trans h2)
  · exact Or.inr h1

theorem initRecs_desc_cases (st : PState) (k : Nat) :
    ((initRecsOf st).getD k dRec).desc = ((optScanOf st).recs.getD k dRec).desc ∨
    ((initRecsOf st).getD k dRec).desc = OPTTokenInvalid := by
  unfold initRecsOf
  dsimp only
  rcases (optScanOf st).cspIndex with _ | c <;>
    rcases (optScanOf st).redirectIndex with _ | r <;>
    dsimp only <;>
    repeat' split
  all_goals
    first
    | exact Or.inl rfl
    | exact censorRecord_getD_desc _ _ _ _
    | exact desc_cases_trans (censorRecord_getD_desc _ _ _ _)
        (censorRecord_getD_desc _ _ _ _)

theorem netOptionsInit_recs_nil (st : PState) (hl : st.optionsSpan.l = 0) :
    (netOptionsInit st).2 = [] := by
  unfold netOptionsInit
  rw [if_pos hl]

/-- C3 (amended).  At most one `csp` option and at most one
    `redirect`/`redirect-rule` option are accepted per filter — a second
    occurrence of either kind is reported as `OPTTokenInvalid` — but no
    violation ever sets the Error flavor: `NetOptionsIterator.init` leaves
    the flavor bits untouched, so `hasError()` is exactly what it was
    before the options were iterated. -/
theorem at_most_one_csp_and_redirect_without_error_flavor (st : PState) :
    ((netOptionsInit st).1.flavorBits = st.flavorBits ∧
     hasError (netOptionsInit st).1 = hasError st) ∧
    (∀ j k : Nat,
      hasBitsB ((netOptionsInit st).2.getD j dRec).desc OPTRedirectType = true →
      hasBitsB ((netOptionsInit st).2.getD k dRec).desc OPTRedirectType = true →
      j = k) ∧
    (∀ j k : Nat,
      ((netOptionsInit st).2.getD j dRec).desc &&& 0xFF = OPTTokenCsp →
      ((netOptionsInit st).2.getD k dRec).desc &&& 0xFF = OPTTokenCsp →
      j = k) := by
  have hinv := ScanInv_optScanOf st
  refine ⟨⟨netOptionsInit_flavorBits st, ?_⟩, ?_, ?_⟩
  · unfold hasError
    rw [netOptionsInit_flavorBits st]
  · intro j k hj hk
    by_cases hl : st.optionsSpan.l = 0
    · rw [netOptionsInit_recs_nil st hl, List.getD_nil] at hj
      exact absurd hj (by decide)
    · rw [netOptionsInit_recs st hl] at hj hk
      have hj1 :
          hasBitsB (((optScanOf st).recs.getD j dRec).desc) OPTRedirectType
            = true := by
        rcases initRecs_desc_cases st j with h | h
        · rw [← h]; exact hj
        · rw [h] at hj; exact absurd hj (by decide)
      have hk1 :
          hasBitsB (((optScanOf st).recs.getD k dRec).desc) OPTRedirectType
            = true := by
        rcases initRecs_desc_cases st k with h | h
        · rw [← h]; exact hk
        · rw [h] at hk; exact absurd hk (by decide)
      have hjlt : j < (optScanOf st).recs.length := by
        by_contra hge
        rw [List.getD_eq_default _ _ (by omega)] at hj1
        exact absurd hj1 (by decide)
      have hklt : k < (optScanOf st).recs.length := by
        by_contra hge
        rw [List.getD_eq_default _ _ (by omega)] at hk1
        exact absurd hk1 (by decide)
      have hjr : (optScanOf st).redirectIndex = some j := by
        by_contra hne
        exact absurd hj1 (by rw [hinv.redirUnique j hjlt hne]; decide)
      have hkr : (optScanOf st).redirectIndex = some k := by
        by_contra hne
        exact absurd hk1 (by rw [hinv.redirUnique k hklt hne]; decide)
      exact Option.some.inj (hjr.symm.trans hkr)
  · intro j k hj hk
    by_cases hl : st.optionsSpan.l = 0
    · rw [netOptionsInit_recs_nil st hl, List.getD_nil] at hj
      exact absurd hj (by decide)
    · rw [netOptionsInit_recs st hl] at hj hk
      have hj1 :
          ((optScanOf st).recs.getD j dRec).desc &&& 0xFF = OPTTokenCsp := by
        rcases initRecs_desc_cases st j with h | h
        · rw [← h]; exact hj
        · rw [h] at hj; exact absurd hj (by decide)
      have hk1 :
          ((optScanOf st).recs.getD k dRec).desc &&& 0xFF = OPTTokenCsp := by
        rcases initRecs_desc_cases st k with h | h
        · rw [← h]; exact hk
        · rw [h] at hk; exact absurd hk (by decide)
      have hjlt : j < (optScanOf st).recs.length := by
        by_contra hge
        rw [List.getD_eq_default _ _ (by omega)] at hj1
        exact absurd hj1 (by decide)
      have hklt : k < (optScanOf st).recs.length := by
        by_contra hge
        rw [List.getD_eq_default _ _ (by omega)] at hk1
        exact absurd hk1 (by decide)
      have hjr : (optScanOf st).cspIndex = some j := by
        by_contra hne
        exact absurd hj1 (hinv.cspUnique j hjlt hne)
      have hkr : (optScanOf st).cspIndex = some k := by
        by_contra hne
        exact absurd hk1 (hinv.cspUnique k hklt hne)
      exact Option.some.inj (hjr.symm.trans hkr)

theorem at_most_one_csp_and_redirect_without_error_flavor_witness :
    (((netOptionsInit (analyze oracleUnit {} (s2c "a$csp=x,csp=y"))).2.getD 0
        dRec).desc &&& 0xFF = OPTTokenCsp) ∧
    (0 : Nat) = 0 :=
  ⟨by decide,
   (at_most_one_csp_and_redirect_without_error_flavor
     (analyze oracleUnit {} (s2c "a$csp=x,csp=y"))).2.2 0 0
     (by decide) (by decide)⟩

/-- C3 counterexample: in `a$csp=x,csp=y` the second `csp` occurrence is
    reported as `OPTTokenInvalid` (uniqueness is enforced), but the Error
    flavor is NOT set: `hasError()` still returns false after the whole
    analysis and option iteration. -/
theorem second_csp_reported_invalid_but_hasError_false :
    ((netOptionsList (analyze oracleUnit {} (s2c "a$csp=x,csp=y"))).getD 0
      (0, false, none)).1 = OPTTokenCsp ∧
    ((netOptionsList (analyze oracleUnit {} (s2c "a$csp=x,csp=y"))).getD 1
      (0, false, none)).1 = OPTTokenInvalid ∧
    hasError (netOptionsInit (analyze oracleUnit {} (s2c "a$csp=x,csp=y"))).1
      = false := by
  refine ⟨by decide, by decide, by decide⟩

theorem hasBitsB_pow (x k : Nat) : hasBitsB x (1 <<< k) = x.testBit k := by
  unfold hasBitsB
  rw [Nat.shiftLeft_eq, one_mul, Nat.and_two_pow]
  cases h : x.testBit k <;> simp [h, (Nat.two_pow_pos k).ne']

theorem netRegex_or (x m : Nat) (h : m.testBit 1 = false) :
    hasBitsB (x ||| m) BITFlavorNetRegex = hasBitsB x BITFlavorNetRegex := by
  rw [show BITFlavorNetRegex = 1 <<< 1 from rfl, hasBitsB_pow, hasBitsB_pow,
      Nat.testBit_or, h, Bool.or_false]

theorem netRegex_or_self (x : Nat) :
    hasBitsB (x ||| BITFlavorNetRegex) BITFlavorNetRegex = true := by
  rw [show BITFlavorNetRegex = 1 <<< 1 from rfl, hasBitsB_pow, Nat.testBit_or]
  have h2 : (1 <<< 1 : Nat).testBit 1 = true := by decide
  rw [h2, Bool.or_true]

theorem netRegex_and (x m : Nat) (h : m.testBit 1 = true) :
    hasBitsB (x &&& m) BITFlavorNetRegex = hasBitsB x BITFlavorNetRegex := by
  rw [show BITFlavorNetRegex = 1 <<< 1 from rfl, hasBitsB_pow, hasBitsB_pow,
      Nat.testBit_and, h, Bool.and_true]

theorem netRegex_or_exception (x : Nat) :
    hasBitsB (x ||| BITFlavorException) BITFlavorNetRegex
      = hasBitsB x BITFlavorNetRegex := netRegex_or x _ (by decide)

theorem netRegex_or_error (x : Nat) :
    hasBitsB (x ||| BITFlavorError) BITFlavorNetRegex
      = hasBitsB x BITFlavorNetRegex := netRegex_or x _ (by decide)

theorem netRegex_or_ignore (x : Nat) :
    hasBitsB (x ||| BITFlavorIgnore) BITFlavorNetRegex
      = hasBitsB x BITFlavorNetRegex := netRegex_or x _ (by decide)

theorem netRegex_or_leftURL (x : Nat) :
    hasBitsB (x ||| BITFlavorNetLeftURLAnchor) BITFlavorNetRegex
      = hasBitsB x BITFlavorNetRegex := netRegex_or x _ (by decide)

theorem netRegex_or_leftHn (x : Nat) :
    hasBitsB (x ||| BITFlavorNetLeftHnAnchor) BITFlavorNetRegex
      = hasBitsB x BITFlavorNetRegex := netRegex_or x _ (by decide)

theorem netRegex_or_rightURL (x : Nat) :
    hasBitsB (x ||| BITFlavorNetRightURLAnchor) BITFlavorNetRegex
      = hasBitsB x BITFlavorNetRegex := netRegex_or x _ (by decide)

theorem netRegex_or_rightHn (x : Nat) :
    hasBitsB (x ||| BITFlavorNetRightHnAnchor) BITFlavorNetRegex
      = hasBitsB x BITFlavorNetRegex := netRegex_or x _ (by decide)

theorem netRegex_clear_left (x : Nat) :
    hasBitsB (x &&& (BITAll ^^^ BITFlavorNetLeftAnchor)) BITFlavorNetRegex
      = hasBitsB x BITFlavorNetRegex := netRegex_and x _ (by decide)

theorem netRegex_clear_right (x : Nat) :
    hasBitsB (x &&& (BITAll ^^^ BITFlavorNetRightAnchor)) BITFlavorNetRegex
      = hasBitsB x BITFlavorNetRegex := netRegex_and x _ (by decide)

theorem addFlavor_flavorBits (st : PState) (m : Nat) :
    (addFlavor st m).flavorBits = st.flavorBits ||| m := rfl

theorem clearFlavor_flavorBits (st : PState) (m : Nat) :
    (clearFlavor st m).flavorBits = st.flavorBits &&& (BITAll ^^^ m) := rfl

theorem splitSlot_flavorBits (st : PState) (slot l : Nat) :
    (splitSlot st slot l).flavorBits = st.flavorBits := rfl

theorem getNetPattern_fst_flavorBits (st : PState) :
    (getNetPattern st).1.flavorBits = st.flavorBits := by
  unfold getNetPattern
  repeat' split
  all_goals rfl

theorem netExceptionStage_netRegex (st : PState) :
    hasBitsB (netExceptionStage st).1.flavorBits BITFlavorNetRegex
      = hasBitsB st.flavorBits BITFlavorNetRegex := by
  unfold netExceptionStage
  repeat' (first | intro _ | split |
    simp [apply_ite (fun st : PState => st.flavorBits),
      apply_ite (fun p : PState × Nat => p.1.flavorBits),
      apply_ite (fun x : Nat => hasBitsB x BITFlavorNetRegex),
      addFlavor_flavorBits, splitSlot_flavorBits, netRegex_or_exception])

theorem netOptionsStage_netRegex (st : PState) (islice : Nat) :
    hasBitsB (netOptionsStage st islice).flavorBits BITFlavorNetRegex
      = hasBitsB st.flavorBits BITFlavorNetRegex := by
  unfold netOptionsStage
  repeat' (first | intro _ | split |
    simp [apply_ite (fun st : PState => st.flavorBits),
      apply_ite (fun p : PState × Nat => p.1.flavorBits),
      apply_ite (fun x : Nat => hasBitsB x BITFlavorNetRegex),
      addFlavor_flavorBits, splitSlot_flavorBits, netRegex_or_error])

theorem netLeftAnchorStage_netRegex (st : PState) :
    hasBitsB (netLeftAnchorStage st).flavorBits BITFlavorNetRegex
      = hasBitsB st.flavorBits BITFlavorNetRegex := by
  unfold netLeftAnchorStage
  repeat' (first | intro _ | split |
    simp [apply_ite (fun st : PState => st.flavorBits),
      apply_ite (fun p : PState × Nat => p.1.flavorBits),
      apply_ite (fun x : Nat => hasBitsB x BITFlavorNetRegex),
      addFlavor_flavorBits, splitSlot_flavorBits,
      netRegex_or_leftURL, netRegex_or_leftHn])

theorem netRightAnchorStage_netRegex (st : PState) :
    hasBitsB (netRightAnchorStage st).flavorBits BITFlavorNetRegex
      = hasBitsB st.flavorBits BITFlavorNetRegex := by
  unfold netRightAnchorStage
  repeat' (first | intro _ | split |
    simp [apply_ite (fun st : PState => st.flavorBits),
      apply_ite (fun p : PState × Nat => p.1.flavorBits),
      apply_ite (fun x : Nat => hasBitsB x BITFlavorNetRegex),
      addFlavor_flavorBits, splitSlot_flavorBits,
      netRegex_or_rightURL, netRegex_or_rightHn])

theorem netSpaceStage_netRegex (o : Oracles) (st : PState) :
    hasBitsB (netSpaceStage o st).flavorBits BITFlavorNetRegex
      = hasBitsB st.flavorBits BITFlavorNetRegex := by
  unfold netSpaceStage
  repeat' (first | intro _ | split |
    simp [apply_ite (fun st : PState => st.flavorBits),
      apply_ite (fun p : PState × Nat => p.1.flavorBits),
      apply_ite (fun p : PState × List Nat => p.1.flavorBits),
      apply_ite (fun x : Nat => hasBitsB x BITFlavorNetRegex),
      addFlavor_flavorBits, getNetPattern_fst_flavorBits, netRegex_or_ignore])

theorem netWildcardStage_netRegex (st : PState) :
    hasBitsB (netWildcardStage st).flavorBits BITFlavorNetRegex
      = hasBitsB st.flavorBits BITFlavorNetRegex := by
  unfold netWildcardStage
  repeat' (first | intro _ | split |
    simp [apply_ite (fun st : PState => st.flavorBits),
      apply_ite (fun p : PState × Nat => p.1.flavorBits),
      apply_ite (fun x : Nat => hasBitsB x BITFlavorNetRegex),
      clearFlavor_flavorBits, netRegex_clear_left, netRegex_clear_right])

/-- Stage observation: the state and pattern-start slot after the exception
    stage and the span assumptions (source lines 340-366). -/
def netAssume (st : PState) : PState × Nat :=
  let sti := netExceptionStage st
  let st := sti.1
  let islice := sti.2
  let st := { st with
    optionsAnchorSpan := { st.optionsAnchorSpan with i := st.commentSpan.i }
    optionsSpan := { st.optionsSpan with i := st.commentSpan.i } }
  let st := { st with patternSpan := ⟨islice, st.optionsAnchorSpan.i - islice⟩ }
  (st, islice)

/-- `patternStartIsRegex` (source lines 368-370). -/
def netPSR (st : PState) : Bool :=
  let sti := netAssume st
  decide (sti.2 < sti.1.optionsAnchorSpan.i) && hasBitsB (sliceAt sti.1 sti.2).bits BITSlash

/-- The initial `patternIsRegex` decision, taken on the whole presumed
    pattern before any options are split off (source lines 371-378). -/
def netPIR0 (st : PState) : Bool := netPSR st && regexCheck (netAssume st).1

/-- The state after the conditional options split (source lines 380-421). -/
def netPostOpt (st : PState) : PState :=
  let sti := netAssume st
  if netPIR0 st then sti.1 else netOptionsStage sti.1 sti.2

/-- The final `patternIsRegex` decision, re-taken on the pattern span left
    after the options were split off (source lines 413-419). -/
def netPIR (st : PState) : Bool := netPSR st && regexCheck (netPostOpt st)

theorem analyzeNet_decomp (o : Oracles) (st : PState) :
    analyzeNet o st =
      (let st2 := netPostOpt st
       let pir := netPIR st
       let st3 := if pir then addFlavor st2 BITFlavorNetRegex else st2
       let st4 := { st3 with
         patternLeftAnchorSpan := { st3.patternLeftAnchorSpan with i := st3.patternSpan.i }
         patternRightAnchorSpan := { st3.patternRightAnchorSpan with i := st3.optionsAnchorSpan.i } }
       let st5 := if pir then st4 else netRightAnchorStage (netLeftAnchorStage st4)
       { netWildcardStage (netSpaceStage o st5) with category := CATStaticNetFilter }) := rfl

theorem netPostOpt_netRegex (st : PState) :
    hasBitsB (netPostOpt st).flavorBits BITFlavorNetRegex
      = hasBitsB st.flavorBits BITFlavorNetRegex := by
  unfold netPostOpt netAssume
  split <;>
    simp [netOptionsStage_netRegex, netExceptionStage_netRegex]

theorem analyzeNet_netRegex (o : Oracles) (st : PState) :
    hasBitsB (analyzeNet o st).flavorBits BITFlavorNetRegex
      = (netPIR st || hasBitsB st.flavorBits BITFlavorNetRegex) := by
  rw [analyzeNet_decomp]
  cases hpir : netPIR st <;>
    simp [netWildcardStage_netRegex, netSpaceStage_netRegex,
      netRightAnchorStage_netRegex, netLeftAnchorStage_netRegex,
      netPostOpt_netRegex, netRegex_or_self, addFlavor_flavorBits]

theorem spanShift_l (sp : Span) (slot : Nat) : (spanShift sp slot).l = sp.l := by
  unfold spanShift
  split <;> rfl

theorem netExceptionStage_optionsSpan_l (st : PState) :
    (netExceptionStage st).1.optionsSpan.l = st.optionsSpan.l := by
  unfold netExceptionStage
  repeat' (first | intro _ | split |
    simp [apply_ite (fun st : PState => st.optionsSpan.l),
      apply_ite (fun p : PState × Nat => p.1.optionsSpan.l),
      addFlavor, splitSlot, spanShift_l])

theorem getNetPattern_fst_optionsSpan (st : PState) :
    (getNetPattern st).1.optionsSpan = st.optionsSpan := by
  unfold getNetPattern
  repeat' split
  all_goals rfl

theorem netSpaceStage_optionsSpan (o : Oracles) (st : PState) :
    (netSpaceStage o st).optionsSpan = st.optionsSpan := by
  unfold netSpaceStage
  repeat' (first | intro _ | split |
    simp [apply_ite (fun st : PState => st.optionsSpan),
      apply_ite (fun p : PState × Nat => p.1.optionsSpan),
      apply_ite (fun p : PState × List Nat => p.1.optionsSpan),
      addFlavor, markSlices, getNetPattern_fst_optionsSpan])

theorem netWildcardStage_optionsSpan (st : PState) :
    (netWildcardStage st).optionsSpan = st.optionsSpan := by
  unfold netWildcardStage
  repeat' (first | intro _ | split |
    simp [apply_ite (fun st : PState => st.optionsSpan),
      apply_ite (fun p : PState × Nat => p.1.optionsSpan),
      orBitsAt, clearFlavor])

theorem analyzeNet_optionsSpan_of_pir0 (o : Oracles) (st : PState)
    (h : netPIR0 st = true) :
    (analyzeNet o st).optionsSpan.l = st.optionsSpan.l := by
  have hpir : netPIR st = true := by
    unfold netPIR netPostOpt
    rw [h]
    simp only [if_true]
    exact h
  rw [analyzeNet_decomp]
  dsimp only
  rw [hpir]
  simp only [if_true, netWildcardStage_optionsSpan, netSpaceStage_optionsSpan]
  show (netPostOpt st).optionsSpan.l = st.optionsSpan.l
  unfold netPostOpt netAssume
  rw [h]
  simp [netExceptionStage_optionsSpan_l]

/-- C7 (amended).  The NetRegex flavor records the regex decision taken at
    the options stage, not a property of the final pattern span: it is set
    iff `patternStartIsRegex` (the first slice of the presumed pattern,
    right after the exception prefix, carries `SLASH`) and `regexCheck`
    holds of the pattern span left once the options were split off (single
    slice longer than 2 bytes, or last slice carrying `SLASH`) — or the bit
    was already set on entry.  Option parsing is disabled only when the
    whole presumed pattern is already a regex (`netPIR0`); a pattern that
    becomes a regex only after the `$options` suffix is removed keeps its
    nonempty options span. -/
theorem netRegex_set_at_options_stage_and_initial_regex_disables_options
    (o : Oracles) (st : PState) :
    (hasBitsB (analyzeNet o st).flavorBits BITFlavorNetRegex
       = (netPIR st || hasBitsB st.flavorBits BITFlavorNetRegex)) ∧
    (netPIR0 st = true → (analyzeNet o st).optionsSpan.l = st.optionsSpan.l) :=
  ⟨analyzeNet_netRegex o st, analyzeNet_optionsSpan_of_pir0 o st⟩

theorem netRegex_set_at_options_stage_witness :
    (netPIR0 { sliceFn {} (s2c "/a/") with commentSpan := ⟨3, 0⟩ } = true) ∧
    (analyzeNet oracleUnit
        { sliceFn {} (s2c "/a/") with commentSpan := ⟨3, 0⟩ }).optionsSpan.l
      = ({ sliceFn {} (s2c "/a/") with commentSpan := ⟨3, 0⟩ } : PState).optionsSpan.l :=
  ⟨by decide,
   (netRegex_set_at_options_stage_and_initial_regex_disables_options
      oracleUnit { sliceFn {} (s2c "/a/") with commentSpan := ⟨3, 0⟩ }).2
     (by decide)⟩

/-- C7 counterexample: `/a/$image` is analyzed with the NetRegex flavor set
    (the pattern `/a/` left after the options split is a regex), yet its
    options span is NOT empty — the `image` option was parsed.  This
    refutes the claim that a regex pattern implies option parsing was
    disabled. -/
theorem regex_flavor_with_nonempty_options :
    hasBitsB (analyze oracleUnit {} (s2c "/a/$image")).flavorBits
      BITFlavorNetRegex = true ∧
    (analyze oracleUnit {} (s2c "/a/$image")).optionsSpan.l = 1 := by
  refine ⟨by decide, by decide⟩

/-! ### C8: the class-purity invariant of the written slice region

Every slice written by the analysis covers a run of bytes of one single
character class; the only bits ever OR'd on top of the class bits are the
overlay bits `BITIgnore` and `BITError` (`markSlices`/`|=` sites in the
analysis pipeline). -/

/-- Overlay bits OR'd onto written slices during analysis. -/
def OVL : Nat := BITIgnore ||| BITError

/-- Mask selecting the class part of a slice's bits. -/
def CLASSMASK : Nat := BITAll ^^^ OVL

/-- A slice is class-pure for `raw`: the class part of its bits is the
    class of every byte it covers, and a zero-length slice carries no
    class bits. -/
def covOK (raw : List Nat) (s : Slice) : Prop :=
  (∀ j, j < s.len → classBits (raw.getD (s.origin + j) 0) = s.bits &&& CLASSMASK) ∧
  (s.len = 0 → s.bits &&& CLASSMASK = 0)

/-- Buffer-level invariant: write pointer in bounds, every written slice
    class-pure, written region contiguous. -/
structure BufInv (raw : List Nat) (wptr : Nat) (buf : List Slice) : Prop where
  wlen : wptr ≤ buf.length
  pure : ∀ k, k < wptr → covOK raw (buf.getD k dSlice)
  cont : ∀ k, k + 1 < wptr →
    (buf.getD (k + 1) dSlice).origin =
      (buf.getD k dSlice).origin + (buf.getD k dSlice).len

def SliceInv (st : PState) : Prop :=
  BufInv st.raw st.sliceWritePtr st.slices

theorem and_or_mask (a b m : Nat) : (a ||| b) &&& m = (a &&& m) ||| (b &&& m) :=
  Nat.and_distrib_right a b m

theorem classBits_mask (c : Nat) : classBits c &&& CLASSMASK = classBits c := by
  by_cases hc : c < 0x80
  · have hd : ∀ c' : Fin 128, charDescBits c'.val &&& CLASSMASK = charDescBits c'.val := by
      decide
    unfold classBits
    rw [if_pos hc]
    exact hd ⟨c, hc⟩
  · unfold classBits
    rw [if_neg hc]
    decide

theorem classBits_asterisk (c : Nat) (h : classBits c &&& BITAsterisk ≠ 0) :
    classBits c = BITAsterisk := by
  by_cases hc : c < 0x80
  · have hd : ∀ c' : Fin 128, charDescBits c'.val &&& BITAsterisk ≠ 0 →
        charDescBits c'.val = BITAsterisk := by decide
    unfold classBits at h ⊢
    rw [if_pos hc] at h ⊢
    exact hd ⟨c, hc⟩ h
  · unfold classBits at h
    rw [if_neg hc] at h
    exact absurd (by decide) h

theorem classBits_noAst_of (c X : Nat) (hdisj : BITAsterisk &&& X = 0)
    (h : classBits c &&& X ≠ 0) : classBits c &&& BITAsterisk = 0 := by
  by_contra hne
  rw [classBits_asterisk c hne] at h
  exact h hdisj

theorem and_mask_assoc (b X : Nat) (hXm : X &&& CLASSMASK = X) :
    (b &&& CLASSMASK) &&& X = b &&& X := by
  rw [Nat.and_assoc, Nat.and_comm CLASSMASK X, hXm]

theorem and_zero_of_mask (m X : Nat) (hm : m &&& CLASSMASK = 0)
    (hXm : X &&& CLASSMASK = X) : m &&& X = 0 := by
  conv_lhs => rw [← hXm]
  rw [Nat.and_comm X CLASSMASK, ← Nat.and_assoc, hm, Nat.zero_and]

/-- A class-pure slice whose bits meet a class `X` disjoint from ASTERISK
    carries no ASTERISK bit. -/
theorem covOK_noAst (raw : List Nat) (s : Slice) (hc : covOK raw s) (X : Nat)
    (hXm : X &&& CLASSMASK = X) (hdisj : BITAsterisk &&& X = 0)
    (hb : s.bits &&& X ≠ 0) : s.bits &&& BITAsterisk = 0 := by
  have hAm : BITAsterisk &&& CLASSMASK = BITAsterisk := by decide
  rw [← and_mask_assoc s.bits X hXm] at hb
  rw [← and_mask_assoc s.bits BITAsterisk hAm]
  rcases Nat.eq_zero_or_pos s.len with h0 | hpos
  · rw [hc.2 h0, Nat.zero_and] at hb
    exact absurd rfl hb
  · have hbyte := hc.1 0 hpos
    rw [Nat.add_zero] at hbyte
    rw [← hbyte] at hb ⊢
    exact classBits_noAst_of _ X hdisj hb

theorem covOK_orBits (raw : List Nat) (s : Slice) (m : Nat)
    (hm : m &&& CLASSMASK = 0) (hc : covOK raw s) :
    covOK raw { s with bits := s.bits ||| m } := by
  constructor
  · intro j hj
    show classBits _ = (s.bits ||| m) &&& CLASSMASK
    rw [and_or_mask, hm, Nat.or_zero]
    exact hc.1 j hj
  · intro h0
    show (s.bits ||| m) &&& CLASSMASK = 0
    rw [and_or_mask, hm, Nat.or_zero]
    exact hc.2 h0

theorem getD_take_lt (L : List Slice) (n k : Nat) (h : k < n) :
    (L.take n).getD k dSlice = L.getD k dSlice := by
  rw [List.getD_eq_getElem?_getD, List.getD_eq_getElem?_getD, List.getElem?_take,
    if_pos h]

theorem getD_drop_add (L : List Slice) (m n : Nat) :
    (L.drop m).getD n dSlice = L.getD (m + n) dSlice := by
  rw [List.getD_eq_getElem?_getD, List.getD_eq_getElem?_getD, List.getElem?_drop]

theorem getD_mem (L : List Slice) (k : Nat) (h : k < L.length) :
    L.getD k dSlice ∈ L := by
  rw [List.getD_eq_getElem _ _ h]
  exact List.getElem_mem h

theorem contB_adj (L : List Slice) (hc : contB L = true) :
    ∀ k, k + 1 < L.length →
      (L.getD (k + 1) dSlice).origin =
        (L.getD k dSlice).origin + (L.getD k dSlice).len := by
  induction L with
  | nil => intro k hk; simp at hk
  | cons a r ih =>
    intro k hk
    cases r with
    | nil => simp at hk
    | cons b r' =>
      rw [contB_cons_cons] at hc
      obtain ⟨h1, h2⟩ := Bool.and_eq_true_iff.mp hc
      cases k with
      | zero =>
        rw [List.getD_cons_succ, List.getD_cons_zero, List.getD_cons_zero]
        exact (beq_iff_eq.mp h1).symm
      | succ k' =>
        rw [List.getD_cons_succ, List.getD_cons_succ]
        exact ih h2 k' (by simpa using hk)

/-- Piecewise description of the split buffer on the written region. -/
theorem bufSplit_getD (buf : List Slice) (wptr slot l k : Nat)
    (h1 : slot < wptr) (h2 : wptr ≤ buf.length) (hk : k ≤ wptr) :
    (bufSplit buf wptr slot l).getD k dSlice =
      if k < slot then buf.getD k dSlice
      else if k = slot then
        ⟨(buf.getD slot dSlice).bits, (buf.getD slot dSlice).origin, l⟩
      else if k = slot + 1 then
        ⟨(buf.getD slot dSlice).bits, (buf.getD slot dSlice).origin + l,
          (buf.getD slot dSlice).len - l⟩
      else buf.getD (k - 1) dSlice := by
  have htake := bufSplit_take buf wptr slot l h1 h2
  have hx : (bufSplit buf wptr slot l).getD k dSlice
      = ((bufSplit buf wptr slot l).take (wptr + 1)).getD k dSlice :=
    (getD_take_lt _ _ _ (by omega)).symm
  rw [hx, htake]
  have hA : (buf.take slot).length = slot := List.length_take_of_le (by omega)
  by_cases hk1 : k < slot
  · rw [if_pos hk1, List.getD_append _ _ _ _ (by omega), getD_take_lt _ _ _ hk1]
  · rw [if_neg hk1, List.getD_append_right _ _ _ _ (by omega), hA]
    by_cases hk2 : k = slot
    · rw [if_pos hk2, hk2, Nat.sub_self, List.getD_cons_zero]
    · rw [if_neg hk2]
      by_cases hk3 : k = slot + 1
      · rw [if_pos hk3, hk3, show slot + 1 - slot = 1 from by omega,
          List.getD_cons_succ, List.getD_cons_zero]
      · rw [if_neg hk3]
        have hge : slot + 2 ≤ k := by omega
        rw [show k - slot = (k - slot - 2) + 1 + 1 from by omega,
          List.getD_cons_succ, List.getD_cons_succ,
          getD_take_lt _ _ _ (by omega), getD_drop_add]
        congr 1
        omega

theorem bufSplit_BufInv (raw : List Nat) (buf : List Slice) (wptr slot l : Nat)
    (inv : BufInv raw wptr buf) (hs : slot < wptr) (hl1 : 1 ≤ l)
    (hl2 : l < (buf.getD slot dSlice).len) :
    BufInv raw (wptr + 1) (bufSplit buf wptr slot l) := by
  have hw := inv.wlen
  refine ⟨?_, ?_, ?_⟩
  · have ht := congrArg List.length (bufSplit_take buf wptr slot l hs hw)
    rw [List.length_take] at ht
    have hR : (buf.take slot ++
        Slice.mk (buf.getD slot dSlice).bits (buf.getD slot dSlice).origin l ::
        Slice.mk (buf.getD slot dSlice).bits ((buf.getD slot dSlice).origin + l)
          ((buf.getD slot dSlice).len - l) ::
        (buf.drop (slot + 1)).take (wptr - slot - 1)).length = wptr + 1 := by
      simp only [List.length_append, List.length_cons, List.length_take,
        List.length_drop]
      omega
    rw [hR] at ht
    omega
  · intro k hk
    rw [bufSplit_getD buf wptr slot l k hs hw (by omega)]
    by_cases hk1 : k < slot
    · rw [if_pos hk1]; exact inv.pure k (by omega)
    · rw [if_neg hk1]
      by_cases hk2 : k = slot
      · rw [if_pos hk2]
        have hc := inv.pure slot hs
        refine ⟨?_, ?_⟩
        · intro j hj
          dsimp only at hj ⊢
          exact hc.1 j (by omega)
        · intro h0
          dsimp only at h0
          omega
      · rw [if_neg hk2]
        by_cases hk3 : k = slot + 1
        · rw [if_pos hk3]
          have hc := inv.pure slot hs
          refine ⟨?_, ?_⟩
          · intro j hj
            dsimp only at hj ⊢
            have := hc.1 (l + j) (by omega)
            rw [← Nat.add_assoc] at this
            exact this
          · intro h0
            dsimp only at h0
            omega
        · rw [if_neg hk3]
          exact inv.pure (k - 1) (by omega)
  · intro k hk
    rw [bufSplit_getD buf wptr slot l k hs hw (by omega),
      bufSplit_getD buf wptr slot l (k + 1) hs hw (by omega)]
    by_cases c1 : k + 1 < slot
    · rw [if_pos c1, if_pos (show k < slot from by omega)]
      exact inv.cont k (by omega)
    · rw [if_neg c1]
      by_cases c2 : k + 1 = slot
      · rw [if_pos c2, if_pos (show k < slot from by omega)]
        dsimp only
        have := inv.cont k (by omega)
        rw [c2] at this
        exact this
      · rw [if_neg c2]
        by_cases c3 : k = slot
        · rw [if_pos (show k + 1 = slot + 1 from by omega),
            if_neg (show ¬ k < slot from by omega), if_pos c3]
        · rw [if_neg (show ¬ (k + 1 = slot + 1) from by omega)]
          by_cases c4 : k = slot + 1
          · rw [if_neg (show ¬ k < slot from by omega),
              if_neg c3, if_pos c4]
            dsimp only
            rw [show k + 1 - 1 = slot + 1 from by omega]
            have := inv.cont slot (by omega)
            rw [this]
            omega
          · rw [if_neg (show ¬ k < slot from by omega),
              if_neg c3, if_neg c4,
              show k + 1 - 1 = (k - 1) + 1 from by omega]
            exact inv.cont (k - 1) (by omega)

theorem orBitsSet_BufInv (raw : List Nat) (wptr m j : Nat)
    (hm : m &&& CLASSMASK = 0) (buf : List Slice) (inv : BufInv raw wptr buf) :
    BufInv raw wptr
      (buf.set j { buf.getD j dSlice with bits := (buf.getD j dSlice).bits ||| m }) := by
  have hset : ∀ k, (buf.set j { buf.getD j dSlice with
        bits := (buf.getD j dSlice).bits ||| m }).getD k dSlice =
      if j = k ∧ j < buf.length
      then { buf.getD j dSlice with bits := (buf.getD j dSlice).bits ||| m }
      else buf.getD k dSlice := by
    intro k
    by_cases he : j = k
    · subst he
      by_cases hlt : j < buf.length
      · rw [if_pos ⟨rfl, hlt⟩, List.getD_eq_getElem?_getD,
          List.getElem?_set_self hlt, Option.getD_some]
      · rw [if_neg (by tauto), List.set_eq_of_length_le (by omega)]
    · rw [if_neg (by tauto), List.getD_eq_getElem?_getD, List.getElem?_set_ne he,
        ← List.getD_eq_getElem?_getD]
  refine ⟨?_, ?_, ?_⟩
  · rw [List.length_set]; exact inv.wlen
  · intro k hk
    rw [hset k]
    split
    · next hcond =>
      obtain ⟨he, _⟩ := hcond
      subst he
      exact covOK_orBits raw _ m hm (inv.pure j hk)
    · exact inv.pure k hk
  · intro k hk
    rw [hset k, hset (k + 1)]
    have hcont := inv.cont k hk
    split <;> split <;> simp_all

theorem foldl_orBits_BufInv (raw : List Nat) (wptr m : Nat)
    (hm : m &&& CLASSMASK = 0) :
    ∀ (js : List Nat) (buf : List Slice), BufInv raw wptr buf →
      BufInv raw wptr
        (js.foldl (fun b j =>
          let s := b.getD j dSlice
          b.set j { s with bits := s.bits ||| m }) buf) := by
  intro js
  induction js with
  | nil => intro buf inv; exact inv
  | cons j js ih =>
    intro buf inv
    exact ih _ (orBitsSet_BufInv raw wptr m j hm buf inv)

theorem splitSlot_SliceInv (st : PState) (slot l : Nat) (inv : SliceInv st)
    (hs : slot < st.sliceWritePtr) (hl1 : 1 ≤ l)
    (hl2 : l < (sliceAt st slot).len) :
    SliceInv (splitSlot st slot l) :=
  bufSplit_BufInv st.raw st.slices st.sliceWritePtr slot l inv hs hl1 hl2

theorem orBitsAt_SliceInv (st : PState) (idx m : Nat) (inv : SliceInv st)
    (hm : m &&& CLASSMASK = 0) : SliceInv (orBitsAt st idx m) :=
  orBitsSet_BufInv st.raw st.sliceWritePtr m idx hm st.slices inv

theorem markSlices_SliceInv (st : PState) (beg endI m : Nat) (inv : SliceInv st)
    (hm : m &&& CLASSMASK = 0) : SliceInv (markSlices st beg endI m) :=
  foldl_orBits_BufInv st.raw st.sliceWritePtr m hm _ st.slices inv

/-- The scanning loop produces class-pure slices of positive length. -/
theorem sliceScan_covOK (raw : List Nat) :
    ∀ (cs : List Nat) (b o l : Nat),
      b &&& CLASSMASK = b →
      (∀ j, j < l → classBits (raw.getD (o + j) 0) = b) →
      (∀ j, j < cs.length → raw.getD (o + l + j) 0 = cs.getD j 0) →
      1 ≤ l →
      ∀ s ∈ sliceScan b o l cs, covOK raw s ∧ 1 ≤ s.len := by
  intro cs
  induction cs with
  | nil =>
    intro b o l hbm hby _ hl s hmem
    simp only [sliceScan, List.mem_singleton] at hmem
    subst hmem
    refine ⟨⟨?_, ?_⟩, hl⟩
    · intro j hj
      show classBits _ = b &&& CLASSMASK
      rw [hbm]
      exact hby j hj
    · intro h0
      dsimp only at h0
      exact absurd h0 (by omega)
  | cons c cs ih =>
    intro b o l hbm hby hcs hl s hmem
    simp only [sliceScan] at hmem
    split at hmem
    · next heq =>
      refine ih b o (l + 1) hbm ?_ ?_ (by omega) s hmem
      · intro j hj
        rcases Nat.lt_or_ge j l with hjl | hjl
        · exact hby j hjl
        · have hj' : j = l := by omega
          subst hj'
          have := hcs 0 (by simp)
          rw [Nat.add_zero] at this
          rw [this]
          exact heq
      · intro j hj
        have := hcs (j + 1) (by simp; omega)
        rw [show o + l + (j + 1) = o + (l + 1) + j from by omega] at this
        rw [this, List.getD_cons_succ]
    · next hne =>
      rcases List.mem_cons.mp hmem with hhd | htl
      · subst hhd
        refine ⟨⟨?_, ?_⟩, hl⟩
        · intro j hj
          show classBits _ = b &&& CLASSMASK
          rw [hbm]
          exact hby j hj
        · intro h0
          dsimp only at h0
          exact absurd h0 (by omega)
      · refine ih (classBits c) (o + l) 1 (classBits_mask c) ?_ ?_ (by omega) s htl
        · intro j hj
          have hj0 : j = 0 := by omega
          subst hj0
          have := hcs 0 (by simp)
          rw [Nat.add_zero] at this ⊢
          rw [this, List.getD_cons_zero]
        · intro j hj
          have := hcs (j + 1) (by simp; omega)
          rw [show o + l + (j + 1) = o + l + 1 + j from by omega] at this
          rw [this, List.getD_cons_succ]

/-- Every slice in `sliceList raw` is class-pure for `raw`. -/
theorem sliceList_covOK (raw : List Nat) :
    ∀ s ∈ sliceList raw, covOK raw s := by
  intro s hmem
  cases raw with
  | nil => simp [sliceList] at hmem
  | cons c cs =>
    simp only [sliceList, List.mem_append, List.mem_singleton] at hmem
    rcases hmem with hscan | hsent
    · refine (sliceScan_covOK (c :: cs) cs (classBits c) 0 1 (classBits_mask c)
        ?_ ?_ (by omega) s hscan).1
      · intro j hj
        have hj0 : j = 0 := by omega
        subst hj0
        rfl
      · intro j hj
        show (c :: cs).getD (0 + 1 + j) 0 = cs.getD j 0
        rw [show 0 + 1 + j = j + 1 from by omega, List.getD_cons_succ]
    · subst hsent
      refine ⟨fun j hj => by simp at hj, fun _ => ?_⟩
      show (0 : Nat) &&& CLASSMASK = 0
      exact Nat.zero_and _

theorem sliceFn_SliceInv (st0 : PState) (raw : List Nat) :
    SliceInv (sliceFn st0 raw) := by
  by_cases h : raw.length = 0
  · refine ⟨?_, ?_, ?_⟩ <;> simp [sliceFn, h, reset]
  · have hsl := sliceFn_slices st0 raw h
    have hwp := sliceFn_wptr st0 raw h
    have hraw : (sliceFn st0 raw).raw = raw := by
      simp [sliceFn, h, reset]
    refine ⟨?_, ?_, ?_⟩
    · rw [hsl, hwp]
      simp
    · intro k hk
      rw [hwp] at hk
      have hg : (sliceFn st0 raw).slices.getD k dSlice
          = (sliceList raw).getD k dSlice := by
        rw [hsl]
        exact List.getD_append _ _ _ _ hk
      show covOK (sliceFn st0 raw).raw ((sliceFn st0 raw).slices.getD k dSlice)
      rw [hg, hraw]
      exact sliceList_covOK raw _ (getD_mem _ k hk)
    · intro k hk
      rw [hwp] at hk
      have hg1 : (sliceFn st0 raw).slices.getD k dSlice
          = (sliceList raw).getD k dSlice := by
        rw [hsl]
        exact List.getD_append _ _ _ _ (by omega)
      have hg2 : (sliceFn st0 raw).slices.getD (k + 1) dSlice
          = (sliceList raw).getD (k + 1) dSlice := by
        rw [hsl]
        exact List.getD_append _ _ _ _ hk
      rw [hg1, hg2]
      exact contB_adj (sliceList raw) (sliceList_contB raw) k hk

/-- The part of the predecessor condition that makes `sl === 0` and
    `sl === patternSpan.i` agree on reachable states: the pattern start is
    at slot 0, or the slice before it carries no ASTERISK, or the slice at
    it is not a token slice. -/
def predAt (st : PState) (p : Nat) : Prop :=
  p = 0 ∨ (sliceAt st (p - 1)).bits &&& BITAsterisk = 0 ∨
  (sliceAt st p).bits &&& BITPatternToken = 0

/-- Agreement on the ASTERISK and PATTERN_TOKEN bits. -/
def bitsAgree (a b : Nat) : Prop :=
  a &&& BITAsterisk = b &&& BITAsterisk ∧
  a &&& BITPatternToken = b &&& BITPatternToken

theorem bitsAgree_refl (a : Nat) : bitsAgree a a := ⟨rfl, rfl⟩

theorem bitsAgree_or_ovl (a m : Nat) (h1 : m &&& BITAsterisk = 0)
    (h2 : m &&& BITPatternToken = 0) : bitsAgree (a ||| m) a :=
  ⟨by rw [and_or_mask, h1, Nat.or_zero],
   by rw [and_or_mask, h2, Nat.or_zero]⟩

theorem predAt_transfer (st r : PState) (p : Nat)
    (h : ∀ k, k ≤ p → bitsAgree (sliceAt r k).bits (sliceAt st k).bits)
    (hp : predAt st p) : predAt r p := by
  rcases hp with h0 | ha | ht
  · exact Or.inl h0
  · exact Or.inr (Or.inl (by rw [(h (p - 1) (by omega)).1, ha]))
  · exact Or.inr (Or.inr (by rw [(h p (Nat.le_refl p)).2, ht]))

/-- One `|=`-style buffer write: origins and lengths are untouched, the
    bits at any slot either stay or get `m` OR'd on. -/
theorem setOr_getD (buf : List Slice) (j m k : Nat) :
    ((buf.set j { buf.getD j dSlice with
        bits := (buf.getD j dSlice).bits ||| m }).getD k dSlice).origin
      = (buf.getD k dSlice).origin ∧
    ((buf.set j { buf.getD j dSlice with
        bits := (buf.getD j dSlice).bits ||| m }).getD k dSlice).len
      = (buf.getD k dSlice).len ∧
    (((buf.set j { buf.getD j dSlice with
        bits := (buf.getD j dSlice).bits ||| m }).getD k dSlice).bits
        = (buf.getD k dSlice).bits ∨
     ((buf.set j { buf.getD j dSlice with
        bits := (buf.getD j dSlice).bits ||| m }).getD k dSlice).bits
        = (buf.getD k dSlice).bits ||| m) := by
  by_cases he : j = k
  · subst he
    by_cases hlt : j < buf.length
    · rw [List.getD_eq_getElem?_getD, List.getElem?_set_self hlt, Option.getD_some]
      exact ⟨rfl, rfl, Or.inr rfl⟩
    · rw [List.set_eq_of_length_le (by omega)]
      exact ⟨rfl, rfl, Or.inl rfl⟩
  · rw [List.getD_eq_getElem?_getD, List.getElem?_set_ne he,
      ← List.getD_eq_getElem?_getD]
    exact ⟨rfl, rfl, Or.inl rfl⟩

theorem foldl_orBits_getD (m : Nat) (js : List Nat) :
    ∀ (buf : List Slice) (k : Nat),
      ((js.foldl (fun b j =>
          let s := b.getD j dSlice
          b.set j { s with bits := s.bits ||| m }) buf).getD k dSlice).origin
        = (buf.getD k dSlice).origin ∧
      ((js.foldl (fun b j =>
          let s := b.getD j dSlice
          b.set j { s with bits := s.bits ||| m }) buf).getD k dSlice).len
        = (buf.getD k dSlice).len ∧
      (((js.foldl (fun b j =>
          let s := b.getD j dSlice
          b.set j { s with bits := s.bits ||| m }) buf).getD k dSlice).bits
          = (buf.getD k dSlice).bits ∨
       ((js.foldl (fun b j =>
          let s := b.getD j dSlice
          b.set j { s with bits := s.bits ||| m }) buf).getD k dSlice).bits
          = (buf.getD k dSlice).bits ||| m) := by
  induction js with
  | nil => intro buf k; exact ⟨rfl, rfl, Or.inl rfl⟩
  | cons j js ih =>
    intro buf k
    have hstep := setOr_getD buf j m k
    have hrec := ih (buf.set j { buf.getD j dSlice with
      bits := (buf.getD j dSlice).bits ||| m }) k
    refine ⟨hrec.1.trans hstep.1, hrec.2.1.trans hstep.2.1, ?_⟩
    rcases hrec.2.2 with hb | hb <;> rcases hstep.2.2 with hs | hs
    · exact Or.inl (hb.trans hs)
    · exact Or.inr (hb.trans hs)
    · exact Or.inr (hb.trans (congrArg (fun x => x ||| m) hs))
    · have hoo : ((buf.getD k dSlice).bits ||| m) ||| m
          = (buf.getD k dSlice).bits ||| m := by
        rw [Nat.or_assoc, Nat.or_self]
      exact Or.inr ((hb.trans (congrArg (fun x => x ||| m) hs)).trans hoo)

theorem markSlices_bitsAgree (st : PState) (beg endI m : Nat)
    (h1 : m &&& BITAsterisk = 0) (h2 : m &&& BITPatternToken = 0) (k : Nat) :
    bitsAgree (sliceAt (markSlices st beg endI m) k).bits (sliceAt st k).bits := by
  have h := (foldl_orBits_getD m (List.range' beg (endI - beg)) st.slices k).2.2
  have heq : (sliceAt (markSlices st beg endI m) k).bits
      = (((List.range' beg (endI - beg)).foldl (fun b j =>
          let s := b.getD j dSlice
          b.set j { s with bits := s.bits ||| m }) st.slices).getD k dSlice).bits := rfl
  rcases h with hb | hb
  · rw [heq, hb]
    exact bitsAgree_refl _
  · rw [heq, hb]
    exact bitsAgree_or_ovl _ m h1 h2

theorem orBitsAt_bitsAgree (st : PState) (idx m : Nat)
    (h1 : m &&& BITAsterisk = 0) (h2 : m &&& BITPatternToken = 0) (k : Nat) :
    bitsAgree (sliceAt (orBitsAt st idx m) k).bits (sliceAt st k).bits := by
  have h := (setOr_getD st.slices idx m k).2.2
  have heq : (sliceAt (orBitsAt st idx m) k).bits
      = ((st.slices.set idx { st.slices.getD idx dSlice with
          bits := (st.slices.getD idx dSlice).bits ||| m }).getD k dSlice).bits := rfl
  rcases h with hb | hb
  · rw [heq, hb]
    exact bitsAgree_refl _
  · rw [heq, hb]
    exact bitsAgree_or_ovl _ m h1 h2

theorem splitSlot_sliceAt_le (st : PState) (slot l k : Nat)
    (hs : slot < st.sliceWritePtr) (hw : st.sliceWritePtr ≤ st.slices.length)
    (hk : k < slot) :
    sliceAt (splitSlot st slot l) k = sliceAt st k := by
  show (bufSplit st.slices st.sliceWritePtr slot l).getD k dSlice
    = st.slices.getD k dSlice
  rw [bufSplit_getD st.slices st.sliceWritePtr slot l k hs hw (by omega),
    if_pos hk]

theorem splitSlot_sliceAt_slot (st : PState) (slot l : Nat)
    (hs : slot < st.sliceWritePtr) (hw : st.sliceWritePtr ≤ st.slices.length) :
    (sliceAt (splitSlot st slot l) slot).bits = (sliceAt st slot).bits := by
  show ((bufSplit st.slices st.sliceWritePtr slot l).getD slot dSlice).bits
    = (st.slices.getD slot dSlice).bits
  rw [bufSplit_getD st.slices st.sliceWritePtr slot l slot hs hw (by omega),
    if_neg (by omega), if_pos rfl]

theorem spaceScan_facts (st : PState) (i acc : Nat) :
    ∀ n acc, (spaceScan st i acc n).1 ≠ 0 →
      (spaceScan st i acc n).1 < n ∧
      hasBitsB (sliceAt st (i + (spaceScan st i acc n).1)).bits BITSpace = true := by
  intro n
  induction n with
  | zero => intro acc h; exact absurd rfl h
  | succ n ih =>
    intro acc h
    unfold spaceScan at h ⊢
    dsimp only at h ⊢
    by_cases hsp : hasBitsB (sliceAt st (i + n)).bits BITSpace = true
    · rw [if_pos hsp] at h ⊢
      exact ⟨by omega, hsp⟩
    · rw [if_neg hsp] at h ⊢
      have := ih _ h
      exact ⟨by omega, this.2⟩

theorem optScanLoop_some (st : PState) (islice : Nat) :
    ∀ (start acc i : Nat), (optScanLoop st islice acc start).2 = some i →
      islice ≤ i ∧ i + 1 ≤ start := by
  intro start
  induction start with
  | zero => intro acc i h; exact absurd h (by simp [optScanLoop])
  | succ n ih =>
    intro acc i h
    unfold optScanLoop at h
    split at h
    · exact absurd h (by simp)
    · next hge =>
      dsimp only at h
      by_cases hd : hasBitsB (sliceAt st n).bits BITDollar = true
      · rw [if_pos hd] at h
        simp only [Option.some.injEq] at h
        subst h
        exact ⟨by omega, by omega⟩
      · rw [if_neg hd] at h
        have := ih _ i h
        exact ⟨this.1, by omega⟩

theorem ovlI_mask : BITIgnore &&& CLASSMASK = 0 := by decide

theorem ovlE_mask : BITError &&& CLASSMASK = 0 := by decide

theorem ovlI_ast : BITIgnore &&& BITAsterisk = 0 := by decide

theorem ovlI_pt : BITIgnore &&& BITPatternToken = 0 := by decide

theorem ovlE_ast : BITError &&& BITAsterisk = 0 := by decide

theorem ovlE_pt : BITError &&& BITPatternToken = 0 := by decide

theorem netExceptionStage_facts (st : PState) (inv : SliceInv st)
    (hls : st.leftSpaceSpan.i = 0)
    (hcw : st.commentSpan.i ≤ st.sliceWritePtr) :
    SliceInv (netExceptionStage st).1 ∧
    (netExceptionStage st).1.raw = st.raw ∧
    (netExceptionStage st).1.commentSpan.i ≤ (netExceptionStage st).1.sliceWritePtr ∧
    (netExceptionStage st).2 ≤ (netExceptionStage st).1.commentSpan.i ∧
    ((netExceptionStage st).2 = 0 ∨
      (sliceAt (netExceptionStage st).1 ((netExceptionStage st).2 - 1)).bits &&&
        BITAsterisk = 0) := by
  unfold netExceptionStage
  rw [hls]
  dsimp only
  split
  · next hg =>
    have hci : 0 < st.commentSpan.i := hg.1
    have hat : (sliceAt st 0).bits &&& BITAt ≠ 0 := by
      have h2 := hg.2
      exact bne_iff_ne.mp h2
    have h0w : 0 < st.sliceWritePtr := by omega
    split
    · next hl2 =>
      split
      · next h3 =>
        have h3' : 2 < (sliceAt st 0).len := h3
        refine ⟨?_, rfl, ?_, ?_, ?_⟩
        · exact splitSlot_SliceInv st 0 2 inv h0w (by omega) h3'
        · show (spanShift st.commentSpan 0).i ≤ st.sliceWritePtr + 1
          unfold spanShift
          split <;> first | omega | (dsimp only; omega)
        · show 0 + 1 ≤ (spanShift st.commentSpan 0).i
          unfold spanShift
          split <;> first | omega | (dsimp only; omega)
        · refine Or.inr ?_
          show (sliceAt (splitSlot st 0 2) (0 + 1 - 1)).bits &&& BITAsterisk = 0
          rw [show (0 + 1 - 1 : Nat) = 0 from rfl,
            splitSlot_sliceAt_slot st 0 2 h0w inv.wlen]
          exact covOK_noAst st.raw _ (inv.pure 0 h0w) BITAt (by decide) (by decide) hat
      · next h3 =>
        refine ⟨inv, rfl, hcw, by dsimp only [addFlavor]; omega, ?_⟩
        refine Or.inr ?_
        show (sliceAt st (0 + 1 - 1)).bits &&& BITAsterisk = 0
        rw [show (0 + 1 - 1 : Nat) = 0 from rfl]
        exact covOK_noAst st.raw _ (inv.pure 0 h0w) BITAt (by decide) (by decide) hat
    · next hl2 =>
      exact ⟨inv, rfl, hcw, by omega, Or.inl rfl⟩
  · next hg =>
    exact ⟨inv, rfl, hcw, by omega, Or.inl rfl⟩

theorem netOptionsStage_facts (st : PState) (islice : Nat) (inv : SliceInv st)
    (hoa : st.optionsAnchorSpan.i ≤ st.sliceWritePtr)
    (hpi : st.patternSpan.i ≤ islice) :
    netOptionsStage st islice = st ∨
    (SliceInv (netOptionsStage st islice) ∧
     (netOptionsStage st islice).raw = st.raw ∧
     (netOptionsStage st islice).patternSpan.i = st.patternSpan.i ∧
     (netOptionsStage st islice).patternSpan.i +
       (netOptionsStage st islice).patternSpan.l =
       (netOptionsStage st islice).optionsAnchorSpan.i ∧
     (netOptionsStage st islice).optionsAnchorSpan.i ≤
       (netOptionsStage st islice).sliceWritePtr ∧
     (∀ k, k ≤ st.patternSpan.i →
       bitsAgree (sliceAt (netOptionsStage st islice) k).bits
         (sliceAt st k).bits)) := by
  unfold netOptionsStage
  dsimp only
  split
  · exact Or.inl rfl
  · next i hscan =>
    have hsome := optScanLoop_some st islice st.optionsAnchorSpan.i 0 i hscan
    have hpii : st.patternSpan.i ≤ i := by omega
    have hiw : i < st.sliceWritePtr := by omega
    refine Or.inr ?_
    split
    · next hl1 =>
      have hl1' : 1 < (sliceAt st i).len := hl1
      split
      · next hodd =>
        split
        · next hint =>
          refine ⟨?_, rfl, rfl, ?_, ?_, ?_⟩
          · show SliceInv (markSlices (addFlavor st BITFlavorError) i (i + 1) BITError)
            exact markSlices_SliceInv (addFlavor st BITFlavorError) i (i + 1)
              BITError inv ovlE_mask
          · dsimp only [markSlices, addFlavor, splitSlot]
            omega
          · dsimp only [markSlices, addFlavor, splitSlot]
            omega
          · intro k hk
            show bitsAgree
              (sliceAt (markSlices (addFlavor st BITFlavorError) i (i + 1) BITError) k).bits
              (sliceAt st k).bits
            exact markSlices_bitsAgree (addFlavor st BITFlavorError) i (i + 1)
              BITError ovlE_ast ovlE_pt k
        · next hint =>
          refine ⟨inv, rfl, rfl, ?_, ?_, ?_⟩
          · dsimp only [markSlices, addFlavor, splitSlot]
            omega
          · dsimp only [markSlices, addFlavor, splitSlot]
            omega
          · intro k hk
            exact bitsAgree_refl _
      · next hodd =>
        refine ⟨?_, rfl, ?_, ?_, ?_, ?_⟩
        · show SliceInv (splitSlot st i ((sliceAt st i).len - 1))
          exact splitSlot_SliceInv st i _ inv hiw (by omega) (by omega)
        · show (spanShift st.patternSpan i).i = st.patternSpan.i
          unfold spanShift
          split <;> first | rfl | (dsimp only; omega)
        · show (spanShift st.patternSpan i).i +
            (i + 1 - (spanShift st.patternSpan i).i) = i + 1
          unfold spanShift
          split <;> first | omega | (dsimp only; omega)
        · dsimp only [markSlices, addFlavor, splitSlot]
          omega
        · intro k hk
          by_cases hki : k = i
        -- k = i only possible when patternSpan.i = islice = i
          · subst hki
            show bitsAgree (sliceAt (splitSlot st k ((sliceAt st k).len - 1)) k).bits
              (sliceAt st k).bits
            rw [splitSlot_sliceAt_slot st k _ hiw inv.wlen]
            exact bitsAgree_refl _
          · show bitsAgree (sliceAt (splitSlot st i ((sliceAt st i).len - 1)) k).bits
              (sliceAt st k).bits
            rw [splitSlot_sliceAt_le st i _ k hiw inv.wlen (by omega)]
            exact bitsAgree_refl _
    · next hl1 =>
      refine ⟨inv, rfl, rfl, ?_, ?_, ?_⟩
      · dsimp only [markSlices, addFlavor, splitSlot]
        omega
      · dsimp only [markSlices, addFlavor, splitSlot]
        omega
      · intro k hk
        exact bitsAgree_refl _

theorem netLeftAnchorStage_facts (st : PState) (inv : SliceInv st)
    (heq : st.patternRightAnchorSpan.i = st.patternSpan.i + st.patternSpan.l)
    (hbw : st.patternSpan.i + st.patternSpan.l ≤ st.sliceWritePtr)
    (hpred : predAt st st.patternSpan.i) :
    SliceInv (netLeftAnchorStage st) ∧
    (netLeftAnchorStage st).raw = st.raw ∧
    (netLeftAnchorStage st).patternRightAnchorSpan.i =
      (netLeftAnchorStage st).patternSpan.i +
        (netLeftAnchorStage st).patternSpan.l ∧
    (netLeftAnchorStage st).patternSpan.i +
      (netLeftAnchorStage st).patternSpan.l ≤
      (netLeftAnchorStage st).sliceWritePtr ∧
    predAt (netLeftAnchorStage st) (netLeftAnchorStage st).patternSpan.i := by
  unfold netLeftAnchorStage
  split
  · next hg =>
    have hl0 : st.patternSpan.l ≠ 0 := hg.1
    have hpipe : (sliceAt st st.patternSpan.i).bits &&& BITPipe ≠ 0 :=
      bne_iff_ne.mp hg.2
    have hpw : st.patternSpan.i < st.sliceWritePtr := by omega
    have hnoast : (sliceAt st st.patternSpan.i).bits &&& BITAsterisk = 0 :=
      covOK_noAst st.raw _ (inv.pure st.patternSpan.i hpw) BITPipe
        (by decide) (by decide) hpipe
    dsimp only
    split
    · next hl2 =>
      have hl2' : 2 < (sliceAt st st.patternSpan.i).len := hl2
      have e1 : spanShift st.patternSpan st.patternSpan.i = st.patternSpan := by
        unfold spanShift
        split
        · next h => exact absurd h (by omega)
        · rfl
      have e2 : (spanShift st.patternRightAnchorSpan st.patternSpan.i).i =
          st.patternRightAnchorSpan.i + 1 := by
        unfold spanShift
        split
        · rfl
        · next h => exact absurd heq (by omega)
      refine ⟨?_, rfl, ?_, ?_, ?_⟩
      · show SliceInv (splitSlot
          { st with patternLeftAnchorSpan := { st.patternLeftAnchorSpan with l := 1 } }
          st.patternSpan.i 2)
        exact splitSlot_SliceInv
          { st with patternLeftAnchorSpan := { st.patternLeftAnchorSpan with l := 1 } }
          _ 2 inv hpw (by omega) hl2'
      · show (spanShift st.patternRightAnchorSpan st.patternSpan.i).i =
          ((spanShift st.patternSpan st.patternSpan.i).i + 1) +
          (spanShift st.patternSpan st.patternSpan.i).l
        rw [e2, e1]
        omega
      · show ((spanShift st.patternSpan st.patternSpan.i).i + 1) +
          (spanShift st.patternSpan st.patternSpan.i).l ≤ st.sliceWritePtr + 1
        rw [e1]
        omega
      · have hpi : (netLeftAnchorStage st).patternSpan.i
            = st.patternSpan.i + 1 := by
          unfold netLeftAnchorStage
          rw [if_pos hg]
          dsimp only
          rw [if_pos hl2]
          show (spanShift st.patternSpan st.patternSpan.i).i + 1 = _
          rw [e1]
        refine Or.inr (Or.inl ?_)
        show (sliceAt (splitSlot
          { st with patternLeftAnchorSpan := { st.patternLeftAnchorSpan with l := 1 } }
          st.patternSpan.i 2)
          (((spanShift st.patternSpan st.patternSpan.i).i + 1) - 1)).bits &&&
          BITAsterisk = 0
        rw [e1, Nat.add_sub_cancel,
          splitSlot_sliceAt_slot
            { st with patternLeftAnchorSpan := { st.patternLeftAnchorSpan with l := 1 } }
            st.patternSpan.i 2 hpw inv.wlen]
        exact hnoast
    · next hl2 =>
      refine ⟨inv, rfl, ?_, ?_, ?_⟩
      · dsimp only [addFlavor]
        omega
      · dsimp only [addFlavor]
        omega
      · refine Or.inr (Or.inl ?_)
        show (sliceAt st ((st.patternSpan.i + 1) - 1)).bits &&& BITAsterisk = 0
        rw [Nat.add_sub_cancel]
        exact hnoast
  · exact ⟨inv, rfl, heq, hbw, hpred⟩

theorem netRightAnchorStage_facts (st : PState) (inv : SliceInv st)
    (heq : st.patternRightAnchorSpan.i = st.patternSpan.i + st.patternSpan.l)
    (hbw : st.patternSpan.i + st.patternSpan.l ≤ st.sliceWritePtr)
    (hpred : predAt st st.patternSpan.i) :
    SliceInv (netRightAnchorStage st) ∧
    (netRightAnchorStage st).raw = st.raw ∧
    (netRightAnchorStage st).patternSpan.i = st.patternSpan.i ∧
    (netRightAnchorStage st).patternSpan.i +
      (netRightAnchorStage st).patternSpan.l ≤
      (netRightAnchorStage st).sliceWritePtr ∧
    predAt (netRightAnchorStage st) st.patternSpan.i := by
  unfold netRightAnchorStage
  split
  · next hg =>
    have hl0 : st.patternSpan.l ≠ 0 := hg
    dsimp only
    by_cases hl1 : st.patternSpan.l > 1
    · rw [if_pos hl1]
      have hlt : st.patternRightAnchorSpan.i - 1 < st.sliceWritePtr := by omega
      have hgt : st.patternSpan.i < st.patternRightAnchorSpan.i - 1 := by omega
      split
      · next hpipe =>
        split
        · next hlen =>
          have hlen' : 1 < (sliceAt st (st.patternRightAnchorSpan.i - 1)).len := hlen
          have e1 : spanShift st.patternSpan (st.patternRightAnchorSpan.i - 1)
              = st.patternSpan := by
            unfold spanShift
            split
            · next h => exact absurd h (by omega)
            · rfl
          have hlt1 : st.patternRightAnchorSpan.i - 1 <
              ({ st with patternRightAnchorSpan :=
                ⟨st.patternRightAnchorSpan.i - 1, 1⟩ } : PState).sliceWritePtr := hlt
          have hwl1 : ({ st with patternRightAnchorSpan :=
                ⟨st.patternRightAnchorSpan.i - 1, 1⟩ } : PState).sliceWritePtr ≤
              ({ st with patternRightAnchorSpan :=
                ⟨st.patternRightAnchorSpan.i - 1, 1⟩ } : PState).slices.length := inv.wlen
          have hlenA : (sliceAt ({ st with patternRightAnchorSpan :=
                ⟨st.patternRightAnchorSpan.i - 1, 1⟩ } : PState)
              (st.patternRightAnchorSpan.i - 1)).len
              = (sliceAt st (st.patternRightAnchorSpan.i - 1)).len := rfl
          refine ⟨?_, rfl, ?_, ?_, ?_⟩
          · show SliceInv (splitSlot
              { st with patternRightAnchorSpan := ⟨st.patternRightAnchorSpan.i - 1, 1⟩ }
              (st.patternRightAnchorSpan.i - 1)
              ((sliceAt st (st.patternRightAnchorSpan.i - 1)).len - 1))
            exact splitSlot_SliceInv _ _ _ inv hlt1 (by omega) (by omega)
          · show (spanShift st.patternSpan (st.patternRightAnchorSpan.i - 1)).i
              = st.patternSpan.i
            rw [e1]
          · show (spanShift st.patternSpan (st.patternRightAnchorSpan.i - 1)).i +
              (spanShift st.patternSpan (st.patternRightAnchorSpan.i - 1)).l ≤
              st.sliceWritePtr + 1
            rw [e1]
            omega
          · refine predAt_transfer st _ st.patternSpan.i ?_ hpred
            intro k hk
            show bitsAgree (sliceAt (splitSlot
              { st with patternRightAnchorSpan := ⟨st.patternRightAnchorSpan.i - 1, 1⟩ }
              (st.patternRightAnchorSpan.i - 1)
              ((sliceAt st (st.patternRightAnchorSpan.i - 1)).len - 1)) k).bits
              (sliceAt st k).bits
            rw [splitSlot_sliceAt_le _ _ _ k hlt1 hwl1 (by omega)]
            exact bitsAgree_refl _
        · next hlen =>
          refine ⟨inv, rfl, rfl, ?_, hpred⟩
          dsimp only [addFlavor]
          omega
      · next hpipe =>
        split
        · next hcaret =>
          refine ⟨inv, rfl, rfl, ?_, hpred⟩
          dsimp only [addFlavor]
          omega
        · next hcaret =>
          exact ⟨inv, rfl, rfl, hbw, hpred⟩
    · rw [if_neg hl1]
      have hpl : st.patternSpan.l = 1 := by omega
      have hpw : st.patternSpan.i < st.sliceWritePtr := by omega
      split
      · next hpipe =>
        split
        · next hlen =>
          have hlen' : 1 < (sliceAt st st.patternSpan.i).len := hlen
          have e1 : spanShift st.patternSpan st.patternSpan.i = st.patternSpan := by
            unfold spanShift
            split
            · next h => exact absurd h (by omega)
            · rfl
          have hpw1 : st.patternSpan.i <
              ({ st with patternRightAnchorSpan :=
                ⟨st.patternSpan.i, 1⟩ } : PState).sliceWritePtr := hpw
          have hwl1 : ({ st with patternRightAnchorSpan :=
                ⟨st.patternSpan.i, 1⟩ } : PState).sliceWritePtr ≤
              ({ st with patternRightAnchorSpan :=
                ⟨st.patternSpan.i, 1⟩ } : PState).slices.length := inv.wlen
          have hlenA : (sliceAt ({ st with patternRightAnchorSpan :=
                ⟨st.patternSpan.i, 1⟩ } : PState) st.patternSpan.i).len
              = (sliceAt st st.patternSpan.i).len := rfl
          refine ⟨?_, rfl, ?_, ?_, ?_⟩
          · show SliceInv (splitSlot
              { st with patternRightAnchorSpan := ⟨st.patternSpan.i, 1⟩ }
              st.patternSpan.i ((sliceAt st st.patternSpan.i).len - 1))
            exact splitSlot_SliceInv _ _ _ inv hpw1 (by omega) (by omega)
          · show (spanShift st.patternSpan st.patternSpan.i).i = st.patternSpan.i
            rw [e1]
          · show (spanShift st.patternSpan st.patternSpan.i).i +
              (spanShift st.patternSpan st.patternSpan.i).l ≤ st.sliceWritePtr + 1
            rw [e1]
            omega
          · refine predAt_transfer st _ st.patternSpan.i ?_ hpred
            intro k hk
            by_cases hkp : k = st.patternSpan.i
            · show bitsAgree (sliceAt (splitSlot
                { st with patternRightAnchorSpan := ⟨st.patternSpan.i, 1⟩ }
                st.patternSpan.i ((sliceAt st st.patternSpan.i).len - 1)) k).bits
                (sliceAt st k).bits
              rw [hkp, splitSlot_sliceAt_slot _ _ _ hpw1 hwl1]
              exact bitsAgree_refl _
            · show bitsAgree (sliceAt (splitSlot
                { st with patternRightAnchorSpan := ⟨st.patternSpan.i, 1⟩ }
                st.patternSpan.i ((sliceAt st st.patternSpan.i).len - 1)) k).bits
                (sliceAt st k).bits
              rw [splitSlot_sliceAt_le _ _ _ k hpw1 hwl1 (by omega)]
              exact bitsAgree_refl _
        · next hlen =>
          refine ⟨inv, rfl, rfl, ?_, hpred⟩
          dsimp only [addFlavor]
          omega
      · next hpipe =>
        split
        · next hcaret =>
          refine ⟨inv, rfl, rfl, ?_, hpred⟩
          dsimp only [addFlavor]
          omega
        · next hcaret =>
          exact ⟨inv, rfl, rfl, hbw, hpred⟩
  · next hg =>
    exact ⟨inv, rfl, rfl, hbw, hpred⟩

theorem getNetPattern_fst_slices (st : PState) :
    (getNetPattern st).1.slices = st.slices := by
  unfold getNetPattern
  repeat' split
  all_goals rfl

theorem getNetPattern_fst_wptr (st : PState) :
    (getNetPattern st).1.sliceWritePtr = st.sliceWritePtr := by
  unfold getNetPattern
  repeat' split
  all_goals rfl

theorem getNetPattern_fst_raw (st : PState) :
    (getNetPattern st).1.raw = st.raw := by
  unfold getNetPattern
  repeat' split
  all_goals rfl

theorem getNetPattern_fst_patternSpan (st : PState) :
    (getNetPattern st).1.patternSpan = st.patternSpan := by
  unfold getNetPattern
  repeat' split
  all_goals rfl

theorem getNetPattern_fst_interactive (st : PState) :
    (getNetPattern st).1.interactive = st.interactive := by
  unfold getNetPattern
  repeat' split
  all_goals rfl

theorem getNetPattern_SliceInv (st : PState) (inv : SliceInv st) :
    SliceInv (getNetPattern st).1 := by
  show BufInv (getNetPattern st).1.raw (getNetPattern st).1.sliceWritePtr
    (getNetPattern st).1.slices
  rw [getNetPattern_fst_raw, getNetPattern_fst_wptr, getNetPattern_fst_slices]
  exact inv

theorem sliceAt_getNetPattern (st : PState) (k : Nat) :
    sliceAt (getNetPattern st).1 k = sliceAt st k := by
  unfold sliceAt
  rw [getNetPattern_fst_slices]

/-- The refinement suffix of the space stage (source lines 513-523):
    cache the pattern, test the localhost-redirect regex, mark the dropped
    slices in interactive mode. -/
def spaceRefine (o : Oracles) (st : PState) : PState :=
  let stp := getNetPattern st
  let st := stp.1
  let st := if o.isLocalhostRedirect stp.2 then addFlavor st BITFlavorIgnore else st
  if st.interactive then markSlices st 0 st.patternSpan.i BITIgnore else st

theorem netSpaceStage_decomp (o : Oracles) (st : PState) :
    netSpaceStage o st =
      (let scan := spaceScan st st.patternSpan.i st.patternBits st.patternSpan.l
       let st1 : PState := { st with patternBits := scan.2 }
       if scan.1 ≠ 0 then
         spaceRefine o { st1 with patternSpan :=
           ⟨st1.patternSpan.i + scan.1 + 1, st1.patternSpan.l - (scan.1 + 1)⟩ }
       else st1) := rfl

theorem spaceRefine_facts (o : Oracles) (Y : PState) (invY : SliceInv Y) :
    SliceInv (spaceRefine o Y) ∧
    (spaceRefine o Y).raw = Y.raw ∧
    (spaceRefine o Y).patternSpan = Y.patternSpan ∧
    (spaceRefine o Y).sliceWritePtr = Y.sliceWritePtr ∧
    (∀ k, bitsAgree (sliceAt (spaceRefine o Y) k).bits (sliceAt Y k).bits) := by
  unfold spaceRefine
  dsimp only
  split
  · next hloc =>
    split
    · next hint =>
      refine ⟨?_, ?_, ?_, ?_, ?_⟩
      · exact markSlices_SliceInv _ _ _ _ (getNetPattern_SliceInv Y invY) ovlI_mask
      · show (getNetPattern Y).1.raw = Y.raw
        exact getNetPattern_fst_raw Y
      · show (getNetPattern Y).1.patternSpan = Y.patternSpan
        exact getNetPattern_fst_patternSpan Y
      · show (getNetPattern Y).1.sliceWritePtr = Y.sliceWritePtr
        exact getNetPattern_fst_wptr Y
      · intro k
        have h1 := markSlices_bitsAgree (addFlavor (getNetPattern Y).1 BITFlavorIgnore)
          0 (addFlavor (getNetPattern Y).1 BITFlavorIgnore).patternSpan.i
          BITIgnore ovlI_ast ovlI_pt k
        have h2 : sliceAt (addFlavor (getNetPattern Y).1 BITFlavorIgnore) k
            = sliceAt Y k := sliceAt_getNetPattern Y k
        rw [h2] at h1
        exact h1
    · next hint =>
      refine ⟨getNetPattern_SliceInv Y invY, getNetPattern_fst_raw Y,
        getNetPattern_fst_patternSpan Y, getNetPattern_fst_wptr Y, ?_⟩
      intro k
      show bitsAgree (sliceAt (getNetPattern Y).1 k).bits (sliceAt Y k).bits
      rw [sliceAt_getNetPattern Y k]
      exact bitsAgree_refl _
  · next hloc =>
    split
    · next hint =>
      refine ⟨?_, ?_, ?_, ?_, ?_⟩
      · exact markSlices_SliceInv _ _ _ _ (getNetPattern_SliceInv Y invY) ovlI_mask
      · show (getNetPattern Y).1.raw = Y.raw
        exact getNetPattern_fst_raw Y
      · show (getNetPattern Y).1.patternSpan = Y.patternSpan
        exact getNetPattern_fst_patternSpan Y
      · show (getNetPattern Y).1.sliceWritePtr = Y.sliceWritePtr
        exact getNetPattern_fst_wptr Y
      · intro k
        have h1 := markSlices_bitsAgree (getNetPattern Y).1
          0 (getNetPattern Y).1.patternSpan.i BITIgnore ovlI_ast ovlI_pt k
        rw [sliceAt_getNetPattern Y k] at h1
        exact h1
    · next hint =>
      refine ⟨getNetPattern_SliceInv Y invY, getNetPattern_fst_raw Y,
        getNetPattern_fst_patternSpan Y, getNetPattern_fst_wptr Y, ?_⟩
      intro k
      rw [sliceAt_getNetPattern Y k]
      exact bitsAgree_refl _

theorem netSpaceStage_facts (o : Oracles) (st : PState) (inv : SliceInv st)
    (hbw : st.patternSpan.i + st.patternSpan.l ≤ st.sliceWritePtr)
    (hpred : predAt st st.patternSpan.i) :
    SliceInv (netSpaceStage o st) ∧
    (netSpaceStage o st).raw = st.raw ∧
    (netSpaceStage o st).patternSpan.i + (netSpaceStage o st).patternSpan.l ≤
      (netSpaceStage o st).sliceWritePtr ∧
    predAt (netSpaceStage o st) (netSpaceStage o st).patternSpan.i := by
  rw [netSpaceStage_decomp]
  dsimp only
  split
  · next hj =>
    have hsc := spaceScan_facts st st.patternSpan.i st.patternBits
      st.patternSpan.l _ hj
    obtain ⟨hjl, hsp⟩ := hsc
    have hjw : st.patternSpan.i +
        (spaceScan st st.patternSpan.i st.patternBits st.patternSpan.l).1 <
        st.sliceWritePtr := by omega
    have hnoast : (sliceAt st (st.patternSpan.i +
        (spaceScan st st.patternSpan.i st.patternBits st.patternSpan.l).1)).bits &&&
        BITAsterisk = 0 :=
      covOK_noAst st.raw _ (inv.pure _ hjw) BITSpace (by decide) (by decide)
        (bne_iff_ne.mp hsp)
    have hf := spaceRefine_facts o
      ({ st with
        patternBits := (spaceScan st st.patternSpan.i st.patternBits
          st.patternSpan.l).2,
        patternSpan := ⟨st.patternSpan.i +
          (spaceScan st st.patternSpan.i st.patternBits st.patternSpan.l).1 + 1,
          st.patternSpan.l -
          ((spaceScan st st.patternSpan.i st.patternBits st.patternSpan.l).1 + 1)⟩ }
        : PState) inv
    obtain ⟨hfi, hfr, hfp, hfw, hfa⟩ := hf
    refine ⟨hfi, hfr, ?_, ?_⟩
    · rw [hfp, hfw]
      dsimp only
      omega
    · rw [hfp]
      dsimp only
      refine Or.inr (Or.inl ?_)
      rw [Nat.add_sub_cancel, (hfa _).1]
      exact hnoast
  · next hj =>
    exact ⟨inv, rfl, hbw, hpred⟩

/-- The four sequential rewrites of the pointless-wildcard stage
    (source lines 540-602), named for modular reasoning. -/
def wcLead (st : PState) : PState :=
  if st.patternSpan.l > 1 ∧
     hasBitsB (sliceAt st st.patternSpan.i).bits BITAsterisk ∧
     hasNoBitsB (sliceAt st (st.patternSpan.i + 1)).bits BITPatternToken then
    let st := orBitsAt st st.patternSpan.i BITIgnore
    let st := { st with patternSpan :=
      ⟨st.patternSpan.i + 1, st.patternSpan.l - 1⟩ }
    if st.patternLeftAnchorSpan.l ≠ 0 then
      let st := orBitsAt st st.patternLeftAnchorSpan.i BITIgnore
      clearFlavor st BITFlavorNetLeftAnchor
    else st
  else st

def wcTrail (st : PState) : PState :=
  if st.patternSpan.l > 1 ∧
     hasBitsB (sliceAt st (st.patternSpan.i + st.patternSpan.l - 1)).bits BITAsterisk ∧
     hasNoBitsB (sliceAt st (st.patternSpan.i + st.patternSpan.l - 2)).bits BITPatternToken
  then
    let st :=
      if hasNoBitsB (sliceAt st st.patternSpan.i).bits BITSlash ∨
         hasNoBitsB (sliceAt st (st.patternSpan.i + st.patternSpan.l - 2)).bits BITSlash
      then orBitsAt st (st.patternSpan.i + st.patternSpan.l - 1) BITIgnore
      else st
    let st := { st with patternSpan :=
      { st.patternSpan with l := st.patternSpan.l - 1 } }
    if st.patternRightAnchorSpan.l ≠ 0 then
      let st := orBitsAt st st.patternRightAnchorSpan.i BITIgnore
      clearFlavor st BITFlavorNetRightAnchor
    else st
  else st

def wcLeftPointless (st : PState) : PState :=
  if (st.patternSpan.l = 0 ∨ hasBitsB (sliceAt st st.patternSpan.i).bits BITAsterisk) ∧
     hasBitsB st.flavorBits BITFlavorNetLeftAnchor then
    let st := orBitsAt st st.patternLeftAnchorSpan.i BITIgnore
    clearFlavor st BITFlavorNetLeftAnchor
  else st

def wcRightPointless (st : PState) : PState :=
  if (st.patternSpan.l = 0 ∨
      hasBitsB (sliceAt st (st.patternSpan.i + st.patternSpan.l - 1)).bits BITAsterisk) ∧
     hasBitsB st.flavorBits BITFlavorNetRightAnchor then
    let st := orBitsAt st st.patternRightAnchorSpan.i BITIgnore
    clearFlavor st BITFlavorNetRightAnchor
  else st

theorem netWildcardStage_decomp (st : PState) :
    netWildcardStage st = wcRightPointless (wcLeftPointless (wcTrail (wcLead st))) :=
  rfl

theorem wcLead_facts (st : PState) (inv : SliceInv st)
    (hbw : st.patternSpan.i + st.patternSpan.l ≤ st.sliceWritePtr)
    (hpred : predAt st st.patternSpan.i) :
    SliceInv (wcLead st) ∧ (wcLead st).raw = st.raw ∧
    (wcLead st).patternSpan.i + (wcLead st).patternSpan.l ≤
      (wcLead st).sliceWritePtr ∧
    predAt (wcLead st) (wcLead st).patternSpan.i := by
  unfold wcLead
  split
  · next hg =>
    have hl1 : st.patternSpan.l > 1 := hg.1
    have hnp : (sliceAt st (st.patternSpan.i + 1)).bits &&& BITPatternToken = 0 :=
      beq_iff_eq.mp hg.2.2
    dsimp only
    split
    · next ha =>
      refine ⟨?_, rfl, ?_, ?_⟩
      · show SliceInv (clearFlavor (orBitsAt _ _ BITIgnore) BITFlavorNetLeftAnchor)
        exact orBitsAt_SliceInv _ _ _ (orBitsAt_SliceInv st _ _ inv ovlI_mask)
          ovlI_mask
      · dsimp only [orBitsAt, clearFlavor]
        omega
      · refine Or.inr (Or.inr ?_)
        have h1 := orBitsAt_bitsAgree st st.patternSpan.i BITIgnore
          ovlI_ast ovlI_pt (st.patternSpan.i + 1)
        have h2 := orBitsAt_bitsAgree
          ({ orBitsAt st st.patternSpan.i BITIgnore with patternSpan :=
            ⟨st.patternSpan.i + 1, st.patternSpan.l - 1⟩ } : PState)
          ({ orBitsAt st st.patternSpan.i BITIgnore with patternSpan :=
            ⟨st.patternSpan.i + 1, st.patternSpan.l - 1⟩ }
            : PState).patternLeftAnchorSpan.i BITIgnore
          ovlI_ast ovlI_pt (st.patternSpan.i + 1)
        exact h2.2.trans (h1.2.trans hnp)
    · next ha =>
      refine ⟨?_, rfl, ?_, ?_⟩
      · show SliceInv (orBitsAt st st.patternSpan.i BITIgnore)
        exact orBitsAt_SliceInv st _ _ inv ovlI_mask
      · dsimp only [orBitsAt]
        omega
      · refine Or.inr (Or.inr ?_)
        have h1 := orBitsAt_bitsAgree st st.patternSpan.i BITIgnore
          ovlI_ast ovlI_pt (st.patternSpan.i + 1)
        show (sliceAt (orBitsAt st st.patternSpan.i BITIgnore)
          (st.patternSpan.i + 1)).bits &&& BITPatternToken = 0
        rw [h1.2]
        exact hnp
  · exact ⟨inv, rfl, hbw, hpred⟩

theorem wcTrail_facts (st : PState) (inv : SliceInv st)
    (hbw : st.patternSpan.i + st.patternSpan.l ≤ st.sliceWritePtr)
    (hpred : predAt st st.patternSpan.i) :
    SliceInv (wcTrail st) ∧ (wcTrail st).raw = st.raw ∧
    (wcTrail st).patternSpan.i + (wcTrail st).patternSpan.l ≤
      (wcTrail st).sliceWritePtr ∧
    predAt (wcTrail st) (wcTrail st).patternSpan.i := by
  unfold wcTrail
  split
  · next hg =>
    have hl1 : st.patternSpan.l > 1 := hg.1
    dsimp only
    split
    · next hsl =>
      split
      · next ha =>
        refine ⟨?_, rfl, ?_, ?_⟩
        · exact orBitsAt_SliceInv
            ({ orBitsAt st (st.patternSpan.i + st.patternSpan.l - 1) BITIgnore with
              patternSpan := { st.patternSpan with l := st.patternSpan.l - 1 } }
              : PState)
            ({ orBitsAt st (st.patternSpan.i + st.patternSpan.l - 1) BITIgnore with
              patternSpan := { st.patternSpan with l := st.patternSpan.l - 1 } }
              : PState).patternRightAnchorSpan.i BITIgnore
            (orBitsAt_SliceInv st _ _ inv ovlI_mask) ovlI_mask
        · dsimp only [orBitsAt, clearFlavor]
          omega
        · refine predAt_transfer st _ st.patternSpan.i ?_ hpred
          intro k hk
          have h1 := orBitsAt_bitsAgree st
            (st.patternSpan.i + st.patternSpan.l - 1) BITIgnore ovlI_ast ovlI_pt k
          have h2 := orBitsAt_bitsAgree
            ({ orBitsAt st (st.patternSpan.i + st.patternSpan.l - 1) BITIgnore with
              patternSpan := { st.patternSpan with l := st.patternSpan.l - 1 } }
              : PState)
            ({ orBitsAt st (st.patternSpan.i + st.patternSpan.l - 1) BITIgnore with
              patternSpan := { st.patternSpan with l := st.patternSpan.l - 1 } }
              : PState).patternRightAnchorSpan.i BITIgnore ovlI_ast ovlI_pt k
          exact ⟨(h2.1.trans h1.1 : _), (h2.2.trans h1.2 : _)⟩
      · next ha =>
        refine ⟨?_, rfl, ?_, ?_⟩
        · show SliceInv (orBitsAt st _ BITIgnore)
          exact orBitsAt_SliceInv st _ _ inv ovlI_mask
        · dsimp only [orBitsAt]
          omega
        · refine predAt_transfer st _ st.patternSpan.i ?_ hpred
          intro k hk
          exact orBitsAt_bitsAgree st
            (st.patternSpan.i + st.patternSpan.l - 1) BITIgnore ovlI_ast ovlI_pt k
    · next hsl =>
      split
      · next ha =>
        refine ⟨?_, rfl, ?_, ?_⟩
        · exact orBitsAt_SliceInv
            ({ st with patternSpan :=
              { st.patternSpan with l := st.patternSpan.l - 1 } } : PState)
            ({ st with patternSpan :=
              { st.patternSpan with l := st.patternSpan.l - 1 } }
              : PState).patternRightAnchorSpan.i BITIgnore inv ovlI_mask
        · dsimp only [orBitsAt, clearFlavor]
          omega
        · refine predAt_transfer st _ st.patternSpan.i ?_ hpred
          intro k hk
          exact orBitsAt_bitsAgree
            ({ st with patternSpan :=
              { st.patternSpan with l := st.patternSpan.l - 1 } } : PState)
            ({ st with patternSpan :=
              { st.patternSpan with l := st.patternSpan.l - 1 } }
              : PState).patternRightAnchorSpan.i BITIgnore ovlI_ast ovlI_pt k
      · next ha =>
        refine ⟨inv, rfl, ?_, ?_⟩
        · dsimp only
          omega
        · exact hpred
  · exact ⟨inv, rfl, hbw, hpred⟩

theorem wcLeftPointless_facts (st : PState) (inv : SliceInv st)
    (hbw : st.patternSpan.i + st.patternSpan.l ≤ st.sliceWritePtr)
    (hpred : predAt st st.patternSpan.i) :
    SliceInv (wcLeftPointless st) ∧ (wcLeftPointless st).raw = st.raw ∧
    (wcLeftPointless st).patternSpan.i + (wcLeftPointless st).patternSpan.l ≤
      (wcLeftPointless st).sliceWritePtr ∧
    predAt (wcLeftPointless st) (wcLeftPointless st).patternSpan.i := by
  unfold wcLeftPointless
  split
  · next hg =>
    refine ⟨?_, rfl, ?_, ?_⟩
    · show SliceInv (orBitsAt st _ BITIgnore)
      exact orBitsAt_SliceInv st _ _ inv ovlI_mask
    · dsimp only [orBitsAt, clearFlavor]
      omega
    · refine predAt_transfer st _ st.patternSpan.i ?_ hpred
      intro k hk
      exact orBitsAt_bitsAgree st st.patternLeftAnchorSpan.i BITIgnore
        ovlI_ast ovlI_pt k
  · exact ⟨inv, rfl, hbw, hpred⟩

theorem wcRightPointless_facts (st : PState) (inv : SliceInv st)
    (hbw : st.patternSpan.i + st.patternSpan.l ≤ st.sliceWritePtr)
    (hpred : predAt st st.patternSpan.i) :
    SliceInv (wcRightPointless st) ∧ (wcRightPointless st).raw = st.raw ∧
    (wcRightPointless st).patternSpan.i + (wcRightPointless st).patternSpan.l ≤
      (wcRightPointless st).sliceWritePtr ∧
    predAt (wcRightPointless st) (wcRightPointless st).patternSpan.i := by
  unfold wcRightPointless
  split
  · next hg =>
    refine ⟨?_, rfl, ?_, ?_⟩
    · show SliceInv (orBitsAt st _ BITIgnore)
      exact orBitsAt_SliceInv st _ _ inv ovlI_mask
    · dsimp only [orBitsAt, clearFlavor]
      omega
    · refine predAt_transfer st _ st.patternSpan.i ?_ hpred
      intro k hk
      exact orBitsAt_bitsAgree st st.patternRightAnchorSpan.i BITIgnore
        ovlI_ast ovlI_pt k
  · exact ⟨inv, rfl, hbw, hpred⟩

theorem netWildcardStage_facts (st : PState) (inv : SliceInv st)
    (hbw : st.patternSpan.i + st.patternSpan.l ≤ st.sliceWritePtr)
    (hpred : predAt st st.patternSpan.i) :
    SliceInv (netWildcardStage st) ∧ (netWildcardStage st).raw = st.raw ∧
    (netWildcardStage st).patternSpan.i + (netWildcardStage st).patternSpan.l ≤
      (netWildcardStage st).sliceWritePtr ∧
    predAt (netWildcardStage st) (netWildcardStage st).patternSpan.i := by
  rw [netWildcardStage_decomp]
  obtain ⟨i1, r1, b1, p1⟩ := wcLead_facts st inv hbw hpred
  obtain ⟨i2, r2, b2, p2⟩ := wcTrail_facts _ i1 b1 p1
  obtain ⟨i3, r3, b3, p3⟩ := wcLeftPointless_facts _ i2 b2 p2
  obtain ⟨i4, r4, b4, p4⟩ := wcRightPointless_facts _ i3 b3 p3
  exact ⟨i4, by rw [r4, r3, r2, r1], b4, p4⟩

theorem tailPlain_facts (o : Oracles) (st4 : PState) (inv : SliceInv st4)
    (hbw : st4.patternSpan.i + st4.patternSpan.l ≤ st4.sliceWritePtr)
    (hpred : predAt st4 st4.patternSpan.i) :
    SliceInv (netWildcardStage (netSpaceStage o st4)) ∧
    (netWildcardStage (netSpaceStage o st4)).raw = st4.raw ∧
    (netWildcardStage (netSpaceStage o st4)).patternSpan.i +
      (netWildcardStage (netSpaceStage o st4)).patternSpan.l ≤
      (netWildcardStage (netSpaceStage o st4)).sliceWritePtr ∧
    predAt (netWildcardStage (netSpaceStage o st4))
      (netWildcardStage (netSpaceStage o st4)).patternSpan.i := by
  obtain ⟨si, sr, sb, sp⟩ := netSpaceStage_facts o st4 inv hbw hpred
  obtain ⟨wi, wr, wb, wp⟩ := netWildcardStage_facts (netSpaceStage o st4) si sb sp
  exact ⟨wi, wr.trans sr, wb, wp⟩

theorem tailAnchors_facts (o : Oracles) (st4 : PState) (inv : SliceInv st4)
    (heq : st4.patternRightAnchorSpan.i =
      st4.patternSpan.i + st4.patternSpan.l)
    (hbw : st4.patternSpan.i + st4.patternSpan.l ≤ st4.sliceWritePtr)
    (hpred : predAt st4 st4.patternSpan.i) :
    SliceInv (netWildcardStage (netSpaceStage o
      (netRightAnchorStage (netLeftAnchorStage st4)))) ∧
    (netWildcardStage (netSpaceStage o
      (netRightAnchorStage (netLeftAnchorStage st4)))).raw = st4.raw ∧
    (netWildcardStage (netSpaceStage o
      (netRightAnchorStage (netLeftAnchorStage st4)))).patternSpan.i +
      (netWildcardStage (netSpaceStage o
        (netRightAnchorStage (netLeftAnchorStage st4)))).patternSpan.l ≤
      (netWildcardStage (netSpaceStage o
        (netRightAnchorStage (netLeftAnchorStage st4)))).sliceWritePtr ∧
    predAt (netWildcardStage (netSpaceStage o
      (netRightAnchorStage (netLeftAnchorStage st4))))
      (netWildcardStage (netSpaceStage o
        (netRightAnchorStage (netLeftAnchorStage st4)))).patternSpan.i := by
  obtain ⟨li, lr, lpra, lb, lp⟩ := netLeftAnchorStage_facts st4 inv heq hbw hpred
  obtain ⟨ri, rr, rpi, rb, rp⟩ := netRightAnchorStage_facts
    (netLeftAnchorStage st4) li lpra lb lp
  have rp' : predAt (netRightAnchorStage (netLeftAnchorStage st4))
      (netRightAnchorStage (netLeftAnchorStage st4)).patternSpan.i := by
    rw [rpi]
    exact rp
  obtain ⟨ti, tr, tb, tp⟩ := tailPlain_facts o
    (netRightAnchorStage (netLeftAnchorStage st4)) ri rb rp'
  exact ⟨ti, tr.trans (rr.trans lr), tb, tp⟩

theorem netAssume_facts (st : PState) (inv : SliceInv st)
    (hls : st.leftSpaceSpan.i = 0)
    (hcw : st.commentSpan.i ≤ st.sliceWritePtr) :
    SliceInv (netAssume st).1 ∧
    (netAssume st).1.raw = st.raw ∧
    (netAssume st).1.patternSpan.i + (netAssume st).1.patternSpan.l
      = (netAssume st).1.optionsAnchorSpan.i ∧
    (netAssume st).1.optionsAnchorSpan.i ≤ (netAssume st).1.sliceWritePtr ∧
    predAt (netAssume st).1 (netAssume st).1.patternSpan.i := by
  obtain ⟨iE, rE, cE, eE, pE⟩ := netExceptionStage_facts st inv hls hcw
  refine ⟨iE, rE, ?_, cE, ?_⟩
  · show (netExceptionStage st).2 +
      ((netExceptionStage st).1.commentSpan.i - (netExceptionStage st).2) =
      (netExceptionStage st).1.commentSpan.i
    omega
  · rcases pE with h0 | ha
    · exact Or.inl h0
    · exact Or.inr (Or.inl ha)

theorem netPostOpt_facts (st : PState) (inv : SliceInv st)
    (hls : st.leftSpaceSpan.i = 0)
    (hcw : st.commentSpan.i ≤ st.sliceWritePtr) :
    SliceInv (netPostOpt st) ∧
    (netPostOpt st).raw = st.raw ∧
    (netPostOpt st).patternSpan.i + (netPostOpt st).patternSpan.l
      = (netPostOpt st).optionsAnchorSpan.i ∧
    (netPostOpt st).optionsAnchorSpan.i ≤ (netPostOpt st).sliceWritePtr ∧
    predAt (netPostOpt st) (netPostOpt st).patternSpan.i := by
  obtain ⟨hA1, hA2, hA3, hA4, hA5⟩ := netAssume_facts st inv hls hcw
  unfold netPostOpt
  dsimp only
  by_cases hpir0 : netPIR0 st = true
  · rw [if_pos hpir0]
    exact ⟨hA1, hA2, hA3, hA4, hA5⟩
  · rw [if_neg hpir0]
    rcases netOptionsStage_facts (netAssume st).1 (netAssume st).2 hA1 hA4
        (le_of_eq (rfl : (netAssume st).1.patternSpan.i = (netAssume st).2)) with
      hid | hfacts
    · rw [hid]
      exact ⟨hA1, hA2, hA3, hA4, hA5⟩
    · obtain ⟨oi, orw, opi, oeq, ooa, oagree⟩ := hfacts
      refine ⟨oi, orw.trans hA2, oeq, ooa, ?_⟩
      rw [opi]
      exact predAt_transfer (netAssume st).1 _ _ oagree hA5

/-- The anchor-span assumption step of `analyzeNet` (source lines 430-433):
    both anchors are presumed present at the pattern edges. -/
def anchorAssume (st3 : PState) : PState :=
  { st3 with
    patternLeftAnchorSpan := { st3.patternLeftAnchorSpan with i := st3.patternSpan.i }
    patternRightAnchorSpan := { st3.patternRightAnchorSpan with i := st3.optionsAnchorSpan.i } }

/-- The final category write of `analyzeNet` (source line 604). -/
def setNetCat (X : PState) : PState := { X with category := CATStaticNetFilter }

theorem setNetCat_raw (X : PState) : (setNetCat X).raw = X.raw := rfl

theorem setNetCat_patternSpan (X : PState) :
    (setNetCat X).patternSpan = X.patternSpan := rfl

theorem setNetCat_wptr (X : PState) :
    (setNetCat X).sliceWritePtr = X.sliceWritePtr := rfl

theorem SliceInv_setNetCat (X : PState) :
    SliceInv (setNetCat X) = SliceInv X := rfl

theorem predAt_setNetCat (X : PState) (p : Nat) :
    predAt (setNetCat X) p = predAt X p := rfl

/-- The tail of `analyzeNet` from the regex decision onward (source lines
    423-605): the NetRegex flavor, the assumed anchor spans, the two anchor
    stages (skipped for a regex pattern), the space and wildcard stages and
    the final category. -/
def netTail (o : Oracles) (st2 : PState) (pir : Bool) : PState :=
  let st3 := if pir then addFlavor st2 BITFlavorNetRegex else st2
  let st4 := anchorAssume st3
  let st5 := if pir then st4 else netRightAnchorStage (netLeftAnchorStage st4)
  setNetCat (netWildcardStage (netSpaceStage o st5))

theorem analyzeNet_eq_netTail (o : Oracles) (st : PState) :
    analyzeNet o st = netTail o (netPostOpt st) (netPIR st) := rfl

theorem anchorAssume_facts (st3 : PState) (inv : SliceInv st3)
    (heq : st3.patternSpan.i + st3.patternSpan.l = st3.optionsAnchorSpan.i)
    (hoa : st3.optionsAnchorSpan.i ≤ st3.sliceWritePtr)
    (hpred : predAt st3 st3.patternSpan.i) :
    SliceInv (anchorAssume st3) ∧
    (anchorAssume st3).raw = st3.raw ∧
    (anchorAssume st3).patternRightAnchorSpan.i =
      (anchorAssume st3).patternSpan.i + (anchorAssume st3).patternSpan.l ∧
    (anchorAssume st3).patternSpan.i + (anchorAssume st3).patternSpan.l ≤
      (anchorAssume st3).sliceWritePtr ∧
    predAt (anchorAssume st3) (anchorAssume st3).patternSpan.i := by
  refine ⟨inv, rfl, ?_, ?_, hpred⟩
  · show st3.optionsAnchorSpan.i = st3.patternSpan.i + st3.patternSpan.l
    omega
  · show st3.patternSpan.i + st3.patternSpan.l ≤ st3.sliceWritePtr
    omega

theorem netTail_facts (o : Oracles) (stp : PState) (b : Bool)
    (inv : SliceInv stp)
    (heq : stp.patternSpan.i + stp.patternSpan.l = stp.optionsAnchorSpan.i)
    (hoa : stp.optionsAnchorSpan.i ≤ stp.sliceWritePtr)
    (hpred : predAt stp stp.patternSpan.i) :
    SliceInv (netTail o stp b) ∧
    (netTail o stp b).raw = stp.raw ∧
    (netTail o stp b).patternSpan.i + (netTail o stp b).patternSpan.l ≤
      (netTail o stp b).sliceWritePtr ∧
    predAt (netTail o stp b) (netTail o stp b).patternSpan.i := by
  unfold netTail
  dsimp only
  simp only [SliceInv_setNetCat, setNetCat_raw, setNetCat_patternSpan,
    setNetCat_wptr, predAt_setNetCat]
  by_cases hb : b = true
  · rw [if_pos hb, if_pos hb]
    have invF : SliceInv (addFlavor stp BITFlavorNetRegex) := inv
    have heqF : (addFlavor stp BITFlavorNetRegex).patternSpan.i +
        (addFlavor stp BITFlavorNetRegex).patternSpan.l =
        (addFlavor stp BITFlavorNetRegex).optionsAnchorSpan.i := heq
    have hoaF : (addFlavor stp BITFlavorNetRegex).optionsAnchorSpan.i ≤
        (addFlavor stp BITFlavorNetRegex).sliceWritePtr := hoa
    have hpredF : predAt (addFlavor stp BITFlavorNetRegex)
        (addFlavor stp BITFlavorNetRegex).patternSpan.i := hpred
    obtain ⟨a1, a2, a3, a4, a5⟩ :=
      anchorAssume_facts (addFlavor stp BITFlavorNetRegex) invF heqF hoaF hpredF
    obtain ⟨t1, t2, t3, t4⟩ := tailPlain_facts o
      (anchorAssume (addFlavor stp BITFlavorNetRegex)) a1 a4 a5
    refine ⟨t1, ?_, t3, t4⟩
    exact t2.trans a2
  · rw [if_neg hb, if_neg hb]
    obtain ⟨a1, a2, a3, a4, a5⟩ := anchorAssume_facts stp inv heq hoa hpred
    obtain ⟨t1, t2, t3, t4⟩ := tailAnchors_facts o (anchorAssume stp) a1 a3 a4 a5
    exact ⟨t1, t2.trans a2, t3, t4⟩

theorem analyzeNet_facts (o : Oracles) (st : PState) (inv : SliceInv st)
    (hls : st.leftSpaceSpan.i = 0)
    (hcw : st.commentSpan.i ≤ st.sliceWritePtr) :
    SliceInv (analyzeNet o st) ∧
    (analyzeNet o st).raw = st.raw ∧
    (analyzeNet o st).patternSpan.i + (analyzeNet o st).patternSpan.l ≤
      (analyzeNet o st).sliceWritePtr ∧
    predAt (analyzeNet o st) (analyzeNet o st).patternSpan.i := by
  obtain ⟨hP1, hP2, hP3, hP4, hP5⟩ := netPostOpt_facts st inv hls hcw
  rw [analyzeNet_eq_netTail]
  obtain ⟨t1, t2, t3, t4⟩ :=
    netTail_facts o (netPostOpt st) (netPIR st) hP1 hP3 hP4 hP5
  exact ⟨t1, t2.trans hP2, t3, t4⟩

theorem sliceFn_raw (st0 : PState) (raw : List Nat) :
    (sliceFn st0 raw).raw = raw := by
  unfold sliceFn
  split <;> rfl

theorem sliceFn_category (st0 : PState) (raw : List Nat) :
    (sliceFn st0 raw).category = CATNone := by
  unfold sliceFn
  split <;> rfl

theorem sliceFn_leftSpace (st0 : PState) (raw : List Nat) :
    (sliceFn st0 raw).leftSpaceSpan.i = 0 := by
  unfold sliceFn
  split <;> rfl

theorem sliceFn_rsi (st0 : PState) (raw : List Nat) :
    (sliceFn st0 raw).rightSpaceSpan.i ≤ (sliceFn st0 raw).sliceWritePtr := by
  unfold sliceFn
  dsimp only
  split
  · exact Nat.le_refl 0
  · dsimp only
    split
    · dsimp only
      omega
    · dsimp only
      omega

theorem findFirstMatchAux_lt (st : PState) (bits : Nat) :
    ∀ (fuel j h : Nat), findFirstMatchAux st bits fuel j = some h →
      h < st.sliceWritePtr := by
  intro fuel
  induction fuel with
  | zero =>
    intro j h heq
    exact Option.noConfusion heq
  | succ n ih =>
    intro j h heq
    unfold findFirstMatchAux at heq
    by_cases h1 : j < st.sliceWritePtr
    · rw [if_pos h1] at heq
      by_cases h2 : hasBitsB (sliceAt st j).bits bits = true
      · rw [if_pos h2] at heq
        have hj := Option.some.inj heq
        omega
      · rw [if_neg h2] at heq
        exact ih (j + 1) h heq
    · rw [if_neg h1] at heq
      exact Option.noConfusion heq

theorem findFirstMatch_lt (st : PState) (frm bits h : Nat)
    (he : findFirstMatch st frm bits = some h) : h < st.sliceWritePtr :=
  findFirstMatchAux_lt st bits (st.sliceWritePtr + 1) frm h he

theorem inlineCommentLoop_facts (st : PState) :
    ∀ (fuel h : Nat), h < st.sliceWritePtr →
    (inlineCommentLoop st fuel h).slices = st.slices ∧
    (inlineCommentLoop st fuel h).sliceWritePtr = st.sliceWritePtr ∧
    (inlineCommentLoop st fuel h).raw = st.raw ∧
    (inlineCommentLoop st fuel h).leftSpaceSpan = st.leftSpaceSpan ∧
    (st.commentSpan.i ≤ st.sliceWritePtr →
      (inlineCommentLoop st fuel h).commentSpan.i ≤ st.sliceWritePtr) ∧
    (st.commentSpan.i < st.sliceWritePtr →
      (inlineCommentLoop st fuel h).commentSpan.i < st.sliceWritePtr) := by
  intro fuel
  induction fuel with
  | zero =>
    intro h hh
    exact ⟨rfl, rfl, rfl, rfl, fun hc => hc, fun hc => hc⟩
  | succ n ih =>
    intro h hh
    unfold inlineCommentLoop
    split
    · refine ⟨rfl, rfl, rfl, rfl, fun _ => ?_, fun _ => ?_⟩
      · dsimp only
        omega
      · dsimp only
        omega
    · split
      · exact ⟨rfl, rfl, rfl, rfl, fun hc => hc, fun hc => hc⟩
      · next h2 hfind =>
        exact ih h2 (findFirstMatch_lt st (h + 2) BITHash h2 hfind)

theorem analyzeExtPattern_category (o : Oracles) (st : PState) :
    (analyzeExtPattern o st).category = st.category := by
  unfold analyzeExtPattern
  repeat' (first | intro _ | split |
    simp [apply_ite (fun st : PState => st.category),
      apply_ite (fun p : PState × (List Nat) => p.1.category), addFlavor])

theorem analyzeExtFinish_category (o : Oracles) (st : PState)
    (frm anchorLen flavor : Nat) (setFlavor : Bool) :
    (analyzeExtFinish o st frm anchorLen flavor setFlavor).category =
      CATStaticExtFilter := by
  unfold analyzeExtFinish
  dsimp only
  rw [analyzeExtPattern_category]

theorem analyzeExt_cases (o : Oracles) (st : PState) (frm : Nat) :
    analyzeExt o st frm = st ∨
    (analyzeExt o st frm).category = CATStaticExtFilter := by
  unfold analyzeExt
  dsimp only
  repeat' (first
    | exact Or.inl rfl
    | exact Or.inr (analyzeExtFinish_category _ _ _ _ _ _)
    | split
    | intro _)

theorem inlineNet_facts (o : Oracles) (stq : PState) (hs : Nat)
    (inv : SliceInv stq) (hls : stq.leftSpaceSpan.i = 0)
    (hcw : stq.commentSpan.i ≤ stq.sliceWritePtr)
    (hh : hs < stq.sliceWritePtr) :
    SliceInv (analyzeNet o (inlineCommentLoop stq (stq.sliceWritePtr + 1) hs)) ∧
    (analyzeNet o (inlineCommentLoop stq (stq.sliceWritePtr + 1) hs)).raw
      = stq.raw ∧
    (analyzeNet o (inlineCommentLoop stq (stq.sliceWritePtr + 1) hs)).patternSpan.i +
      (analyzeNet o (inlineCommentLoop stq (stq.sliceWritePtr + 1) hs)).patternSpan.l ≤
      (analyzeNet o (inlineCommentLoop stq (stq.sliceWritePtr + 1) hs)).sliceWritePtr ∧
    predAt (analyzeNet o (inlineCommentLoop stq (stq.sliceWritePtr + 1) hs))
      (analyzeNet o (inlineCommentLoop stq (stq.sliceWritePtr + 1) hs)).patternSpan.i := by
  obtain ⟨c1, c2, c3, c4, c5, c6⟩ :=
    inlineCommentLoop_facts stq (stq.sliceWritePtr + 1) hs hh
  have hinvR : SliceInv (inlineCommentLoop stq (stq.sliceWritePtr + 1) hs) := by
    show BufInv (inlineCommentLoop stq (stq.sliceWritePtr + 1) hs).raw
      (inlineCommentLoop stq (stq.sliceWritePtr + 1) hs).sliceWritePtr
      (inlineCommentLoop stq (stq.sliceWritePtr + 1) hs).slices
    rw [c1, c2, c3]
    exact inv
  have hlsR : (inlineCommentLoop stq (stq.sliceWritePtr + 1) hs).leftSpaceSpan.i
      = 0 := by
    rw [c4]
    exact hls
  have hcwR : (inlineCommentLoop stq (stq.sliceWritePtr + 1) hs).commentSpan.i ≤
      (inlineCommentLoop stq (stq.sliceWritePtr + 1) hs).sliceWritePtr := by
    rw [c2]
    exact c5 hcw
  obtain ⟨n1, n2, n3, n4⟩ := analyzeNet_facts o
    (inlineCommentLoop stq (stq.sliceWritePtr + 1) hs) hinvR hlsR hcwR
  exact ⟨n1, n2.trans c3, n3, n4⟩

theorem analyze_net_entry (o : Oracles) (st0 : PState) (raw : List Nat) :
    (analyze o st0 raw).category = CATStaticNetFilter →
    SliceInv (analyze o st0 raw) ∧
    (analyze o st0 raw).raw = raw ∧
    (analyze o st0 raw).patternSpan.i + (analyze o st0 raw).patternSpan.l ≤
      (analyze o st0 raw).sliceWritePtr ∧
    predAt (analyze o st0 raw) (analyze o st0 raw).patternSpan.i := by
  have hCAT := sliceFn_category st0 raw
  have hinvC : SliceInv (commentAssume (sliceFn st0 raw)) :=
    sliceFn_SliceInv st0 raw
  have hlsC : (commentAssume (sliceFn st0 raw)).leftSpaceSpan.i = 0 :=
    sliceFn_leftSpace st0 raw
  have hcwC : (commentAssume (sliceFn st0 raw)).commentSpan.i ≤
      (commentAssume (sliceFn st0 raw)).sliceWritePtr :=
    sliceFn_rsi st0 raw
  have hrwC : (commentAssume (sliceFn st0 raw)).raw = raw :=
    sliceFn_raw st0 raw
  unfold analyze
  dsimp only
  split
  · intro hcat
    exact absurd (hCAT.symm.trans hcat) (by decide)
  · split
    · split
      · split
        · next hext =>
          intro hcat
          exact absurd (hext.symm.trans hcat) (by decide)
        · intro hcat
          dsimp only at hcat
          exact absurd hcat (by decide)
      · intro hcat
        dsimp only at hcat
        exact absurd hcat (by decide)
    · split
      · -- no `#` anywhere: straight to analyzeNet
        intro _
        obtain ⟨n1, n2, n3, n4⟩ := analyzeNet_facts o
          (commentAssume (sliceFn st0 raw)) hinvC hlsC hcwC
        exact ⟨n1, n2.trans hrwC, n3, n4⟩
      · next hashSlot hsome =>
        split
        · next hext =>
          intro hcat
          exact absurd (hext.symm.trans hcat) (by decide)
        · next hnext =>
          intro _
          rcases analyzeExt_cases o (commentAssume (sliceFn st0 raw))
            hashSlot with hid | hext
          · rw [hid]
            split
            · -- inline-comment search before analyzeNet
              have hfind : findFirstMatch (commentAssume (sliceFn st0 raw))
                  (sliceFn st0 raw).leftSpaceSpan.l BITHash
                  = some hashSlot := by
                split at hsome
                · exact hsome
                · exact Option.noConfusion hsome
              have hlt := findFirstMatch_lt _ _ _ _ hfind
              obtain ⟨n1, n2, n3, n4⟩ := inlineNet_facts o
                (commentAssume (sliceFn st0 raw))
                hashSlot hinvC hlsC hcwC hlt
              exact ⟨n1, n2.trans hrwC, n3, n4⟩
            · obtain ⟨n1, n2, n3, n4⟩ := analyzeNet_facts o
                (commentAssume (sliceFn st0 raw)) hinvC hlsC hcwC
              exact ⟨n1, n2.trans hrwC, n3, n4⟩
          · exact absurd hext hnext

/-- The pattern span ends strictly before the write pointer, so the slice
    just past any token run is a written slice (in the JS buffer,
    `slices[sr+1]` is a live cell). -/
def TokB (st : PState) : Prop :=
  st.patternSpan.i + st.patternSpan.l < st.sliceWritePtr

theorem netExceptionStage_cw (st : PState)
    (h : st.commentSpan.i < st.sliceWritePtr) :
    (netExceptionStage st).1.commentSpan.i <
      (netExceptionStage st).1.sliceWritePtr := by
  unfold netExceptionStage
  dsimp only
  split
  · split
    · split
      · show (spanShift st.commentSpan st.leftSpaceSpan.i).i <
          st.sliceWritePtr + 1
        unfold spanShift
        split
        · dsimp only
          omega
        · omega
      · exact h
    · exact h
  · exact h

theorem netAssume_TokB (st : PState) (inv : SliceInv st)
    (hls : st.leftSpaceSpan.i = 0)
    (hcw : st.commentSpan.i < st.sliceWritePtr) :
    TokB (netAssume st).1 := by
  obtain ⟨iE, rE, cE, eE, pE⟩ :=
    netExceptionStage_facts st inv hls (Nat.le_of_lt hcw)
  have hcw' := netExceptionStage_cw st hcw
  show (netExceptionStage st).2 +
    ((netExceptionStage st).1.commentSpan.i - (netExceptionStage st).2) <
    (netExceptionStage st).1.sliceWritePtr
  omega

theorem netOptionsStage_TokB (st : PState) (islice : Nat)
    (hoa : st.optionsAnchorSpan.i ≤ st.sliceWritePtr)
    (hpi : st.patternSpan.i ≤ islice) :
    netOptionsStage st islice = st ∨ TokB (netOptionsStage st islice) := by
  unfold netOptionsStage
  dsimp only
  split
  · exact Or.inl rfl
  · next i hscan =>
    have hsome := optScanLoop_some st islice st.optionsAnchorSpan.i 0 i hscan
    refine Or.inr ?_
    split
    · next hl1 =>
      split
      · next hodd =>
        split
        · next hint =>
          show (markSlices (addFlavor st BITFlavorError) i (i + 1)
              BITError).patternSpan.i +
            (i - (markSlices (addFlavor st BITFlavorError) i (i + 1)
              BITError).patternSpan.i) <
            (markSlices (addFlavor st BITFlavorError) i (i + 1)
              BITError).sliceWritePtr
          dsimp only [markSlices, addFlavor]
          omega
        · next hint =>
          show (addFlavor st BITFlavorError).patternSpan.i +
            (i - (addFlavor st BITFlavorError).patternSpan.i) <
            (addFlavor st BITFlavorError).sliceWritePtr
          dsimp only [addFlavor]
          omega
      · next hodd =>
        show (splitSlot st i ((sliceAt st i).len - 1)).patternSpan.i +
          (i + 1 - (splitSlot st i ((sliceAt st i).len - 1)).patternSpan.i) <
          (splitSlot st i ((sliceAt st i).len - 1)).sliceWritePtr
        dsimp only [splitSlot]
        unfold spanShift
        split
        · dsimp only
          omega
        · omega
    · next hl1 =>
      show st.patternSpan.i + (i - st.patternSpan.i) < st.sliceWritePtr
      omega

theorem netPostOpt_TokB (st : PState) (inv : SliceInv st)
    (hls : st.leftSpaceSpan.i = 0)
    (hcw : st.commentSpan.i < st.sliceWritePtr) :
    TokB (netPostOpt st) := by
  have hTI := netAssume_TokB st inv hls hcw
  obtain ⟨hA1, hA2, hA3, hA4, hA5⟩ :=
    netAssume_facts st inv hls (Nat.le_of_lt hcw)
  unfold netPostOpt
  dsimp only
  by_cases hpir0 : netPIR0 st = true
  · rw [if_pos hpir0]
    exact hTI
  · rw [if_neg hpir0]
    rcases netOptionsStage_TokB (netAssume st).1 (netAssume st).2 hA4
        (le_of_eq (rfl : (netAssume st).1.patternSpan.i = (netAssume st).2)) with
      hid | hti
    · rw [hid]
      exact hTI
    · exact hti

theorem netLeftAnchorStage_TokB (st : PState) (h : TokB st) :
    TokB (netLeftAnchorStage st) := by
  have h' : st.patternSpan.i + st.patternSpan.l < st.sliceWritePtr := h
  unfold netLeftAnchorStage
  dsimp only
  split
  · next hg =>
    have hl0 : st.patternSpan.l ≠ 0 := hg.1
    split
    · show (spanShift st.patternSpan st.patternSpan.i).i + 1 +
        (spanShift st.patternSpan st.patternSpan.i).l <
        st.sliceWritePtr + 1
      unfold spanShift
      split
      · dsimp only
        omega
      · omega
    · show st.patternSpan.i + 1 + (st.patternSpan.l - 1) < st.sliceWritePtr
      omega
  · exact h

theorem netRightAnchorStage_TokB (st : PState) (h : TokB st) :
    TokB (netRightAnchorStage st) := by
  have h' : st.patternSpan.i + st.patternSpan.l < st.sliceWritePtr := h
  unfold netRightAnchorStage TokB
  dsimp only
  repeat' split
  all_goals (try simp only [addFlavor, splitSlot, spanShift, markSlices,
    orBitsAt, clearFlavor])
  all_goals (repeat' split)
  all_goals (try dsimp only)
  all_goals omega

theorem spaceRefine_TokB (o : Oracles) (Y : PState) (h : TokB Y) :
    TokB (spaceRefine o Y) := by
  have hp := getNetPattern_fst_patternSpan Y
  have hw := getNetPattern_fst_wptr Y
  have h' : Y.patternSpan.i + Y.patternSpan.l < Y.sliceWritePtr := h
  unfold spaceRefine TokB
  dsimp only
  split
  · split
    · dsimp only [markSlices, addFlavor]
      rw [hp, hw]
      exact h'
    · dsimp only [addFlavor]
      rw [hp, hw]
      exact h'
  · split
    · dsimp only [markSlices]
      rw [hp, hw]
      exact h'
    · rw [hp, hw]
      exact h'

theorem netSpaceStage_TokB (o : Oracles) (st : PState) (h : TokB st) :
    TokB (netSpaceStage o st) := by
  have h' : st.patternSpan.i + st.patternSpan.l < st.sliceWritePtr := h
  rw [netSpaceStage_decomp]
  dsimp only
  split
  · next hj =>
    obtain ⟨hjl, hsp⟩ := spaceScan_facts st st.patternSpan.i st.patternBits
      st.patternSpan.l _ hj
    apply spaceRefine_TokB
    show st.patternSpan.i +
        (spaceScan st st.patternSpan.i st.patternBits st.patternSpan.l).1 + 1 +
      (st.patternSpan.l -
        ((spaceScan st st.patternSpan.i st.patternBits st.patternSpan.l).1 + 1)) <
      st.sliceWritePtr
    omega
  · exact h

theorem wcLead_TokB (st : PState) (h : TokB st) : TokB (wcLead st) := by
  have h' : st.patternSpan.i + st.patternSpan.l < st.sliceWritePtr := h
  unfold wcLead
  dsimp only
  split
  · next hg =>
    have hl1 : st.patternSpan.l > 1 := hg.1
    split
    · show (orBitsAt st st.patternSpan.i BITIgnore).patternSpan.i + 1 +
        ((orBitsAt st st.patternSpan.i BITIgnore).patternSpan.l - 1) <
        (orBitsAt st st.patternSpan.i BITIgnore).sliceWritePtr
      dsimp only [orBitsAt]
      omega
    · show (orBitsAt st st.patternSpan.i BITIgnore).patternSpan.i + 1 +
        ((orBitsAt st st.patternSpan.i BITIgnore).patternSpan.l - 1) <
        (orBitsAt st st.patternSpan.i BITIgnore).sliceWritePtr
      dsimp only [orBitsAt]
      omega
  · exact h

theorem wcTrail_TokB (st : PState) (h : TokB st) : TokB (wcTrail st) := by
  have h' : st.patternSpan.i + st.patternSpan.l < st.sliceWritePtr := h
  unfold wcTrail
  dsimp only
  split
  · next hg =>
    have hl1 : st.patternSpan.l > 1 := hg.1
    split
    · split
      · show (orBitsAt st
            (st.patternSpan.i + st.patternSpan.l - 1) BITIgnore).patternSpan.i +
          ((orBitsAt st
            (st.patternSpan.i + st.patternSpan.l - 1) BITIgnore).patternSpan.l - 1) <
          (orBitsAt st
            (st.patternSpan.i + st.patternSpan.l - 1) BITIgnore).sliceWritePtr
        dsimp only [orBitsAt]
        omega
      · show (orBitsAt st
            (st.patternSpan.i + st.patternSpan.l - 1) BITIgnore).patternSpan.i +
          ((orBitsAt st
            (st.patternSpan.i + st.patternSpan.l - 1) BITIgnore).patternSpan.l - 1) <
          (orBitsAt st
            (st.patternSpan.i + st.patternSpan.l - 1) BITIgnore).sliceWritePtr
        dsimp only [orBitsAt]
        omega
    · split
      · show st.patternSpan.i + (st.patternSpan.l - 1) < st.sliceWritePtr
        omega
      · show st.patternSpan.i + (st.patternSpan.l - 1) < st.sliceWritePtr
        omega
  · exact h

theorem wcLeftPointless_TokB (st : PState) (h : TokB st) :
    TokB (wcLeftPointless st) := by
  unfold wcLeftPointless
  dsimp only
  split
  · exact h
  · exact h

theorem wcRightPointless_TokB (st : PState) (h : TokB st) :
    TokB (wcRightPointless st) := by
  unfold wcRightPointless
  dsimp only
  split
  · exact h
  · exact h

theorem netWildcardStage_TokB (st : PState) (h : TokB st) :
    TokB (netWildcardStage st) := by
  rw [netWildcardStage_decomp]
  exact wcRightPointless_TokB _ (wcLeftPointless_TokB _
    (wcTrail_TokB _ (wcLead_TokB _ h)))

theorem TokB_setNetCat (X : PState) : TokB (setNetCat X) = TokB X := rfl

theorem netTail_TokB (o : Oracles) (stp : PState) (b : Bool)
    (h : TokB stp) : TokB (netTail o stp b) := by
  unfold netTail
  dsimp only
  rw [TokB_setNetCat]
  by_cases hb : b = true
  · rw [if_pos hb, if_pos hb]
    exact netWildcardStage_TokB _ (netSpaceStage_TokB o _ h)
  · rw [if_neg hb, if_neg hb]
    exact netWildcardStage_TokB _ (netSpaceStage_TokB o _
      (netRightAnchorStage_TokB _ (netLeftAnchorStage_TokB _ h)))

theorem analyzeNet_TokB (o : Oracles) (st : PState) (inv : SliceInv st)
    (hls : st.leftSpaceSpan.i = 0)
    (hcw : st.commentSpan.i < st.sliceWritePtr) :
    TokB (analyzeNet o st) := by
  rw [analyzeNet_eq_netTail]
  exact netTail_TokB o (netPostOpt st) (netPIR st)
    (netPostOpt_TokB st inv hls hcw)

theorem sliceFn_empty_eq (st0 : PState) (raw : List Nat)
    (h : raw.length = 0) :
    (sliceFn st0 raw).leftSpaceSpan.l = (sliceFn st0 raw).rightSpaceSpan.i := by
  unfold sliceFn
  rw [if_pos h]
  rfl

theorem sliceFn_rsi_strict (st0 : PState) (raw : List Nat)
    (h : raw.length ≠ 0) :
    (sliceFn st0 raw).rightSpaceSpan.i < (sliceFn st0 raw).sliceWritePtr := by
  have hpos : 1 ≤ (sliceList raw).length :=
    sliceList_length_pos raw (fun he => h (by rw [he]; rfl))
  unfold sliceFn
  dsimp only
  rw [if_neg h]
  dsimp only
  split
  · dsimp only
    omega
  · dsimp only
    omega

theorem inlineNet_TokB (o : Oracles) (stq : PState) (hs : Nat)
    (inv : SliceInv stq) (hls : stq.leftSpaceSpan.i = 0)
    (hcw : stq.commentSpan.i < stq.sliceWritePtr)
    (hh : hs < stq.sliceWritePtr) :
    TokB (analyzeNet o (inlineCommentLoop stq (stq.sliceWritePtr + 1) hs)) := by
  obtain ⟨c1, c2, c3, c4, c5, c6⟩ :=
    inlineCommentLoop_facts stq (stq.sliceWritePtr + 1) hs hh
  apply analyzeNet_TokB
  · show BufInv (inlineCommentLoop stq (stq.sliceWritePtr + 1) hs).raw
      (inlineCommentLoop stq (stq.sliceWritePtr + 1) hs).sliceWritePtr
      (inlineCommentLoop stq (stq.sliceWritePtr + 1) hs).slices
    rw [c1, c2, c3]
    exact inv
  · rw [c4]
    exact hls
  · rw [c2]
    exact c6 hcw

theorem analyze_net_TokB (o : Oracles) (st0 : PState) (raw : List Nat) :
    (analyze o st0 raw).category = CATStaticNetFilter →
    TokB (analyze o st0 raw) := by
  have hCAT := sliceFn_category st0 raw
  have hinvC : SliceInv (commentAssume (sliceFn st0 raw)) :=
    sliceFn_SliceInv st0 raw
  have hlsC : (commentAssume (sliceFn st0 raw)).leftSpaceSpan.i = 0 :=
    sliceFn_leftSpace st0 raw
  unfold analyze
  dsimp only
  split
  · intro hcat
    exact absurd (hCAT.symm.trans hcat) (by decide)
  · next hco =>
    have hne : raw.length ≠ 0 := fun h0 => hco (sliceFn_empty_eq st0 raw h0)
    have hcwS : (commentAssume (sliceFn st0 raw)).commentSpan.i <
        (commentAssume (sliceFn st0 raw)).sliceWritePtr :=
      sliceFn_rsi_strict st0 raw hne
    split
    · split
      · split
        · next hext =>
          intro hcat
          exact absurd (hext.symm.trans hcat) (by decide)
        · intro hcat
          dsimp only at hcat
          exact absurd hcat (by decide)
      · intro hcat
        dsimp only at hcat
        exact absurd hcat (by decide)
    · split
      · intro _
        exact analyzeNet_TokB o (commentAssume (sliceFn st0 raw))
          hinvC hlsC hcwS
      · next hashSlot hsome =>
        split
        · next hext =>
          intro hcat
          exact absurd (hext.symm.trans hcat) (by decide)
        · next hnext =>
          intro _
          rcases analyzeExt_cases o (commentAssume (sliceFn st0 raw))
            hashSlot with hid | hext
          · rw [hid]
            split
            · have hfind : findFirstMatch (commentAssume (sliceFn st0 raw))
                  (sliceFn st0 raw).leftSpaceSpan.l BITHash
                  = some hashSlot := by
                split at hsome
                · exact hsome
                · exact Option.noConfusion hsome
              exact inlineNet_TokB o (commentAssume (sliceFn st0 raw))
                hashSlot hinvC hlsC hcwS (findFirstMatch_lt _ _ _ _ hfind)
            · exact analyzeNet_TokB o (commentAssume (sliceFn st0 raw))
                hinvC hlsC hcwS
          · exact absurd hext hnext

theorem extendRun_ge (st : PState) (r : Nat) :
    ∀ (fuel s : Nat), s ≤ extendRun st r fuel s := by
  intro fuel
  induction fuel with
  | zero => intro s; exact Nat.le_refl s
  | succ n ih =>
    intro s
    unfold extendRun
    split
    · exact Nat.le_trans (by omega) (ih (s + 1))
    · exact Nat.le_refl s

theorem extendRun_le (st : PState) (r : Nat) :
    ∀ (fuel s : Nat), s ≤ r → extendRun st r fuel s ≤ r := by
  intro fuel
  induction fuel with
  | zero => intro s hs; exact hs
  | succ n ih =>
    intro s hs
    unfold extendRun
    split
    · next hcond => exact ih (s + 1) (by omega)
    · exact hs

theorem extendRun_PT (st : PState) (r : Nat) :
    ∀ (fuel s k : Nat), s ≤ k → k < extendRun st r fuel s →
      hasBitsB (sliceAt st k).bits BITPatternToken = true := by
  intro fuel
  induction fuel with
  | zero =>
    intro s k hk1 hk2
    rw [show extendRun st r 0 s = s from rfl] at hk2
    omega
  | succ n ih =>
    intro s k hk1 hk2
    unfold extendRun at hk2
    split at hk2
    · next hcond =>
      by_cases hks : k = s
      · subst hks
        exact hcond.2
      · exact ih (s + 1) k (by omega) hk2
    · omega

/-- The token-producing loop as the SPEC describes it: identical to
    `tokensAux` except that the left acceptance condition reads
    "`sl` is at pattern start" (`sl = l`) where the code reads `sl === 0`
    (slot 0 of the slice buffer). -/
def claimTokensAux (st : PState) (l r : Nat) : Nat → Nat → List (List Nat × Nat)
  | 0, _ => []
  | fuel + 1, sl =>
    if sl ≥ r then []
    else if ¬ hasBitsB (sliceAt st sl).bits BITPatternToken then
      claimTokensAux st l r fuel (sl + 1)
    else
      let sr := extendRun st r (r + 1) (sl + 1)
      if (sl = l ∨ hasNoBitsB (sliceAt st (sl - 1)).bits BITAsterisk) ∧
         (sr = r ∨ hasNoBitsB (sliceAt st sr).bits BITAsterisk ∨
          (sliceAt st sr).origin - (sliceAt st sl).origin ≥ st.maxTokenLength)
      then
        let beg := (sliceAt st sl).origin
        (rawSlice st.raw beg (sliceAt st sr).origin, beg - (sliceAt st l).origin)
          :: claimTokensAux st l r fuel (sr + 1)
      else claimTokensAux st l r fuel (sr + 1)

/-- `patternTokens()` as the spec describes it. -/
def claimPatternTokens (st : PState) : List (List Nat × Nat) :=
  if st.category = CATStaticNetFilter then
    if st.patternSpan.l = 0 then []
    else claimTokensAux st st.patternSpan.i (st.patternSpan.i + st.patternSpan.l)
      (st.patternSpan.i + st.patternSpan.l + 1) st.patternSpan.i
  else []

theorem tokensAux_eq_claim (st : PState) (l r : Nat) (hpred : predAt st l) :
    ∀ (fuel sl : Nat), l ≤ sl →
      tokensAux st l r fuel sl = claimTokensAux st l r fuel sl := by
  intro fuel
  induction fuel with
  | zero => intro sl _; rfl
  | succ n ih =>
    intro sl hsl
    unfold tokensAux claimTokensAux
    by_cases h1 : sl ≥ r
    · rw [if_pos h1, if_pos h1]
    · rw [if_neg h1, if_neg h1]
      by_cases h2 : hasBitsB (sliceAt st sl).bits BITPatternToken = true
      · have h2' : ¬¬(hasBitsB (sliceAt st sl).bits BITPatternToken = true) :=
          not_not_intro h2
        rw [if_neg h2', if_neg h2']
        dsimp only
        have hleft : (sl = 0 ∨
            hasNoBitsB (sliceAt st (sl - 1)).bits BITAsterisk = true) ↔
            (sl = l ∨
            hasNoBitsB (sliceAt st (sl - 1)).bits BITAsterisk = true) := by
          constructor
          · rintro (h0 | ha)
            · exact Or.inl (by omega)
            · exact Or.inr ha
          · rintro (hL | ha)
            · subst hL
              rcases hpred with hp0 | hpA | hpT
              · exact Or.inl hp0
              · exact Or.inr (beq_iff_eq.mpr hpA)
              · exact absurd hpT (bne_iff_ne.mp h2)
            · exact Or.inr ha
        have hge := extendRun_ge st r (r + 1) (sl + 1)
        by_cases hc : (sl = l ∨
            hasNoBitsB (sliceAt st (sl - 1)).bits BITAsterisk = true) ∧
            (extendRun st r (r + 1) (sl + 1) = r ∨
             hasNoBitsB (sliceAt st (extendRun st r (r + 1) (sl + 1))).bits
               BITAsterisk = true ∨
             (sliceAt st (extendRun st r (r + 1) (sl + 1))).origin -
               (sliceAt st sl).origin ≥ st.maxTokenLength)
        · rw [if_pos (⟨hleft.mpr hc.1, hc.2⟩ :
              (sl = 0 ∨ hasNoBitsB (sliceAt st (sl - 1)).bits BITAsterisk = true) ∧ _),
            if_pos hc]
          exact congrArg _ (ih _ (by omega))
        · rw [if_neg (fun hcode => hc ⟨hleft.mp hcode.1, hcode.2⟩), if_neg hc]
          exact ih _ (by omega)
      · rw [if_pos h2, if_pos h2]
        exact ih (sl + 1) (by omega)

theorem patternTokens_eq_claim (st : PState)
    (hpred : predAt st st.patternSpan.i) :
    patternTokens st = claimPatternTokens st := by
  unfold patternTokens claimPatternTokens
  split
  · split
    · rfl
    · exact tokensAux_eq_claim st st.patternSpan.i _ hpred _ _ (Nat.le_refl _)
  · rfl

theorem getDN_take_lt (L : List Nat) (n k : Nat) (h : k < n) :
    (L.take n).getD k 0 = L.getD k 0 := by
  rw [List.getD_eq_getElem?_getD, List.getD_eq_getElem?_getD,
    List.getElem?_take, if_pos h]

theorem getDN_drop_add (L : List Nat) (m n : Nat) :
    (L.drop m).getD n 0 = L.getD (m + n) 0 := by
  rw [List.getD_eq_getElem?_getD, List.getD_eq_getElem?_getD,
    List.getElem?_drop]

theorem rawSlice_getD (raw : List Nat) (a b m : Nat) (h : m < b - a) :
    (rawSlice raw a b).getD m 0 = raw.getD (a + m) 0 := by
  unfold rawSlice
  rw [getDN_take_lt _ _ _ h, getDN_drop_add]

theorem rawSlice_length_le (raw : List Nat) (a b : Nat) :
    (rawSlice raw a b).length ≤ b - a := by
  unfold rawSlice
  rw [List.length_take]
  exact min_le_left _ _

/-- Every raw byte lying under a window `[sl, sl + n)` of written
    PATTERN_TOKEN slices is a PATTERN_TOKEN-class byte. -/
theorem runPure (st : PState) (inv : SliceInv st) :
    ∀ (n sl j : Nat), sl + n < st.sliceWritePtr →
      (∀ k, sl ≤ k → k < sl + n →
        hasBitsB (sliceAt st k).bits BITPatternToken = true) →
      (sliceAt st sl).origin ≤ j → j < (sliceAt st (sl + n)).origin →
      classBits (st.raw.getD j 0) &&& BITPatternToken ≠ 0 := by
  intro n
  induction n with
  | zero =>
    intro sl j hw hPT hj1 hj2
    rw [Nat.add_zero] at hj2
    omega
  | succ n ih =>
    intro sl j hw hPT hj1 hj2
    have hadj : (sliceAt st (sl + 1)).origin =
        (sliceAt st sl).origin + (sliceAt st sl).len :=
      inv.cont sl (by omega)
    by_cases hcase : j < (sliceAt st sl).origin + (sliceAt st sl).len
    · have hcov : covOK st.raw (sliceAt st sl) := inv.pure sl (by omega)
      have hjlen : j - (sliceAt st sl).origin < (sliceAt st sl).len := by omega
      have hcls := hcov.1 (j - (sliceAt st sl).origin) hjlen
      have hjj : (sliceAt st sl).origin + (j - (sliceAt st sl).origin) = j := by
        omega
      rw [hjj] at hcls
      rw [hcls]
      have hb : (sliceAt st sl).bits &&& CLASSMASK &&& BITPatternToken
          = (sliceAt st sl).bits &&& BITPatternToken := by
        rw [Nat.and_assoc,
          show CLASSMASK &&& BITPatternToken = BITPatternToken from by decide]
      rw [hb]
      exact bne_iff_ne.mp (hPT sl (Nat.le_refl sl) (by omega))
    · have hstep : sl + 1 + n = sl + (n + 1) := by omega
      refine ih (sl + 1) j (by omega) ?_ (by omega) ?_
      · intro k hk1 hk2
        exact hPT k (by omega) (by omega)
      · rw [hstep]
        exact hj2

theorem tokensAux_pure (st : PState) (inv : SliceInv st) (l r : Nat)
    (hr : r < st.sliceWritePtr) :
    ∀ (fuel sl : Nat), ∀ tp ∈ tokensAux st l r fuel sl, ∀ c ∈ tp.1,
      classBits c &&& BITPatternToken ≠ 0 := by
  intro fuel
  induction fuel with
  | zero =>
    intro sl tp htp
    exact absurd htp (List.not_mem_nil tp)
  | succ n ih =>
    intro sl tp htp
    unfold tokensAux at htp
    split at htp
    · exact absurd htp (List.not_mem_nil tp)
    · next h1 =>
      split at htp
      · exact ih (sl + 1) tp htp
      · next h2 =>
        dsimp only at htp
        split at htp
        · next hacc =>
          rcases List.mem_cons.mp htp with heq | hrest
          · subst heq
            intro c hc
            dsimp only at hc
            have hPTsl : hasBitsB (sliceAt st sl).bits BITPatternToken = true :=
              not_not.mp h2
            have hsl1r : sl + 1 ≤ r := by omega
            have hle := extendRun_le st r (r + 1) (sl + 1) hsl1r
            have hge := extendRun_ge st r (r + 1) (sl + 1)
            obtain ⟨m, hm, hcm⟩ := List.mem_iff_getElem.mp hc
            have hmlt : m < (sliceAt st (extendRun st r (r + 1) (sl + 1))).origin -
                (sliceAt st sl).origin :=
              Nat.lt_of_lt_of_le hm (rawSlice_length_le _ _ _)
            have hcd : c = st.raw.getD ((sliceAt st sl).origin + m) 0 := by
              rw [← rawSlice_getD st.raw (sliceAt st sl).origin
                (sliceAt st (extendRun st r (r + 1) (sl + 1))).origin m hmlt,
                List.getD_eq_getElem _ _ hm]
              exact hcm.symm
            rw [hcd]
            have hsum : sl + (extendRun st r (r + 1) (sl + 1) - sl) =
                extendRun st r (r + 1) (sl + 1) := by omega
            refine runPure st inv (extendRun st r (r + 1) (sl + 1) - sl) sl
              ((sliceAt st sl).origin + m) (by omega) ?_ (by omega) ?_
            · intro k hk1 hk2
              rw [hsum] at hk2
              by_cases hks : k = sl
              · subst hks
                exact hPTsl
              · exact extendRun_PT st r (r + 1) (sl + 1) k (by omega) hk2
            · rw [hsum]
              omega
          · exact ih _ tp hrest
        · exact ih _ tp htp

/-- **C8.** For every analyzed line (in particular every network-filter
    pattern), `patternTokens()` yields exactly the token runs accepted by
    the spec's conditions — maximal PATTERN_TOKEN runs `[sl, sr)` whose
    predecessor carries no ASTERISK bit or whose start is at the pattern
    start, and whose successor carries no ASTERISK bit, or whose byte
    length reaches `maxTokenLength`, or whose end is at the pattern end
    (`claimPatternTokens`, identical to the code's iterator except that
    its left condition reads `sl = patternSpan.i` where the code reads
    `sl === 0`; the two coincide on every state `analyze` produces) — and
    every yielded token is composed exclusively of PATTERN_TOKEN-class
    bytes. -/
theorem patternTokens_spec_runs_and_token_purity (o : Oracles)
    (st0 : PState) (raw : List Nat) :
    patternTokens (analyze o st0 raw) = claimPatternTokens (analyze o st0 raw) ∧
    (∀ tp ∈ patternTokens (analyze o st0 raw), ∀ c ∈ tp.1,
      classBits c &&& BITPatternToken ≠ 0) := by
  by_cases hcat : (analyze o st0 raw).category = CATStaticNetFilter
  · obtain ⟨hinv, hraw, hbw, hpred⟩ := analyze_net_entry o st0 raw hcat
    have hTok : (analyze o st0 raw).patternSpan.i +
        (analyze o st0 raw).patternSpan.l <
        (analyze o st0 raw).sliceWritePtr := analyze_net_TokB o st0 raw hcat
    refine ⟨patternTokens_eq_claim (analyze o st0 raw) hpred, ?_⟩
    intro tp htp
    unfold patternTokens at htp
    rw [if_pos hcat] at htp
    split at htp
    · exact absurd htp (List.not_mem_nil tp)
    · exact tokensAux_pure (analyze o st0 raw) hinv
        (analyze o st0 raw).patternSpan.i
        ((analyze o st0 raw).patternSpan.i + (analyze o st0 raw).patternSpan.l)
        hTok _ _ tp htp
  · constructor
    · unfold patternTokens claimPatternTokens
      rw [if_neg hcat, if_neg hcat]
    · intro tp htp
      unfold patternTokens at htp
      rw [if_neg hcat] at htp
      exact absurd htp (List.not_mem_nil tp)

/-! ### Span coverage (claim C5) -/

/-- The sum of the lengths of the ten named spans. -/
def spanLenSum (st : PState) : Nat :=
  st.leftSpaceSpan.l + st.exceptionSpan.l + st.patternLeftAnchorSpan.l +
  st.patternSpan.l + st.patternRightAnchorSpan.l + st.optionsAnchorSpan.l +
  st.optionsSpan.l + st.commentSpan.l + st.rightSpaceSpan.l + st.eolSpan.l

/-- The byte classes that trigger any non-trivial branch of the network
    analysis: whitespace, wildcard, exception `@`, options `$`, anchor `|`,
    hostname anchor `^` and the line-comment leads. -/
def SPECIALS : Nat :=
  BITSpace ||| BITAsterisk ||| BITAt ||| BITDollar ||| BITPipe |||
  BITCaret ||| BITLineComment

theorem hasBitsB_eq_false_of_special (x m : Nat)
    (hx : x &&& SPECIALS = 0) (hm : m &&& SPECIALS = m) :
    hasBitsB x m = false := by
  have hxm : x &&& m = 0 := by
    rw [← hm, Nat.and_comm m SPECIALS, ← Nat.and_assoc, hx, Nat.zero_and]
  unfold hasBitsB
  rw [hxm]
  rfl

theorem sliceScan_bound (cs : List Nat) :
    ∀ (b o l : Nat), ∀ s ∈ sliceScan b o l cs,
      s.origin + s.len ≤ o + l + cs.length := by
  induction cs with
  | nil =>
    intro b o l s hs
    rcases List.mem_singleton.mp hs with rfl
    dsimp only
    omega
  | cons c cs ih =>
    intro b o l s hs
    unfold sliceScan at hs
    dsimp only at hs
    split at hs
    · have := ih b o (l + 1) s hs
      simp only [List.length_cons]
      omega
    · rcases List.mem_cons.mp hs with rfl | htail
      · dsimp only
        simp only [List.length_cons]
        omega
      · have := ih (classBits c) (o + l) 1 s htail
        simp only [List.length_cons]
        omega

theorem sliceList_bound (raw : List Nat) :
    ∀ s ∈ sliceList raw, s.origin + s.len ≤ raw.length := by
  intro s hs
  cases raw with
  | nil => exact absurd hs (List.not_mem_nil s)
  | cons c cs =>
    unfold sliceList at hs
    rcases List.mem_append.mp hs with hscan | hsent
    · have := sliceScan_bound cs (classBits c) 0 1 s hscan
      simp only [List.length_cons]
      omega
    · rcases List.mem_singleton.mp hsent with rfl
      simp

theorem getDN_mem (L : List Nat) (k : Nat) (h : k < L.length) :
    L.getD k 0 ∈ L := by
  rw [List.getD_eq_getElem _ _ h]
  exact List.getElem_mem h

theorem sliceList_special (raw : List Nat)
    (hb : ∀ c ∈ raw, classBits c &&& SPECIALS = 0) :
    ∀ s ∈ sliceList raw, s.bits &&& SPECIALS = 0 := by
  intro s hs
  have hcov := sliceList_covOK raw s hs
  have hbound := sliceList_bound raw s hs
  have hmask : SPECIALS &&& CLASSMASK = SPECIALS := by decide
  by_cases hl : s.len = 0
  · have h0 := hcov.2 hl
    calc s.bits &&& SPECIALS
        = s.bits &&& (CLASSMASK &&& SPECIALS) := by
          rw [Nat.and_comm CLASSMASK SPECIALS, hmask]
      _ = s.bits &&& CLASSMASK &&& SPECIALS := by rw [Nat.and_assoc]
      _ = 0 := by rw [h0, Nat.zero_and]
  · have h1 := hcov.1 0 (by omega)
    have hmem : raw.getD (s.origin + 0) 0 ∈ raw :=
      getDN_mem raw (s.origin + 0) (by omega)
    calc s.bits &&& SPECIALS
        = s.bits &&& (CLASSMASK &&& SPECIALS) := by
          rw [Nat.and_comm CLASSMASK SPECIALS, hmask]
      _ = s.bits &&& CLASSMASK &&& SPECIALS := by rw [Nat.and_assoc]
      _ = classBits (raw.getD (s.origin + 0) 0) &&& SPECIALS := by rw [h1]
      _ = 0 := hb _ hmem

theorem bitsUnion_and_zero (xs : List Slice) (m : Nat)
    (h : ∀ s ∈ xs, s.bits &&& m = 0) : bitsUnion xs &&& m = 0 := by
  unfold bitsUnion
  have haux : ∀ (ys : List Slice) (acc : Nat), (∀ s ∈ ys, s.bits &&& m = 0) →
      acc &&& m = 0 → (ys.foldl (fun a s => a ||| s.bits) acc) &&& m = 0 := by
    intro ys
    induction ys with
    | nil => intro acc _ hacc; exact hacc
    | cons s ys ih =>
      intro acc hys hacc
      refine ih (acc ||| s.bits) (fun t ht => hys t (List.mem_cons_of_mem s ht)) ?_
      rw [and_or_mask, hacc, hys s (List.mem_cons_self s ys), Nat.or_zero]
  exact haux xs 0 h (Nat.zero_and m)

theorem sliceFn_exceptionSpan (st0 : PState) (raw : List Nat) :
    (sliceFn st0 raw).exceptionSpan = ⟨0, 0⟩ := by
  unfold sliceFn
  split <;> rfl

theorem sliceFn_pla (st0 : PState) (raw : List Nat) :
    (sliceFn st0 raw).patternLeftAnchorSpan = ⟨0, 0⟩ := by
  unfold sliceFn
  split <;> rfl

theorem sliceFn_patternSpan (st0 : PState) (raw : List Nat) :
    (sliceFn st0 raw).patternSpan = ⟨0, 0⟩ := by
  unfold sliceFn
  split <;> rfl

theorem sliceFn_pra (st0 : PState) (raw : List Nat) :
    (sliceFn st0 raw).patternRightAnchorSpan = ⟨0, 0⟩ := by
  unfold sliceFn
  split <;> rfl

theorem sliceFn_oa (st0 : PState) (raw : List Nat) :
    (sliceFn st0 raw).optionsAnchorSpan = ⟨0, 0⟩ := by
  unfold sliceFn
  split <;> rfl

theorem sliceFn_os (st0 : PState) (raw : List Nat) :
    (sliceFn st0 raw).optionsSpan = ⟨0, 0⟩ := by
  unfold sliceFn
  split <;> rfl

theorem sliceFn_commentSpan (st0 : PState) (raw : List Nat) :
    (sliceFn st0 raw).commentSpan = ⟨0, 0⟩ := by
  unfold sliceFn
  split <;> rfl

theorem sliceFn_eolSpan (st0 : PState) (raw : List Nat) (h : raw.length ≠ 0) :
    (sliceFn st0 raw).eolSpan = ⟨(sliceList raw).length - 1, 0⟩ := by
  unfold sliceFn
  rw [if_neg h]

theorem sliceScan_length_pos (cs : List Nat) :
    ∀ (b o l : Nat), 1 ≤ (sliceScan b o l cs).length := by
  induction cs with
  | nil => intro b o l; simp [sliceScan]
  | cons c cs ih =>
    intro b o l
    unfold sliceScan
    dsimp only
    split
    · exact ih b o (l + 1)
    · simp only [List.length_cons]
      omega

theorem sliceList_length_ge_two (raw : List Nat) (h : raw.length ≠ 0) :
    2 ≤ (sliceList raw).length := by
  cases raw with
  | nil => exact absurd rfl h
  | cons c cs =>
    unfold sliceList
    rw [List.length_append]
    have := sliceScan_length_pos cs (classBits c) 0 1
    simp only [List.length_singleton]
    omega

theorem sliceFn_leftSpace_plain (st0 : PState) (raw : List Nat)
    (h : raw.length ≠ 0)
    (hb : ∀ c ∈ raw, classBits c &&& SPECIALS = 0) :
    (sliceFn st0 raw).leftSpaceSpan = ⟨0, 0⟩ := by
  have h0 : ((sliceList raw).getD 0 dSlice).bits &&& SPECIALS = 0 :=
    sliceList_special raw hb _
      (getD_mem _ 0 (by have := sliceList_length_ge_two raw h; omega))
  have hsb : hasBitsB ((sliceList raw).getD 0 dSlice).bits BITSpace = false :=
    hasBitsB_eq_false_of_special _ _ h0 (by decide)
  unfold sliceFn
  rw [if_neg h]
  dsimp only
  rw [if_neg (fun ht => absurd (hsb.symm.trans ht) (by decide))]

theorem sliceFn_rs_plain (st0 : PState) (raw : List Nat)
    (h : raw.length ≠ 0)
    (hb : ∀ c ∈ raw, classBits c &&& SPECIALS = 0) :
    (sliceFn st0 raw).rightSpaceSpan = ⟨(sliceList raw).length - 1, 0⟩ := by
  have h2 := sliceList_length_ge_two raw h
  have h0 : ((sliceList raw).getD ((sliceList raw).length - 1 - 1) dSlice).bits
      &&& SPECIALS = 0 :=
    sliceList_special raw hb _ (getD_mem _ _ (by omega))
  have hsb : hasBitsB ((sliceList raw).getD
      ((sliceList raw).length - 1 - 1) dSlice).bits BITSpace = false :=
    hasBitsB_eq_false_of_special _ _ h0 (by decide)
  unfold sliceFn
  rw [if_neg h]
  dsimp only
  rw [if_neg (fun hg => absurd (hsb.symm.trans hg.2) (by decide))]

theorem netExceptionStage_plain (st : PState)
    (hall : ∀ k, k < st.sliceWritePtr → (sliceAt st k).bits &&& SPECIALS = 0)
    (hiw : st.leftSpaceSpan.i < st.sliceWritePtr) :
    netExceptionStage st =
      ({ st with exceptionSpan := { st.exceptionSpan with
          i := st.leftSpaceSpan.l } }, st.leftSpaceSpan.i) := by
  have hAt : hasBitsB (sliceAt st st.leftSpaceSpan.i).bits BITAt = false :=
    hasBitsB_eq_false_of_special _ _ (hall _ hiw) (by decide)
  unfold netExceptionStage
  dsimp only
  rw [if_neg (fun hg => absurd (hAt.symm.trans hg.2) (by decide))]

theorem optScanLoop_plain (st : PState) (islice : Nat)
    (hall : ∀ k, k < st.sliceWritePtr → (sliceAt st k).bits &&& SPECIALS = 0) :
    ∀ (n acc : Nat), n ≤ st.sliceWritePtr →
      (optScanLoop st islice acc n).2 = none := by
  intro n
  induction n with
  | zero => intro acc _; rfl
  | succ m ih =>
    intro acc hn
    unfold optScanLoop
    dsimp only
    by_cases h1 : m < islice
    · rw [if_pos h1]
    · rw [if_neg h1]
      have hd : hasBitsB (sliceAt st m).bits BITDollar = false :=
        hasBitsB_eq_false_of_special _ _ (hall m (by omega)) (by decide)
      rw [if_neg (fun ht => absurd (hd.symm.trans ht) (by decide))]
      exact ih (acc ||| (sliceAt st m).bits) (by omega)

theorem netOptionsStage_plain (st : PState) (islice : Nat)
    (hall : ∀ k, k < st.sliceWritePtr → (sliceAt st k).bits &&& SPECIALS = 0)
    (hoaw : st.optionsAnchorSpan.i ≤ st.sliceWritePtr) :
    netOptionsStage st islice = st := by
  have hnone := optScanLoop_plain st islice hall st.optionsAnchorSpan.i 0 hoaw
  unfold netOptionsStage
  dsimp only
  rw [hnone]

theorem netLeftAnchorStage_plain (st : PState)
    (hall : ∀ k, k < st.sliceWritePtr → (sliceAt st k).bits &&& SPECIALS = 0)
    (hpw : st.patternSpan.i < st.sliceWritePtr) :
    netLeftAnchorStage st = st := by
  have hp : hasBitsB (sliceAt st st.patternSpan.i).bits BITPipe = false :=
    hasBitsB_eq_false_of_special _ _ (hall _ hpw) (by decide)
  unfold netLeftAnchorStage
  rw [if_neg (fun hg => absurd (hp.symm.trans hg.2) (by decide))]

theorem netRightAnchorStage_plain (st : PState)
    (hall : ∀ k, k < st.sliceWritePtr → (sliceAt st k).bits &&& SPECIALS = 0)
    (hpw : st.patternSpan.i < st.sliceWritePtr)
    (hpraw : st.patternRightAnchorSpan.i ≤ st.sliceWritePtr)
    (hw0 : 0 < st.sliceWritePtr) :
    netRightAnchorStage st = st := by
  unfold netRightAnchorStage
  dsimp only
  by_cases hl0 : st.patternSpan.l ≠ 0
  · rw [if_pos hl0]
    have hk : (if st.patternSpan.l > 1 then st.patternRightAnchorSpan.i - 1
        else st.patternSpan.i) < st.sliceWritePtr := by
      split <;> omega
    have hpipe : hasBitsB (sliceAt st
        (if st.patternSpan.l > 1 then st.patternRightAnchorSpan.i - 1
         else st.patternSpan.i)).bits BITPipe = false :=
      hasBitsB_eq_false_of_special _ _ (hall _ hk) (by decide)
    have hcar : hasBitsB (sliceAt st
        (if st.patternSpan.l > 1 then st.patternRightAnchorSpan.i - 1
         else st.patternSpan.i)).bits BITCaret = false :=
      hasBitsB_eq_false_of_special _ _ (hall _ hk) (by decide)
    rw [if_neg (fun ht => absurd (hpipe.symm.trans ht) (by decide)),
      if_neg (fun hg => absurd (hcar.symm.trans hg.1) (by decide))]
  · rw [if_neg hl0]

theorem spaceScan_fst_plain (st : PState) (i : Nat)
    (hall : ∀ k, k < st.sliceWritePtr → (sliceAt st k).bits &&& SPECIALS = 0) :
    ∀ (n acc : Nat), i + n ≤ st.sliceWritePtr → (spaceScan st i acc n).1 = 0 := by
  intro n
  induction n with
  | zero => intro acc _; rfl
  | succ m ih =>
    intro acc hn
    unfold spaceScan
    dsimp only
    have hsb : hasBitsB (sliceAt st (i + m)).bits BITSpace = false :=
      hasBitsB_eq_false_of_special _ _ (hall _ (by omega)) (by decide)
    rw [if_neg (fun ht => absurd (hsb.symm.trans ht) (by decide))]
    exact ih (acc ||| (sliceAt st (i + m)).bits) (by omega)

theorem netSpaceStage_plain (o : Oracles) (st : PState)
    (hall : ∀ k, k < st.sliceWritePtr → (sliceAt st k).bits &&& SPECIALS = 0)
    (hbw : st.patternSpan.i + st.patternSpan.l ≤ st.sliceWritePtr) :
    netSpaceStage o st =
      { st with patternBits :=
        (spaceScan st st.patternSpan.i st.patternBits st.patternSpan.l).2 } := by
  rw [netSpaceStage_decomp]
  dsimp only
  have h0 : (spaceScan st st.patternSpan.i st.patternBits
      st.patternSpan.l).1 = 0 :=
    spaceScan_fst_plain st st.patternSpan.i hall st.patternSpan.l
      st.patternBits (by omega)
  rw [if_neg (fun hj => hj h0)]

theorem wcLead_plain (st : PState)
    (hall : ∀ k, k < st.sliceWritePtr → (sliceAt st k).bits &&& SPECIALS = 0)
    (hpw : st.patternSpan.i < st.sliceWritePtr) :
    wcLead st = st := by
  have hast : hasBitsB (sliceAt st st.patternSpan.i).bits BITAsterisk = false :=
    hasBitsB_eq_false_of_special _ _ (hall _ hpw) (by decide)
  unfold wcLead
  rw [if_neg (fun hg => absurd (hast.symm.trans hg.2.1) (by decide))]

theorem wcTrail_plain (st : PState)
    (hall : ∀ k, k < st.sliceWritePtr → (sliceAt st k).bits &&& SPECIALS = 0)
    (hbw : st.patternSpan.i + st.patternSpan.l ≤ st.sliceWritePtr)
    (hw0 : 0 < st.sliceWritePtr) :
    wcTrail st = st := by
  have hast : hasBitsB (sliceAt st
      (st.patternSpan.i + st.patternSpan.l - 1)).bits BITAsterisk = false :=
    hasBitsB_eq_false_of_special _ _ (hall _ (by omega)) (by decide)
  unfold wcTrail
  rw [if_neg (fun hg => absurd (hast.symm.trans hg.2.1) (by decide))]

theorem wcLeftPointless_plain (st : PState)
    (hall : ∀ k, k < st.sliceWritePtr → (sliceAt st k).bits &&& SPECIALS = 0)
    (hl0 : st.patternSpan.l ≠ 0)
    (hpw : st.patternSpan.i < st.sliceWritePtr) :
    wcLeftPointless st = st := by
  have hast : hasBitsB (sliceAt st st.patternSpan.i).bits BITAsterisk = false :=
    hasBitsB_eq_false_of_special _ _ (hall _ hpw) (by decide)
  unfold wcLeftPointless
  rw [if_neg (fun hg => hg.1.elim (fun h0 => hl0 h0)
    (fun ha => absurd (hast.symm.trans ha) (by decide)))]

theorem wcRightPointless_plain (st : PState)
    (hall : ∀ k, k < st.sliceWritePtr → (sliceAt st k).bits &&& SPECIALS = 0)
    (hl0 : st.patternSpan.l ≠ 0)
    (hbw : st.patternSpan.i + st.patternSpan.l ≤ st.sliceWritePtr)
    (hw0 : 0 < st.sliceWritePtr) :
    wcRightPointless st = st := by
  have hast : hasBitsB (sliceAt st
      (st.patternSpan.i + st.patternSpan.l - 1)).bits BITAsterisk = false :=
    hasBitsB_eq_false_of_special _ _ (hall _ (by omega)) (by decide)
  unfold wcRightPointless
  rw [if_neg (fun hg => hg.1.elim (fun h0 => hl0 h0)
    (fun ha => absurd (hast.symm.trans ha) (by decide)))]

theorem netWildcardStage_plain (st : PState)
    (hall : ∀ k, k < st.sliceWritePtr → (sliceAt st k).bits &&& SPECIALS = 0)
    (hl0 : st.patternSpan.l ≠ 0)
    (hbw : st.patternSpan.i + st.patternSpan.l ≤ st.sliceWritePtr)
    (hpw : st.patternSpan.i < st.sliceWritePtr)
    (hw0 : 0 < st.sliceWritePtr) :
    netWildcardStage st = st := by
  rw [netWildcardStage_decomp, wcLead_plain st hall hpw,
    wcTrail_plain st hall hbw hw0, wcLeftPointless_plain st hall hl0 hpw,
    wcRightPointless_plain st hall hl0 hbw hw0]

end UBP
